import Mathlib

/-!
# Verification of the Carmen state-storage engine against its specification

This file gives a shallow embedding of the parts of the Carmen repository
that the checked claims are about:

* the SQLite-backed block archive (`cpp/state/archive.cc`): its tables are
  embedded as lists of rows, its prepared SQL statements as functions over
  those lists, and its `Add`/`Get*`/`Verify`/`Close` operations as Lean
  functions following the C++ control flow;
* the MPT state adapter (`go/state/mpt/state.go`): `CreateAccount`,
  `SetBalance`, `SetNonce`, `GetCodeHash` and the code-file reader
  `readCodes` (including the `bufio.Reader` chunking semantics it relies
  on);
* the cache-wrapped index (`go/backend/index/cache/cacheindex.go`).

Fixed-width byte strings (addresses, keys, values, balances, nonces,
hashes) are embedded as natural numbers: all the embedded code ever does
with them is compare them for equality or order them bytewise, and for
fixed-width big-endian strings bytewise order coincides with numeric
order.  SHA-256 hash chains are embedded as a free algebra
(`HashChain`): the archive only ever compares hashes it computed itself,
so every fact proved here about chain equality transfers to the real
SHA-256 implementation (equal inputs give equal digests).  Block ids are
embedded as unbounded naturals, with the one subtraction appearing in
`VerifyAccount` carried out over `Int`.
-/

set_option maxRecDepth 40000

deriving instance DecidableEq for Except

namespace Carmen

/-! ## Block updates (`common/update.h`)

An `Update` is the per-block diff handed to `Archive::Add`: lists of
deleted and created accounts, and per-account balance / nonce / code and
storage-slot writes. -/

/-- One storage-slot write inside a block update. -/
structure SlotWrite where
  addr : Nat
  slot : Nat
  value : Nat
deriving DecidableEq

/-- A per-block update, mirroring the access methods used by
`Archive::Add` (`GetDeletedAccounts`, `GetCreatedAccounts`,
`GetBalances`, `GetNonces`, `GetCodes`, `GetStorage`). -/
structure Update where
  deletedAccounts : List Nat
  createdAccounts : List Nat
  balances : List (Nat × Nat)
  nonces : List (Nat × Nat)
  codes : List (Nat × Nat)
  storage : List SlotWrite
deriving DecidableEq

/-- The per-account slice of a block update, as reconstructed by
`Archive::VerifyAccount` and hashed by `Archive::Add`. -/
structure AccountUpdate where
  created : Bool
  deleted : Bool
  balance : Option Nat
  nonce : Option Nat
  code : Option Nat
  storage : List (Nat × Nat)
deriving DecidableEq

/-- The empty `AccountUpdate`, the starting point of the reconstruction
loop in `Archive::VerifyAccount`. -/
def AccountUpdate.emptyA : AccountUpdate :=
  ⟨false, false, none, none, none, []⟩

/-- SHA-256 hash chains, embedded as a free algebra: `zero` is the all-zero
hash (the initial per-account hash), and `link prev diff` stands for
`sha256(prev || sha256(canonicalBytes(diff)))` as computed by
`GetSha256Hash` in `Archive::Add` and `Archive::VerifyAccount`. -/
inductive HashChain
  | zero
  | link (prev : HashChain) (diff : AccountUpdate)
deriving DecidableEq

/-! ## Archive tables (`cpp/state/archive.cc`, schema at the bottom of the
file)

Each SQL table is a list of rows, in insertion order. -/

/-- A row of the `status` table:
`status(account, block, exist, reincarnation, PK(account,block))`. -/
structure StatusRow where
  account : Nat
  block : Nat
  exist : Bool
  reincarnation : Nat
deriving DecidableEq

/-- A row of the `balance`, `nonce` or `code` table:
`(account, block, value, PK(account,block))`. -/
structure ValueRow where
  account : Nat
  block : Nat
  value : Nat
deriving DecidableEq

/-- A row of the `storage` table:
`storage(account, reincarnation, slot, block, value,
PK(account,reincarnation,slot,block))`. -/
structure StorageRow where
  account : Nat
  reincarnation : Nat
  slot : Nat
  block : Nat
  value : Nat
deriving DecidableEq

/-- A row of the `account_hash` table:
`account_hash(account, block, hash, PK(account,block))`. -/
structure HashRow where
  account : Nat
  block : Nat
  hash : HashChain
deriving DecidableEq

/-- The archive database: one list of rows per table. -/
structure ArchiveDB where
  blocks : List Nat
  accountHash : List HashRow
  status : List StatusRow
  balance : List ValueRow
  nonce : List ValueRow
  code : List ValueRow
  storage : List StorageRow
deriving DecidableEq

/-- A freshly opened (empty) archive. -/
def ArchiveDB.empty : ArchiveDB := ⟨[], [], [], [], [], [], []⟩

/-! ## Embedded SQL statements -/

/-- Helper for `ORDER BY block DESC LIMIT 1`: keep the row with the
largest block seen so far (later rows win ties, which cannot occur under
the tables' primary keys). -/
def pickLater {α : Type} (best : Option (Nat × α)) (blk : Nat) (v : α) :
    Option (Nat × α) :=
  match best with
  | none => some (blk, v)
  | some (b0, v0) => if b0 ≤ blk then some (blk, v) else some (b0, v0)

/-- `SELECT value FROM t WHERE account = ? AND block <= ? ORDER BY block
DESC LIMIT 1` over a table projected to `(account, block, payload)`
triples. -/
def selectLastLE {α : Type} (rows : List (Nat × Nat × α)) (a b : Nat) :
    Option (Nat × α) :=
  rows.foldl
    (fun best r =>
      if r.1 = a ∧ r.2.1 ≤ b then pickLater best r.2.1 r.2.2 else best)
    none

/-- `kGetBlockHeightStmt`: `SELECT number FROM block ORDER BY number DESC
LIMIT 1`, with the C++ caller's default of `-1` when the table is
empty. -/
def ArchiveDB.getLastBlockHeight (db : ArchiveDB) : Int :=
  db.blocks.foldl (fun m b => max m (b : Int)) (-1)

/-- `kGetBalanceStmt`: latest balance row at height `≤ b`; the zero value
when there is none. -/
def ArchiveDB.getBalance (db : ArchiveDB) (b a : Nat) : Nat :=
  ((selectLastLE (db.balance.map fun r => (r.account, r.block, r.value)) a b).map
    Prod.snd).getD 0

/-- `kGetCodeStmt`: latest code row at height `≤ b`; the zero value when
there is none. -/
def ArchiveDB.getCode (db : ArchiveDB) (b a : Nat) : Nat :=
  ((selectLastLE (db.code.map fun r => (r.account, r.block, r.value)) a b).map
    Prod.snd).getD 0

/-- `kGetNonceStmt`: latest nonce row at height `≤ b`; the zero value when
there is none. -/
def ArchiveDB.getNonce (db : ArchiveDB) (b a : Nat) : Nat :=
  ((selectLastLE (db.nonce.map fun r => (r.account, r.block, r.value)) a b).map
    Prod.snd).getD 0

/-- `kGetStatusStmt` as used by `Exists`: latest `exist` flag at height
`≤ b`, defaulting to `false`. -/
def ArchiveDB.existsAt (db : ArchiveDB) (b a : Nat) : Bool :=
  ((selectLastLE (db.status.map fun r => (r.account, r.block, r.exist)) a b).map
    Prod.snd).getD false

/-- The `SELECT IFNULL(MAX(reincarnation),0) FROM status WHERE account = ?
AND block <= ?` subquery of `kAddValueStmt` and `kGetValueStmt`. -/
def maxReincLE (rows : List StatusRow) (a b : Nat) : Nat :=
  rows.foldl
    (fun m r => if r.account = a ∧ r.block ≤ b then max m r.reincarnation else m)
    0

/-- The `SELECT IFNULL(MAX(reincarnation)+1,0) FROM status WHERE account =
?` subquery of `kCreateAccountStmt` and `kDeleteAccountStmt` (note: no
block bound). -/
def nextReincarnation (rows : List StatusRow) (a : Nat) : Nat :=
  match rows.foldl
      (fun m r =>
        if r.account = a then
          match m with
          | none => some r.reincarnation
          | some x => some (max x r.reincarnation)
        else m)
      none with
  | none => 0
  | some m => m + 1

/-- `kGetValueStmt`: resolve the reincarnation as of block `b`, then take
the latest matching storage row; the zero value when there is none. -/
def ArchiveDB.getStorage (db : ArchiveDB) (b a k : Nat) : Nat :=
  let r := maxReincLE db.status a b
  ((selectLastLE
      ((db.storage.filter fun row => row.reincarnation = r ∧ row.slot = k).map
        fun row => (row.account, row.block, row.value))
      a b).map Prod.snd).getD 0

/-- `kGetAccountHashStmt`: latest per-account hash at height `≤ b`; the
zero hash when there is none. -/
def ArchiveDB.getAccountHash (db : ArchiveDB) (b a : Nat) : HashChain :=
  ((selectLastLE (db.accountHash.map fun r => (r.account, r.block, r.hash)) a b).map
    Prod.snd).getD HashChain.zero

/-- Insert into a sorted duplicate-free list of accounts. -/
def insertSortedDedup (x : Nat) : List Nat → List Nat
  | [] => [x]
  | y :: ys =>
    if x < y then x :: y :: ys
    else if x = y then y :: ys
    else y :: insertSortedDedup x ys

/-- Sorted list of the distinct elements of `l`
(`SELECT DISTINCT … ORDER BY …`). -/
def sortedDedup (l : List Nat) : List Nat :=
  l.foldr insertSortedDedup []

/-- `GetAccountList`: `SELECT DISTINCT account FROM account_hash WHERE
block <= ? ORDER BY account`. -/
def ArchiveDB.getAccountList (db : ArchiveDB) (b : Nat) : List Nat :=
  sortedDedup ((db.accountHash.filter fun r => r.block ≤ b).map fun r => r.account)

/-- `GetHash`: the streaming SHA-256 over the per-account latest hashes up
to `b`, ordered by account.  The stream digest is embedded freely as the
list of ingested per-account hashes, which the archive only ever compares
with digests it computed the same way. -/
def ArchiveDB.getHash (db : ArchiveDB) (b : Nat) : List HashChain :=
  (db.getAccountList b).map fun a => db.getAccountHash b a

/-! ## `Archive::Add` -/

/-- Errors surfaced by the archive, mirroring the `absl::Status` codes
used in `archive.cc`. -/
inductive ArchiveError
  | precondition (msg : String)
  | constraint (msg : String)
  | internal (msg : String)
deriving DecidableEq

/-- Boolean no-duplicates check, used to embed SQLite's primary-key
enforcement on the rows inserted by one `Add`. -/
def nodupBy {α : Type} [DecidableEq α] : List α → Bool
  | [] => true
  | x :: xs => if x ∈ xs then false else nodupBy xs

/-- The rows one `Add(block, update)` tries to insert violate none of the
tables' primary keys.  (Rows of different blocks can never collide since
`Add` refuses non-increasing blocks, so only within-update duplicates
matter.) -/
def Update.wellFormed (u : Update) : Bool :=
  nodupBy u.deletedAccounts && nodupBy u.createdAccounts &&
  u.deletedAccounts.all (fun a => decide (a ∉ u.createdAccounts)) &&
  nodupBy (u.balances.map Prod.fst) && nodupBy (u.nonces.map Prod.fst) &&
  nodupBy (u.codes.map Prod.fst) &&
  nodupBy (u.storage.map fun w => (w.addr, w.slot))

/-- First component of a pair ordering key is the primary sort field,
second the tie-break; strict lexicographic comparison. -/
def keyLt (x y : Nat × Nat) : Bool :=
  x.1 < y.1 || (x.1 = y.1 && x.2 < y.2)

/-- Stable insertion for `sortByKey` (inserts after equal keys). -/
def insertByKey {α : Type} (key : α → Nat × Nat) : List α → α → List α
  | [], x => [x]
  | y :: ys, x =>
    if keyLt (key x) (key y) then x :: y :: ys else y :: insertByKey key ys x

/-- Stable insertion sort by a `(Nat × Nat)` key; embeds the `ORDER BY`
clauses of the verification queries. -/
def sortByKey {α : Type} (key : α → Nat × Nat) (l : List α) : List α :=
  l.foldl (insertByKey key) []

/-- Find the first (decided) value of `Option.map Prod.snd ∘ List.find?`
over an association list; embeds the spec's per-account lookup into an
update's balance/nonce/code list. -/
def lookupKey (l : List (Nat × Nat)) (a : Nat) : Option Nat :=
  (l.find? fun p => p.1 = a).map Prod.snd

/-- Modelled from the spec: the list of accounts touched by an update, the
key set of `AccountUpdate::From(update)` (`common/update.cc` is not part
of the sources; §4.9 of the spec describes per-account diff hashes over
the grouped update). -/
def Update.touchedAccounts (u : Update) : List Nat :=
  sortedDedup
    (u.deletedAccounts ++ u.createdAccounts ++ u.balances.map Prod.fst ++
      u.nonces.map Prod.fst ++ u.codes.map Prod.fst ++ u.storage.map SlotWrite.addr)

/-- Modelled from the spec: the per-account slice of a block update as
built by `AccountUpdate::From(update)`; `diff_hash =
sha256(canonicalBytes(AccountUpdate))` demands a canonical form, with
storage writes ordered by slot key. -/
def Update.accountDiff (u : Update) (a : Nat) : AccountUpdate where
  created := u.createdAccounts.contains a
  deleted := u.deletedAccounts.contains a
  balance := lookupKey u.balances a
  nonce := lookupKey u.nonces a
  code := lookupKey u.codes a
  storage :=
    sortByKey (fun p => (p.1, 0))
      ((u.storage.filter fun w => w.addr = a).map fun w => (w.slot, w.value))

/-- Modelled from the spec: `AccountUpdate::From(update)` — the grouped
per-account diffs `Archive::Add` hashes (iteration order of the C++ hash
map is unspecified; accounts are listed here in address order, which no
consumer can observe since every query filters or re-orders by
account). -/
def Update.accountDiffs (u : Update) : List (Nat × AccountUpdate) :=
  u.touchedAccounts.map fun a => (a, u.accountDiff a)

/-- The `status` rows inserted for one list of deleted or created accounts
(each insert runs `nextReincarnation` against the table as extended by the
previous inserts of the same transaction). -/
def appendStatusRows (rows : List StatusRow) (blk : Nat) (exist : Bool) :
    List Nat → List StatusRow
  | [] => rows
  | a :: rest =>
    appendStatusRows (rows ++ [⟨a, blk, exist, nextReincarnation rows a⟩]) blk
      exist rest

/-- The `account_hash` rows inserted by one `Add`: for each touched
account, chain the previous hash (`GetAccountHash(block, addr)`, which at
this point sees only strictly older blocks for that account) with the
account's diff. -/
def appendHashRows (rows : List HashRow) (blk : Nat) :
    List (Nat × AccountUpdate) → List HashRow
  | [] => rows
  | (a, diff) :: rest =>
    let prev :=
      ((selectLastLE (rows.map fun r => (r.account, r.block, r.hash)) a blk).map
        Prod.snd).getD HashChain.zero
    appendHashRows (rows ++ [⟨a, blk, HashChain.link prev diff⟩]) blk rest

/-- The successful branch of `Archive::Add`: run all the inserts of the
transaction, in source order (deletes, creates, balances, codes, nonces,
storage writes, hash chain, block row). -/
def ArchiveDB.addPure (db : ArchiveDB) (blk : Nat) (u : Update) : ArchiveDB :=
  let status1 := appendStatusRows db.status blk false u.deletedAccounts
  let status2 := appendStatusRows status1 blk true u.createdAccounts
  { blocks := db.blocks ++ [blk]
    accountHash := appendHashRows db.accountHash blk u.accountDiffs
    status := status2
    balance := db.balance ++ u.balances.map fun p => ⟨p.1, blk, p.2⟩
    nonce := db.nonce ++ u.nonces.map fun p => ⟨p.1, blk, p.2⟩
    code := db.code ++ u.codes.map fun p => ⟨p.1, blk, p.2⟩
    storage :=
      db.storage ++
        u.storage.map fun w => ⟨w.addr, maxReincLE status2 w.addr blk, w.slot, blk, w.value⟩ }

/-- `Archive::Add`: refuse blocks at or below the current watermark
(before anything is written); then run the insert transaction, which
SQLite aborts (rolled back, archive unchanged) on a primary-key
violation. -/
def ArchiveDB.add (db : ArchiveDB) (blk : Nat) (u : Update) :
    Except ArchiveError ArchiveDB :=
  let newest := db.getLastBlockHeight
  if 0 ≤ newest ∧ (blk : Int) ≤ newest then
    .error (.precondition "Unable to insert block, archive already contains block")
  else if u.wellFormed then .ok (db.addPure blk u)
  else .error (.constraint "UNIQUE constraint failed")

/-- An archive produced by a sequence of `Add` calls starting from a
freshly opened database. -/
def buildArchive (history : List (Nat × Update)) : Except ArchiveError ArchiveDB :=
  history.foldlM (fun db e => db.add e.1 e.2) ArchiveDB.empty

/-! ## The outer `Archive` handle (`carmen::Archive`)

The outer class owns an `impl_` pointer; `Close` resets it and every
operation first runs `CheckState`, which fails once `impl_` is null. -/

/-- The outer `carmen::Archive` handle: `impl : none` is the closed
state. -/
structure ArchiveHandle where
  impl : Option ArchiveDB
deriving DecidableEq

/-- `Archive::CheckState`. -/
def ArchiveHandle.checkState (h : ArchiveHandle) : Except ArchiveError Unit :=
  match h.impl with
  | some _ => .ok ()
  | none => .error (.precondition "Archive not connected to DB.")

/-- `Archive::Close`: a no-op returning Ok on an already-closed handle;
otherwise closes the database (which cannot fail in the model) and drops
`impl_`. -/
def ArchiveHandle.close (h : ArchiveHandle) :
    Except ArchiveError Unit × ArchiveHandle :=
  match h.impl with
  | none => (.ok (), h)
  | some _ => (.ok (), ⟨none⟩)

/-- `Archive::Add` on the handle. -/
def ArchiveHandle.addH (h : ArchiveHandle) (blk : Nat) (u : Update) :
    Except ArchiveError Unit × ArchiveHandle :=
  match h.impl with
  | none => (.error (.precondition "Archive not connected to DB."), h)
  | some db =>
    match db.add blk u with
    | .ok db2 => (.ok (), ⟨some db2⟩)
    | .error e => (.error e, h)

/-- `Archive::Exists` on the handle. -/
def ArchiveHandle.existsH (h : ArchiveHandle) (b a : Nat) :
    Except ArchiveError Bool :=
  match h.impl with
  | none => .error (.precondition "Archive not connected to DB.")
  | some db => .ok (db.existsAt b a)

/-- `Archive::GetBalance` on the handle. -/
def ArchiveHandle.getBalanceH (h : ArchiveHandle) (b a : Nat) :
    Except ArchiveError Nat :=
  match h.impl with
  | none => .error (.precondition "Archive not connected to DB.")
  | some db => .ok (db.getBalance b a)

/-- `Archive::GetCode` on the handle. -/
def ArchiveHandle.getCodeH (h : ArchiveHandle) (b a : Nat) :
    Except ArchiveError Nat :=
  match h.impl with
  | none => .error (.precondition "Archive not connected to DB.")
  | some db => .ok (db.getCode b a)

/-- `Archive::GetNonce` on the handle. -/
def ArchiveHandle.getNonceH (h : ArchiveHandle) (b a : Nat) :
    Except ArchiveError Nat :=
  match h.impl with
  | none => .error (.precondition "Archive not connected to DB.")
  | some db => .ok (db.getNonce b a)

/-- `Archive::GetStorage` on the handle. -/
def ArchiveHandle.getStorageH (h : ArchiveHandle) (b a k : Nat) :
    Except ArchiveError Nat :=
  match h.impl with
  | none => .error (.precondition "Archive not connected to DB.")
  | some db => .ok (db.getStorage b a k)

/-- `Archive::GetHash` on the handle. -/
def ArchiveHandle.getHashH (h : ArchiveHandle) (b : Nat) :
    Except ArchiveError (List HashChain) :=
  match h.impl with
  | none => .error (.precondition "Archive not connected to DB.")
  | some db => .ok (db.getHash b)

/-- `Archive::GetAccountList` on the handle. -/
def ArchiveHandle.getAccountListH (h : ArchiveHandle) (b : Nat) :
    Except ArchiveError (List Nat) :=
  match h.impl with
  | none => .error (.precondition "Archive not connected to DB.")
  | some db => .ok (db.getAccountList b)

/-! ## `Archive::Verify` and `Archive::VerifyAccount` -/

/-- The block the `VerifyAccount` loop processes next: the minimum over
the current heads of the five per-table result iterators (`none` when all
iterators are exhausted). -/
def minHead? (state : List (Nat × Bool)) (bal non cod : List (Nat × Nat))
    (stor : List (Nat × Nat × Nat)) : Option Nat :=
  let heads :=
    (state.head?.map Prod.fst).toList ++ (bal.head?.map Prod.fst).toList ++
      (non.head?.map Prod.fst).toList ++ (cod.head?.map Prod.fst).toList ++
      (stor.head?.map Prod.fst).toList
  heads.foldl
    (fun m x =>
      match m with
      | none => some x
      | some y => some (min y x)) none

/-- The `while (next <= block)` loop of `Archive::VerifyAccount`: per
iteration, reconstruct the `AccountUpdate` of the smallest pending block
from the heads of the five content iterators, extend the hash chain by its
diff and compare with the stored `account_hash` row.  The `last` guard
replicates the duplicate-update check of the C++ code (where `last` is
set once, before the loop).  Every call consumes at least one content row,
so the fuel `verifyAccount` supplies can never run out.

`consumeHead` models the `GetInt64(0) == current` head checks of the
individual result iterators. -/
def consumeHead {α : Type} (current : Nat) :
    List (Nat × α) → Option α × List (Nat × α)
  | [] => (none, [])
  | (blk, v) :: rest =>
    if blk = current then (some v, rest) else (none, (blk, v) :: rest)

/-- The `while (next <= block)` replay loop of `Archive::VerifyAccount`. -/
def verifyAccountLoop :
    Nat → List (Nat × Bool) → List (Nat × Nat) → List (Nat × Nat) →
      List (Nat × Nat) → List (Nat × Nat × Nat) → List (Nat × HashChain) →
      Int → HashChain → Except ArchiveError Unit
  | 0, _, _, _, _, _, _, _, _ => .error (.internal "out of fuel")
  | fuel + 1, state, bal, non, cod, stor, hashRows, last, h =>
    match minHead? state bal non cod stor with
    | none =>
      match hashRows with
      | [] => .ok ()
      | _ :: _ => .error (.internal "DB contains hash for update but no data.")
    | some current =>
      if (current : Int) ≤ last then
        .error
          (.internal "Multiple updates for same information in same block found.")
      else
        let st := consumeHead current state
        let ba := consumeHead current bal
        let no := consumeHead current non
        let co := consumeHead current cod
        let slots := stor.takeWhile fun r => r.1 = current
        let stor2 := stor.dropWhile fun r => r.1 = current
        let upd : AccountUpdate :=
          { created := match st.1 with | some ex => ex | none => false
            deleted := match st.1 with | some ex => !ex | none => false
            balance := ba.1
            nonce := no.1
            code := co.1
            storage := slots.map fun r => (r.2.1, r.2.2) }
        match hashRows with
        | [] =>
          .error (.internal "Archive contains update for block but no hash for it.")
        | (hb, stored) :: hashRest =>
          if hb ≠ current then
            .error
              (.internal "Archive contains update for block but no hash for it.")
          else
            let h2 := HashChain.link h upd
            if h2 = stored then
              verifyAccountLoop fuel st.2 ba.2 no.2 co.2 stor2 hashRest last h2
            else .error (.internal "Hash for block does not match.")

/-- `Archive::VerifyAccount`: list each table's rows for the account up to
height `b` in query order (`ORDER BY block`, storage by `block, slot`),
then replay the hash chain with `verifyAccountLoop`. -/
def ArchiveDB.verifyAccount (db : ArchiveDB) (b a : Nat) :
    Except ArchiveError Unit :=
  let stateRows :=
    sortByKey (fun r => (r.1, 0))
      ((db.status.filter fun r => r.account = a ∧ r.block ≤ b).map fun r =>
        (r.block, r.exist))
  let balRows :=
    sortByKey (fun r => (r.1, 0))
      ((db.balance.filter fun r => r.account = a ∧ r.block ≤ b).map fun r =>
        (r.block, r.value))
  let nonRows :=
    sortByKey (fun r => (r.1, 0))
      ((db.nonce.filter fun r => r.account = a ∧ r.block ≤ b).map fun r =>
        (r.block, r.value))
  let codRows :=
    sortByKey (fun r => (r.1, 0))
      ((db.code.filter fun r => r.account = a ∧ r.block ≤ b).map fun r =>
        (r.block, r.value))
  let storRows :=
    sortByKey (fun r => (r.1, r.2.1))
      ((db.storage.filter fun r => r.account = a ∧ r.block ≤ b).map fun r =>
        (r.block, r.slot, r.value))
  let hashRows :=
    sortByKey (fun r => (r.1, 0))
      ((db.accountHash.filter fun r => r.account = a ∧ r.block ≤ b).map fun r =>
        (r.block, r.hash))
  let next0 : Int :=
    match minHead? stateRows balRows nonRows codRows storRows with
    | none => (b : Int) + 1
    | some m => (m : Int)
  let fuel :=
    stateRows.length + balRows.length + nonRows.length + codRows.length +
      storRows.length + 1
  verifyAccountLoop fuel stateRows balRows nonRows codRows storRows hashRows
    (next0 - 1) HashChain.zero

/-- `Archive::Verify`: the database integrity check (not representable in
the embedded database, which holds no file bytes to corrupt), then the
global hash comparison, per-account replay, and the extra-row checks on
each content table. -/
def ArchiveDB.verify (db : ArchiveDB) (b : Nat) (expected : List HashChain) :
    Except ArchiveError Unit :=
  if db.getHash b ≠ expected then
    .error (.internal "Archive hash does not match expected hash.")
  else
    match
      (db.getAccountList b).findSome? fun a =>
        match db.verifyAccount b a with
        | .ok _ => none
        | .error e => some e
    with
    | some e => .error e
    | none =>
      let hashAccounts :=
        (db.accountHash.filter fun r => r.block ≤ b).map fun r => r.account
      let clean (accounts : List Nat) : Bool :=
        accounts.all fun a => hashAccounts.contains a
      if ¬ clean ((db.status.filter fun r => r.block ≤ b).map fun r => r.account) then
        .error (.internal "Found extra row of data in table status.")
      else if ¬ clean ((db.balance.filter fun r => r.block ≤ b).map fun r => r.account) then
        .error (.internal "Found extra row of data in table balance.")
      else if ¬ clean ((db.nonce.filter fun r => r.block ≤ b).map fun r => r.account) then
        .error (.internal "Found extra row of data in table nonce.")
      else if ¬ clean ((db.code.filter fun r => r.block ≤ b).map fun r => r.account) then
        .error (.internal "Found extra row of data in table code.")
      else if ¬ clean ((db.storage.filter fun r => r.block ≤ b).map fun r => r.account) then
        .error (.internal "Found extra row of data in table storage.")
      else .ok ()

/-- `Archive::Verify` on the handle. -/
def ArchiveHandle.verifyH (h : ArchiveHandle) (b : Nat)
    (expected : List HashChain) : Except ArchiveError Unit :=
  match h.impl with
  | none => .error (.precondition "Archive not connected to DB.")
  | some db => db.verify b expected

/-! ## The live trie and `MptState` (`go/state/mpt/state.go`)

`state.go` is part of the sources; the `LiveTrie` it delegates to is not.
The trie is therefore modelled from the spec (§4.7, §4.8): a finite map
from addresses to account information plus a per-account storage map. -/

/-- `AccountInfo`: balance, nonce and code hash of one account. -/
structure AccountInfo where
  balance : Nat
  nonce : Nat
  codeHash : Nat
deriving DecidableEq

/-- The zero `AccountInfo` (Go zero value / `AccountInfo{}`). -/
def AccountInfo.emptyInfo : AccountInfo := ⟨0, 0, 0⟩

/-- One account retained by the live trie. -/
structure TrieAccount where
  addr : Nat
  info : AccountInfo
  storage : List (Nat × Nat)
deriving DecidableEq

/-- Modelled from the spec: the `LiveTrie` single-root view (§4.8), a
finite map from addresses to account info and storage. -/
structure LiveTrie where
  accounts : List TrieAccount
deriving DecidableEq

/-- Modelled from the spec: `GetAccountInfo(addr) → (info, exists)`
(§4.7); a missing account yields the zero info and `exists = false`. -/
def LiveTrie.getAccountInfo (t : LiveTrie) (a : Nat) : AccountInfo × Bool :=
  match t.accounts.find? fun acc => acc.addr = a with
  | some acc => (acc.info, true)
  | none => (AccountInfo.emptyInfo, false)

/-- Modelled from the spec: `SetAccountInfo(addr, info)` (§4.7, §4.8):
storing the zero info deletes the account (its storage root becomes
Empty, and `Exists` turns false — testable property 3); storing a
non-zero info updates the account in place, or inserts it with empty
storage when absent. -/
def LiveTrie.setAccountInfo (t : LiveTrie) (a : Nat) (info : AccountInfo) :
    LiveTrie :=
  if info = AccountInfo.emptyInfo then
    ⟨t.accounts.filter fun acc => acc.addr ≠ a⟩
  else if (t.getAccountInfo a).2 then
    ⟨t.accounts.map fun acc => if acc.addr = a then ⟨acc.addr, info, acc.storage⟩ else acc⟩
  else ⟨t.accounts ++ [⟨a, info, []⟩]⟩

/-- Modelled from the spec: `ClearStorage(addr)` replaces the account's
storage sub-root with Empty (§4.7). -/
def LiveTrie.clearStorage (t : LiveTrie) (a : Nat) : LiveTrie :=
  ⟨t.accounts.map fun acc => if acc.addr = a then ⟨acc.addr, acc.info, []⟩ else acc⟩

/-- Modelled from the spec: `GetValue(addr, key)` (§4.7); missing accounts
and missing slots read as zero. -/
def LiveTrie.getValue (t : LiveTrie) (a k : Nat) : Nat :=
  match t.accounts.find? fun acc => acc.addr = a with
  | some acc => ((acc.storage.find? fun p => p.1 = k).map Prod.snd).getD 0
  | none => 0

/-- The Keccak-256 hash of the empty byte sequence
(`emptyCodeHash = common.GetHash(sha3.NewLegacyKeccak256(), []byte{})`),
as a numeric constant. -/
def emptyCodeHash : Nat :=
  0xc5d2460186f7233c927e7db2dcc703c0e500b653ca82273b7bfad8045d85a470

/-- The `MptState` adapter over the live trie (the contract-code map and
code file play no role in the claims about it). -/
structure MptState where
  trie : LiveTrie
deriving DecidableEq

/-- `MptState.CreateAccount`: for an existing account only clear the
storage; otherwise insert an account whose code hash is the hash of the
empty code. -/
def MptState.createAccount (s : MptState) (a : Nat) : MptState :=
  if (s.trie.getAccountInfo a).2 then ⟨s.trie.clearStorage a⟩
  else ⟨s.trie.setAccountInfo a ⟨0, 0, emptyCodeHash⟩⟩

/-- `MptState.Exists`. -/
def MptState.existsAcc (s : MptState) (a : Nat) : Bool :=
  (s.trie.getAccountInfo a).2

/-- `MptState.GetBalance` (zero for a missing account). -/
def MptState.getBalance (s : MptState) (a : Nat) : Nat :=
  let (info, ex) := s.trie.getAccountInfo a
  if ex then info.balance else 0

/-- `MptState.SetBalance`; the boolean records whether a trie write
(`SetAccountInfo`) was performed. -/
def MptState.setBalance (s : MptState) (a bal : Nat) : MptState × Bool :=
  let (info, ex) := s.trie.getAccountInfo a
  if info.balance = bal then (s, false)
  else
    let info2 : AccountInfo :=
      if ex then ⟨bal, info.nonce, info.codeHash⟩ else ⟨bal, info.nonce, emptyCodeHash⟩
    (⟨s.trie.setAccountInfo a info2⟩, true)

/-- `MptState.SetNonce`; the boolean records whether a trie write
(`SetAccountInfo`) was performed. -/
def MptState.setNonce (s : MptState) (a non : Nat) : MptState × Bool :=
  let (info, ex) := s.trie.getAccountInfo a
  if info.nonce = non then (s, false)
  else
    let info2 : AccountInfo :=
      if ex then ⟨info.balance, non, info.codeHash⟩
      else ⟨info.balance, non, emptyCodeHash⟩
    (⟨s.trie.setAccountInfo a info2⟩, true)

/-- `MptState.GetStorage`, a pass-through to the trie. -/
def MptState.getStorage (s : MptState) (a k : Nat) : Nat :=
  s.trie.getValue a k

/-- `MptState.GetCodeHash`: the account's code hash, or the empty-code
hash when the account does not exist.  (`trie.GetAccountInfo` is the only
fallible call in the Go code, and the spec-modelled trie lookup cannot
fail, so no error component is needed.) -/
def MptState.getCodeHash (s : MptState) (a : Nat) : Nat :=
  let (info, ex) := s.trie.getAccountInfo a
  if ex then info.codeHash else emptyCodeHash

/-! ## `readCodes` and the buffered reader (`go/state/mpt/state.go`)

`readCodes` pulls records through a `bufio.Reader` (default buffer size
4096) over the code file.  `bufio.Reader.Read` serves at most one
underlying read: with a non-empty buffer it returns only the buffered
bytes (up to the requested count, without refilling); with an empty
buffer it refills from the file (a regular file delivers everything
available, up to 4096) unless the request is at least the buffer size,
in which case it reads straight into the destination. -/

/-- Buffered-reader state: the not-yet-consumed buffer bytes and the
remaining file bytes. -/
structure BufReader where
  buffered : List Nat
  rest : List Nat
deriving DecidableEq

/-- The `bufio.Reader` default buffer size. -/
def bufSize : Nat := 4096

/-- One `bufio.Reader.Read` call for `n` requested bytes: the bytes
delivered, an end-of-file flag (the `io.EOF` error return, raised only
when no byte can be delivered), and the next reader state. -/
def BufReader.read (r : BufReader) (n : Nat) : List Nat × Bool × BufReader :=
  if n = 0 then ([], false, r)
  else if r.buffered.isEmpty then
    if r.rest.isEmpty then ([], true, r)
    else if bufSize ≤ n then (r.rest.take n, false, ⟨[], r.rest.drop n⟩)
    else
      let buf := r.rest.take bufSize
      (buf.take n, false, ⟨buf.drop n, r.rest.drop bufSize⟩)
  else (r.buffered.take n, false, ⟨r.buffered.drop n, r.rest⟩)

/-- Outcomes of `readCodes`: the distinguished `errCorruptedCodeFile`, a
raw `io.EOF` propagated unchanged from a length or code read, and fuel
exhaustion (unreachable: every loop iteration consumes at least 32
bytes). -/
inductive CodeReadError
  | corrupted
  | eofErr
  | fuel
deriving DecidableEq

/-- `binary.BigEndian.Uint32` over a 4-byte list. -/
def beUint32 (l : List Nat) : Nat :=
  l.foldl (fun acc b => acc * 256 + b) 0

/-- Store a parsed code record under its hash (Go map assignment:
overwrite an existing key). -/
def insertCode (res : List (List Nat × List Nat)) (h code : List Nat) :
    List (List Nat × List Nat) :=
  if (res.find? fun p => p.1 = h).isSome then
    res.map fun p => if p.1 = h then (h, code) else p
  else res ++ [(h, code)]

/-- The record loop of `readCodes`: read a 32-byte hash (end-of-file here
finishes with the accumulated map; a short read is a corrupted code
file), then a 4-byte big-endian length, then that many code bytes
(end-of-file mid-record propagates as the raw read error; a short read is
a corrupted code file). -/
def readCodesLoop :
    Nat → BufReader → List (List Nat × List Nat) →
      Except CodeReadError (List (List Nat × List Nat))
  | 0, _, _ => .error .fuel
  | f + 1, r, res =>
    let h := r.read 32
    if h.2.1 then .ok res
    else if h.1.length ≠ 32 then .error .corrupted
    else
      let l := h.2.2.read 4
      if l.2.1 then .error .eofErr
      else if l.1.length ≠ 4 then .error .corrupted
      else
        let size := beUint32 l.1
        let c := l.2.2.read size
        if c.2.1 then .error .eofErr
        else if c.1.length ≠ size then .error .corrupted
        else readCodesLoop f c.2.2 (insertCode res h.1 c.1)

/-- `readCodes` over the byte content of an existing code file. -/
def readCodes (file : List Nat) :
    Except CodeReadError (List (List Nat × List Nat)) :=
  readCodesLoop (file.length + 1) ⟨[], file⟩ []

/-! ## The cache-wrapped index (`go/backend/index/cache/cacheindex.go`)

`common.Cache` is not among the sources; it is modelled from the spec
(§4.1) as a bounded LRU map. -/

/-- Modelled from the spec: the generic LRU cache (§4.1), entries kept
most-recently-used first. -/
structure LruCache where
  capacity : Nat
  entries : List (Nat × Nat)
deriving DecidableEq

/-- `Cache.Get`: on a hit promote the key to most-recently-used. -/
def LruCache.get (c : LruCache) (k : Nat) : Option Nat × LruCache :=
  match c.entries.find? fun p => p.1 = k with
  | none => (none, c)
  | some (_, v) =>
    (some v, ⟨c.capacity, (k, v) :: c.entries.filter fun p => p.1 ≠ k⟩)

/-- `Cache.Set`: insert or refresh as most-recently-used; evict the
least-recently-used entry beyond capacity. -/
def LruCache.set (c : LruCache) (k v : Nat) : LruCache :=
  ⟨c.capacity, ((k, v) :: c.entries.filter fun p => p.1 ≠ k).take c.capacity⟩

/-- The distinguished not-found error of the index package
(`index.ErrNotFound`). -/
inductive IndexError
  | notFound
deriving DecidableEq

/-- The wrapped index: the list of keys ever added; `Get` returns a key's
position, or the zero id together with `index.ErrNotFound`. -/
def wrappedGet (keys : List Nat) (k : Nat) : Nat × Option IndexError :=
  match keys.findIdx? fun x => x = k with
  | some i => (i, none)
  | none => (0, some .notFound)

/-- The cache-wrapped index of `cacheindex.go`. -/
structure CacheIndex where
  wrapped : List Nat
  cache : LruCache
deriving DecidableEq

/-- `Index.Get` (cacheindex.go): consult the cache; on a miss delegate to
the wrapped index and cache the returned id — unconditionally, also when
the wrapped lookup failed with `index.ErrNotFound`. -/
def CacheIndex.get (m : CacheIndex) (k : Nat) :
    (Nat × Option IndexError) × CacheIndex :=
  match m.cache.get k with
  | (some v, c2) => ((v, none), ⟨m.wrapped, c2⟩)
  | (none, c2) =>
    let r := wrappedGet m.wrapped k
    ((r.1, r.2), ⟨m.wrapped, c2.set k r.1⟩)

/-! # Theorems -/

/-! ## C9: operations after `Close` -/

/-- C9: after `Archive::Close` has returned, every archive operation
(`Add`, `Exists`, `GetBalance`, `GetCode`, `GetNonce`, `GetStorage`,
`GetHash`, `GetAccountList`, `Verify`) fails with the precondition
("closed") error and leaves the handle unchanged, and a second `Close` is
a no-op returning success. -/
theorem c9_operations_after_close_fail (h : ArchiveHandle) (b a k : Nat)
    (u : Update) (expected : List HashChain) :
    (h.close.2).addH b u =
        (.error (.precondition "Archive not connected to DB."), h.close.2) ∧
    (h.close.2).existsH b a = .error (.precondition "Archive not connected to DB.") ∧
    (h.close.2).getBalanceH b a = .error (.precondition "Archive not connected to DB.") ∧
    (h.close.2).getCodeH b a = .error (.precondition "Archive not connected to DB.") ∧
    (h.close.2).getNonceH b a = .error (.precondition "Archive not connected to DB.") ∧
    (h.close.2).getStorageH b a k = .error (.precondition "Archive not connected to DB.") ∧
    (h.close.2).getHashH b = .error (.precondition "Archive not connected to DB.") ∧
    (h.close.2).getAccountListH b = .error (.precondition "Archive not connected to DB.") ∧
    (h.close.2).verifyH b expected = .error (.precondition "Archive not connected to DB.") ∧
    (h.close.2).close = (.ok (), h.close.2) := by
  obtain ⟨impl⟩ := h
  cases impl <;>
    simp [ArchiveHandle.close, ArchiveHandle.addH, ArchiveHandle.existsH,
      ArchiveHandle.getBalanceH, ArchiveHandle.getCodeH, ArchiveHandle.getNonceH,
      ArchiveHandle.getStorageH, ArchiveHandle.getHashH,
      ArchiveHandle.getAccountListH, ArchiveHandle.verifyH]

/-! ## C4: `Add` precondition and watermark -/

/-- A `max` fold never drops below its initial value. -/
theorem foldl_max_le_init (l : List Nat) :
    ∀ init : Int, init ≤ l.foldl (fun m b => max m (b : Int)) init := by
  induction l with
  | nil => intro init; simp
  | cons x xs ih =>
    intro init
    show init ≤ xs.foldl (fun m b => max m (b : Int)) (max init (x : Int))
    exact le_trans (le_max_left _ _) (ih (max init (x : Int)))

/-- `getLastBlockHeight` never drops below `-1`. -/
theorem getLastBlockHeight_ge (db : ArchiveDB) : -1 ≤ db.getLastBlockHeight :=
  foldl_max_le_init db.blocks (-1)

/-- Appending one block to the table takes the watermark to
`max` of the old watermark and the new block. -/
theorem getLastBlockHeight_append (db : ArchiveDB) (blk : Nat) (u : Update) :
    (db.addPure blk u).getLastBlockHeight = max db.getLastBlockHeight (blk : Int) := by
  simp [ArchiveDB.addPure, ArchiveDB.getLastBlockHeight]

/-- C4: `Archive::Add(b, u)` fails with a precondition error — before
anything is written, so the archive is unchanged — whenever some block has
been inserted and `b` does not exceed the newest one; and a successful
`Add` strictly increases the latest-block watermark, to exactly `b`. -/
theorem c4_add_watermark :
    (∀ (h : ArchiveHandle) (db : ArchiveDB) (b : Nat) (u : Update),
        h.impl = some db →
        0 ≤ db.getLastBlockHeight → (b : Int) ≤ db.getLastBlockHeight →
        h.addH b u =
          (.error (.precondition
            "Unable to insert block, archive already contains block"), h)) ∧
    (∀ (db db2 : ArchiveDB) (b : Nat) (u : Update),
        db.add b u = .ok db2 →
        db.getLastBlockHeight < (b : Int) ∧ db2.getLastBlockHeight = (b : Int)) := by
  constructor
  · intro h db b u himpl h0 hb
    have hadd : db.add b u =
        .error (.precondition
          "Unable to insert block, archive already contains block") := by
      unfold ArchiveDB.add
      simp [h0, hb]
    simp [ArchiveHandle.addH, himpl, hadd]
  · intro db db2 b u hok
    simp only [ArchiveDB.add] at hok
    split at hok
    · exact absurd hok (by simp)
    · rename_i hpre
      have hlt : db.getLastBlockHeight < (b : Int) := by
        rcases not_and_or.mp hpre with h1 | h1
        · calc db.getLastBlockHeight < 0 := lt_of_not_le h1
            _ ≤ (b : Int) := Int.ofNat_nonneg b
        · exact lt_of_not_le h1
      refine ⟨hlt, ?_⟩
      split at hok
      · have hdb : db2 = db.addPure b u := by
          cases hok
          rfl
        subst hdb
        rw [getLastBlockHeight_append]
        exact max_eq_right (le_of_lt hlt)
      · exact absurd hok (by simp)

/-- C4 witness: on an archive holding block 2, adding block 2 again fails
with the precondition error; adding block 3 succeeds and moves the
watermark to 3. -/
theorem c4_add_watermark_witness :
    (ArchiveHandle.mk
        (some (ArchiveDB.empty.addPure 2 ⟨[], [], [], [], [], []⟩))).addH 2
        ⟨[], [], [], [], [], []⟩ =
      (.error (.precondition
        "Unable to insert block, archive already contains block"),
        ArchiveHandle.mk (some (ArchiveDB.empty.addPure 2 ⟨[], [], [], [], [], []⟩))) ∧
    (ArchiveDB.empty.addPure 2 ⟨[], [], [], [], [], []⟩).getLastBlockHeight < (3 : Int) ∧
    ((ArchiveDB.empty.addPure 2 ⟨[], [], [], [], [], []⟩).addPure 3
        ⟨[], [], [], [], [], []⟩).getLastBlockHeight = (3 : Int) := by
  refine ⟨c4_add_watermark.1 _ _ 2 _ rfl (by decide) (by decide), ?_⟩
  exact c4_add_watermark.2 (ArchiveDB.empty.addPure 2 ⟨[], [], [], [], [], []⟩) _ 3
    ⟨[], [], [], [], [], []⟩ (by rfl)

/-! ## C1: archive point queries return the most recent write

The spec-side reference (`lastWriteLE`) follows the spec's words: the
value written by the most recent update of the field at a block at most
`b`, the zero value when no such write exists. -/

/-- The archive obtained by running the insert transactions of a history
unconditionally (the successful path of every `Add`). -/
def buildArchivePure (history : List (Nat × Update)) : ArchiveDB :=
  history.foldl (fun d e => d.addPure e.1 e.2) ArchiveDB.empty

/-- A successful `Add` is exactly `addPure`, and implies the watermark
precondition and the primary-key well-formedness of the update. -/
theorem add_ok_elim (db db2 : ArchiveDB) (blk : Nat) (u : Update)
    (h : db.add blk u = .ok db2) :
    db2 = db.addPure blk u ∧ db.getLastBlockHeight < (blk : Int) ∧
      u.wellFormed = true := by
  simp only [ArchiveDB.add] at h
  split at h
  · exact absurd h (by simp)
  · rename_i hpre
    have hlt : db.getLastBlockHeight < (blk : Int) := by
      rcases not_and_or.mp hpre with h1 | h1
      · calc db.getLastBlockHeight < 0 := lt_of_not_le h1
          _ ≤ (blk : Int) := Int.ofNat_nonneg blk
      · exact lt_of_not_le h1
    split at h
    · rename_i hwf
      cases h
      exact ⟨rfl, hlt, hwf⟩
    · exact absurd h (by simp)

/-- Characterization of a successful build from `db0`: the result is the
pure fold, all blocks exceed `db0`'s watermark, every update is
well-formed, and the blocks are strictly increasing. -/
theorem foldlM_add_ok (history : List (Nat × Update)) :
    ∀ (db0 db : ArchiveDB),
      history.foldlM (fun d e => d.add e.1 e.2) db0 = .ok db →
      db = history.foldl (fun d e => d.addPure e.1 e.2) db0 ∧
      (∀ e ∈ history,
          db0.getLastBlockHeight < (e.1 : Int) ∧ e.2.wellFormed = true) ∧
      List.Pairwise (· < ·) (history.map Prod.fst) := by
  induction history with
  | nil =>
    intro db0 db h
    simp only [List.foldlM_nil] at h
    cases h
    simp
  | cons e rest ih =>
    intro db0 db h
    rw [List.foldlM_cons] at h
    cases hadd : db0.add e.1 e.2 with
    | error err =>
      rw [hadd] at h
      simp only [Bind.bind, Except.bind] at h
      exact absurd h (by simp)
    | ok db1 =>
      rw [hadd] at h
      simp only [Bind.bind, Except.bind] at h
      obtain ⟨hdb1, hblk, hwf⟩ := add_ok_elim db0 db1 e.1 e.2 hadd
      obtain ⟨hdb, hrest, hpair⟩ := ih db1 db h
      have hmax : db1.getLastBlockHeight =
          max db0.getLastBlockHeight (e.1 : Int) := by
        rw [hdb1]; exact getLastBlockHeight_append db0 e.1 e.2
      refine ⟨?_, ?_, ?_⟩
      · rw [List.foldl_cons, ← hdb1, hdb]
      · intro e2 he2
        rcases List.mem_cons.mp he2 with he2 | he2
        · subst he2; exact ⟨hblk, hwf⟩
        · obtain ⟨h1, h2⟩ := hrest e2 he2
          refine ⟨?_, h2⟩
          calc db0.getLastBlockHeight ≤ db1.getLastBlockHeight := by
                rw [hmax]; exact le_max_left _ _
            _ < (e2.1 : Int) := h1
      · rw [List.map_cons]
        refine List.pairwise_cons.mpr ⟨?_, hpair⟩
        intro b2 hb2
        obtain ⟨e2, he2, hfst⟩ := List.mem_map.mp hb2
        obtain ⟨h1, _⟩ := hrest e2 he2
        have : (e.1 : Int) < (e2.1 : Int) := by
          calc (e.1 : Int) ≤ db1.getLastBlockHeight := by
                rw [hmax]; exact le_max_right _ _
            _ < (e2.1 : Int) := h1
        rw [← hfst]
        exact_mod_cast this

/-- Characterization of a successful `buildArchive`. -/
theorem buildArchive_ok (history : List (Nat × Update)) (db : ArchiveDB)
    (h : buildArchive history = .ok db) :
    db = buildArchivePure history ∧
    (∀ e ∈ history, e.2.wellFormed = true) ∧
    List.Pairwise (· < ·) (history.map Prod.fst) := by
  obtain ⟨hdb, hall, hpair⟩ := foldlM_add_ok history ArchiveDB.empty db h
  exact ⟨hdb, fun e he => (hall e he).2, hpair⟩

/-- The rows a history contributes to one of the `balance`/`nonce`/`code`
tables. -/
def histValueRows (proj : Update → List (Nat × Nat)) :
    List (Nat × Update) → List ValueRow
  | [] => []
  | e :: rest =>
    (proj e.2).map (fun p => ValueRow.mk p.1 e.1 p.2) ++ histValueRows proj rest

/-- The `balance` table of a pure build is the history's balance rows. -/
theorem buildPure_balance (history : List (Nat × Update)) :
    ∀ db0 : ArchiveDB,
      (history.foldl (fun d e => d.addPure e.1 e.2) db0).balance =
        db0.balance ++ histValueRows (fun u => u.balances) history := by
  induction history with
  | nil => intro db0; simp [histValueRows]
  | cons e rest ih =>
    intro db0
    rw [List.foldl_cons, ih (db0.addPure e.1 e.2)]
    show (db0.balance ++ _) ++ _ = _
    rw [List.append_assoc]
    rfl

/-- The `nonce` table of a pure build is the history's nonce rows. -/
theorem buildPure_nonce (history : List (Nat × Update)) :
    ∀ db0 : ArchiveDB,
      (history.foldl (fun d e => d.addPure e.1 e.2) db0).nonce =
        db0.nonce ++ histValueRows (fun u => u.nonces) history := by
  induction history with
  | nil => intro db0; simp [histValueRows]
  | cons e rest ih =>
    intro db0
    rw [List.foldl_cons, ih (db0.addPure e.1 e.2)]
    show (db0.nonce ++ _) ++ _ = _
    rw [List.append_assoc]
    rfl

/-- The `code` table of a pure build is the history's code rows. -/
theorem buildPure_code (history : List (Nat × Update)) :
    ∀ db0 : ArchiveDB,
      (history.foldl (fun d e => d.addPure e.1 e.2) db0).code =
        db0.code ++ histValueRows (fun u => u.codes) history := by
  induction history with
  | nil => intro db0; simp [histValueRows]
  | cons e rest ih =>
    intro db0
    rw [List.foldl_cons, ih (db0.addPure e.1 e.2)]
    show (db0.code ++ _) ++ _ = _
    rw [List.append_assoc]
    rfl

/-- The spec-side reference for `Get{Balance,Code,Nonce}`: scanning the
history in block order, remember the `(block, value)` of the most recent
update of the field for account `a` at a block at most `b` (starting from
`acc`, which is `none` for a full query: no write yet). -/
def lastWriteLE (proj : Update → List (Nat × Nat)) (b a : Nat)
    (history : List (Nat × Update)) (acc : Option (Nat × Nat)) :
    Option (Nat × Nat) :=
  history.foldl
    (fun acc e =>
      if e.1 ≤ b then
        match lookupKey (proj e.2) a with
        | some v => some (e.1, v)
        | none => acc
      else acc)
    acc

/-- One step of the embedded `SELECT … ORDER BY block DESC LIMIT 1` fold,
expressed on table rows. -/
def selStepV (a b : Nat) (best : Option (Nat × Nat)) (r : ValueRow) :
    Option (Nat × Nat) :=
  if r.account = a ∧ r.block ≤ b then pickLater best r.block r.value else best

/-- The select over projected triples is a fold of `selStepV` over the
rows. -/
theorem selectLastLE_valueRows (rows : List ValueRow) (a b : Nat) :
    selectLastLE (rows.map fun r => (r.account, r.block, r.value)) a b =
      rows.foldl (selStepV a b) none := by
  rw [selectLastLE, List.foldl_map]
  rfl

/-- A key absent from an association list is not found. -/
theorem lookupKey_eq_none (pairs : List (Nat × Nat)) (a : Nat)
    (h : a ∉ pairs.map Prod.fst) : lookupKey pairs a = none := by
  induction pairs with
  | nil => rfl
  | cons p rest ih =>
    rw [List.map_cons] at h
    have h1 : a ≠ p.1 := fun heq => h (heq ▸ List.mem_cons_self _ _)
    have h2 : a ∉ rest.map Prod.fst := fun hm => h (List.mem_cons_of_mem _ hm)
    show ((p :: rest).find? fun q => q.1 = a).map Prod.snd = none
    rw [List.find?_cons_of_neg _ (by simpa using Ne.symm h1)]
    exact ih h2

/-- Folding the select step over the rows of a single update at block
`blk`: when `blk ≤ b`, the looked-up value of account `a` (if any) wins —
every already-accumulated row is at most as recent; otherwise nothing
changes. -/
theorem foldl_selStep_update (a b blk : Nat) :
    ∀ (pairs : List (Nat × Nat)) (acc : Option (Nat × Nat)),
      nodupBy (pairs.map Prod.fst) = true →
      (∀ p : Nat × Nat, acc = some p → p.1 ≤ blk) →
      (pairs.map fun p => ValueRow.mk p.1 blk p.2).foldl (selStepV a b) acc =
        if blk ≤ b then
          match lookupKey pairs a with
          | some v => some (blk, v)
          | none => acc
        else acc := by
  intro pairs
  induction pairs with
  | nil =>
    intro acc hnd hacc
    show acc = if blk ≤ b then acc else acc
    exact (ite_self acc).symm
  | cons p rest ih =>
    intro acc hnd hacc
    have hnd2 : nodupBy (rest.map Prod.fst) = true ∧
        p.1 ∉ rest.map Prod.fst := by
      rw [List.map_cons] at hnd
      unfold nodupBy at hnd
      split at hnd
      · exact absurd hnd (by simp)
      · rename_i hmem
        exact ⟨hnd, hmem⟩
    rw [List.map_cons, List.foldl_cons]
    by_cases hk : p.1 = a
    · have hlk : lookupKey (p :: rest) a = some p.2 := by
        show ((p :: rest).find? fun q => q.1 = a).map Prod.snd = some p.2
        rw [List.find?_cons_of_pos _ (by simpa using hk)]
        rfl
      by_cases hb : blk ≤ b
      · have hstep : selStepV a b acc (ValueRow.mk p.1 blk p.2) =
            some (blk, p.2) := by
          unfold selStepV
          rw [if_pos ⟨hk, hb⟩]
          cases hac : acc with
          | none => rfl
          | some q =>
            obtain ⟨b0, v0⟩ := q
            show (if b0 ≤ blk then some (blk, p.2) else some (b0, v0)) =
              some (blk, p.2)
            rw [if_pos (hacc (b0, v0) hac)]
        rw [hstep, ih (some (blk, p.2)) hnd2.1 (by intro q hq; cases hq; rfl)]
        have hlr : lookupKey rest a = none := by
          apply lookupKey_eq_none
          rw [← hk]
          exact hnd2.2
        rw [if_pos hb, if_pos hb, hlk, hlr]
      · have hstep : selStepV a b acc (ValueRow.mk p.1 blk p.2) = acc := by
          unfold selStepV
          rw [if_neg]
          rintro ⟨-, h2⟩
          exact hb h2
        rw [hstep, ih acc hnd2.1 hacc, if_neg hb, if_neg hb]
    · have hstep : selStepV a b acc (ValueRow.mk p.1 blk p.2) = acc := by
        unfold selStepV
        rw [if_neg]
        rintro ⟨h1, -⟩
        exact hk h1
      have hlk : lookupKey (p :: rest) a = lookupKey rest a := by
        show ((p :: rest).find? fun q => q.1 = a).map Prod.snd = _
        rw [List.find?_cons_of_neg _ (by simpa using hk)]
        rfl
      rw [hstep, ih acc hnd2.1 hacc, hlk]

/-- Folding the select step over all rows of a strictly
block-increasing, well-formed history computes the spec-side most recent
write. -/
theorem foldl_selStep_history (proj : Update → List (Nat × Nat)) (a b : Nat) :
    ∀ (history : List (Nat × Update)) (acc : Option (Nat × Nat)),
      List.Pairwise (· < ·) (history.map Prod.fst) →
      (∀ e ∈ history, nodupBy ((proj e.2).map Prod.fst) = true) →
      (∀ p : Nat × Nat, acc = some p → ∀ e ∈ history, p.1 ≤ e.1) →
      (histValueRows proj history).foldl (selStepV a b) acc =
        lastWriteLE proj b a history acc := by
  intro history
  induction history with
  | nil =>
    intro acc hpair hnd hacc
    rfl
  | cons e rest ih =>
    intro acc hpair hnd hacc
    rw [List.map_cons, List.pairwise_cons] at hpair
    show ((proj e.2).map (fun p => ValueRow.mk p.1 e.1 p.2) ++
        histValueRows proj rest).foldl (selStepV a b) acc = _
    rw [List.foldl_append]
    rw [foldl_selStep_update a b e.1 (proj e.2) acc (hnd e (by simp))
      (fun p hp => hacc p hp e (by simp))]
    have hstep : lastWriteLE proj b a (e :: rest) acc =
        lastWriteLE proj b a rest
          (if e.1 ≤ b then
            match lookupKey (proj e.2) a with
            | some v => some (e.1, v)
            | none => acc
          else acc) := by
      rw [lastWriteLE, lastWriteLE, List.foldl_cons]
    rw [hstep]
    apply ih _ hpair.2 (fun e2 he2 => hnd e2 (by simp [he2]))
    intro p hp e2 he2
    have heblk : e.1 < e2.1 := hpair.1 e2.1 (List.mem_map.mpr ⟨e2, he2, rfl⟩)
    split at hp
    · split at hp
      · cases hp
        exact le_of_lt heblk
      · exact hacc p hp e2 (by simp [he2])
    · exact hacc p hp e2 (by simp [he2])

/-- C1: on an archive built by successful `Add` calls,
`GetBalance(b, a)`, `GetCode(b, a)` and `GetNonce(b, a)` return the value
written by the most recent update of the respective field at a block at
most `b`, and the zero value (without an error: the lookup is total) when
no such write exists. -/
theorem c1_get_returns_most_recent_write (history : List (Nat × Update))
    (db : ArchiveDB) (hbuild : buildArchive history = .ok db) (b a : Nat) :
    db.getBalance b a =
      ((lastWriteLE (fun u => u.balances) b a history none).map Prod.snd).getD 0 ∧
    db.getCode b a =
      ((lastWriteLE (fun u => u.codes) b a history none).map Prod.snd).getD 0 ∧
    db.getNonce b a =
      ((lastWriteLE (fun u => u.nonces) b a history none).map Prod.snd).getD 0 := by
  obtain ⟨hdb, hwf, hpair⟩ := buildArchive_ok history db hbuild
  have hnd : ∀ (proj : Update → List (Nat × Nat)),
      (∀ u, u.wellFormed = true → nodupBy ((proj u).map Prod.fst) = true) →
      ∀ e ∈ history, nodupBy ((proj e.2).map Prod.fst) = true :=
    fun proj h e he => h e.2 (hwf e he)
  have hbal : ∀ u : Update, u.wellFormed = true →
      nodupBy ((u.balances).map Prod.fst) = true := by
    intro u hu
    unfold Update.wellFormed at hu
    simp only [Bool.and_eq_true] at hu
    exact hu.1.1.1.2
  have hcod : ∀ u : Update, u.wellFormed = true →
      nodupBy ((u.codes).map Prod.fst) = true := by
    intro u hu
    unfold Update.wellFormed at hu
    simp only [Bool.and_eq_true] at hu
    exact hu.1.2
  have hnon : ∀ u : Update, u.wellFormed = true →
      nodupBy ((u.nonces).map Prod.fst) = true := by
    intro u hu
    unfold Update.wellFormed at hu
    simp only [Bool.and_eq_true] at hu
    exact hu.1.1.2
  subst hdb
  refine ⟨?_, ?_, ?_⟩
  · rw [ArchiveDB.getBalance, show (buildArchivePure history).balance =
      histValueRows (fun u => u.balances) history from buildPure_balance history ArchiveDB.empty]
    rw [selectLastLE_valueRows,
      foldl_selStep_history _ a b history none hpair (hnd _ hbal) (by intro p hp; cases hp)]
  · rw [ArchiveDB.getCode, show (buildArchivePure history).code =
      histValueRows (fun u => u.codes) history from buildPure_code history ArchiveDB.empty]
    rw [selectLastLE_valueRows,
      foldl_selStep_history _ a b history none hpair (hnd _ hcod) (by intro p hp; cases hp)]
  · rw [ArchiveDB.getNonce, show (buildArchivePure history).nonce =
      histValueRows (fun u => u.nonces) history from buildPure_nonce history ArchiveDB.empty]
    rw [selectLastLE_valueRows,
      foldl_selStep_history _ a b history none hpair (hnd _ hnon) (by intro p hp; cases hp)]

/-- C1 witness: on the archive of block 1 (balance 5, nonce 1, code 3 for
account 10) and block 2 (balance 7), the queries at heights 1, 2 and 3
return the most recent writes, and zero before any write. -/
theorem c1_get_returns_most_recent_write_witness :
    buildArchive
        [(1, ⟨[], [10], [(10, 5)], [(10, 1)], [(10, 3)], []⟩),
          (2, ⟨[], [], [(10, 7)], [], [], []⟩)] =
      .ok (buildArchivePure
        [(1, ⟨[], [10], [(10, 5)], [(10, 1)], [(10, 3)], []⟩),
          (2, ⟨[], [], [(10, 7)], [], [], []⟩)]) ∧
    (buildArchivePure
        [(1, ⟨[], [10], [(10, 5)], [(10, 1)], [(10, 3)], []⟩),
          (2, ⟨[], [], [(10, 7)], [], [], []⟩)]).getBalance 2 10 =
      ((lastWriteLE (fun u => u.balances) 2 10
          [(1, ⟨[], [10], [(10, 5)], [(10, 1)], [(10, 3)], []⟩),
            (2, ⟨[], [], [(10, 7)], [], [], []⟩)] none).map Prod.snd).getD 0 := by
  refine ⟨by decide, ?_⟩
  exact (c1_get_returns_most_recent_write _ _ (by decide) 2 10).1

/-! ## C2: `GetStorage` and reincarnations

Spec-side definitions: a status (creation/deletion) event counter per
account, the reincarnation counter it induces as of a block (number of
events at blocks at most `b`, minus one; zero when there are none — the
SQL `IFNULL(…, 0)` defaults), and the most recent storage write within
the reincarnation in effect. -/

/-- How many status rows an update inserts for account `a` (one per
membership in the deleted and created lists). -/
def statusEventCount (u : Update) (a : Nat) : Nat :=
  (if a ∈ u.deletedAccounts then 1 else 0) +
    (if a ∈ u.createdAccounts then 1 else 0)

/-- Number of status events for `a` at blocks at most `b`. -/
def eventsLE (history : List (Nat × Update)) (b a : Nat) : Nat :=
  (history.map fun e => if e.1 ≤ b then statusEventCount e.2 a else 0).sum

/-- Total number of status events for `a`. -/
def eventsAll (history : List (Nat × Update)) (a : Nat) : Nat :=
  (history.map fun e => statusEventCount e.2 a).sum

/-- The spec-side reincarnation counter of `a` as of block `b` (the
`n`-th event carries reincarnation `n - 1`; no event means zero). -/
def specReinc (history : List (Nat × Update)) (b a : Nat) : Nat :=
  eventsLE history b a - 1

/-- Lookup of a slot write for `(a, k)` inside one update. -/
def lookupSlot (l : List SlotWrite) (a k : Nat) : Option Nat :=
  (l.find? fun w => w.addr = a ∧ w.slot = k).map SlotWrite.value

/-- The spec-side reference for `GetStorage`: the most recent write to
slot `k` of `a` at a block at most `b` whose write-time reincarnation is
the one in effect at block `b`; `none` when there is no such write. -/
def specStorageLE (history : List (Nat × Update)) (b a k : Nat) :
    Option (Nat × Nat) :=
  history.foldl
    (fun acc e =>
      if e.1 ≤ b ∧ specReinc history e.1 a = specReinc history b a then
        match lookupSlot e.2.storage a k with
        | some v => some (e.1, v)
        | none => acc
      else acc)
    none

theorem eventsLE_append (history : List (Nat × Update)) (blk : Nat)
    (u : Update) (b a : Nat) :
    eventsLE (history ++ [(blk, u)]) b a =
      eventsLE history b a + (if blk ≤ b then statusEventCount u a else 0) := by
  unfold eventsLE
  rw [List.map_append, List.sum_append]
  rfl

theorem eventsAll_append (history : List (Nat × Update)) (blk : Nat)
    (u : Update) (a : Nat) :
    eventsAll (history ++ [(blk, u)]) a =
      eventsAll history a + statusEventCount u a := by
  unfold eventsAll
  rw [List.map_append, List.sum_append]
  rfl

/-- When every block of the history is at most `b`, counting events up to
`b` counts them all. -/
theorem eventsLE_eq_all (history : List (Nat × Update)) (b a : Nat)
    (h : ∀ e ∈ history, e.1 ≤ b) : eventsLE history b a = eventsAll history a := by
  unfold eventsLE eventsAll
  congr 1
  apply List.map_congr_left
  intro e he
  rw [if_pos (h e he)]

/-- Appending later blocks does not change the event count at `b`. -/
theorem eventsLE_append_later (history : List (Nat × Update)) (blk : Nat)
    (u : Update) (b a : Nat) (h : ¬ blk ≤ b) :
    eventsLE (history ++ [(blk, u)]) b a = eventsLE history b a := by
  rw [eventsLE_append, if_neg h]
  rfl

/-- Counting up to `b` never exceeds the total. -/
theorem eventsLE_le_all (history : List (Nat × Update)) (b a : Nat) :
    eventsLE history b a ≤ eventsAll history a := by
  unfold eventsLE eventsAll
  apply List.sum_le_sum
  intro e he
  split
  · exact le_refl _
  · exact Nat.zero_le _

/-! Effect of a single status-row insert on the two reincarnation
queries. -/

/-- Inserting the row for `acc` bumps `acc`'s next reincarnation by one
and leaves other accounts untouched. -/
theorem nextReincarnation_append (S : List StatusRow) (acc blk : Nat)
    (ex : Bool) (a : Nat) :
    nextReincarnation (S ++ [⟨acc, blk, ex, nextReincarnation S acc⟩]) a =
      nextReincarnation S a + (if a = acc then 1 else 0) := by
  unfold nextReincarnation
  rw [List.foldl_append, List.foldl_cons, List.foldl_nil]
  by_cases hac : a = acc
  · subst hac
    simp only [if_pos rfl]
    cases hS : List.foldl _ none S with
    | none => simp [hS]
    | some x => simp [hS]
  · have : (⟨acc, blk, ex, nextReincarnation S acc⟩ : StatusRow).account ≠ a :=
      fun h => hac h.symm
    simp only [if_neg this, if_neg hac]
    cases hS : List.foldl _ none S with
    | none => simp
    | some x => simp

/-- Inserting the row for `acc` raises the bounded-max query of `acc` (for
high enough `b`) to the inserted reincarnation, and leaves other accounts
and lower `b` untouched. -/
theorem maxReincLE_append (S : List StatusRow) (acc blk : Nat) (ex : Bool)
    (n a b : Nat) :
    maxReincLE (S ++ [⟨acc, blk, ex, n⟩]) a b =
      if acc = a ∧ blk ≤ b then max (maxReincLE S a b) n else maxReincLE S a b := by
  unfold maxReincLE
  rw [List.foldl_append]
  rfl

/-- The components of a well-formed update (the primary keys its `Add`
inserts must respect). -/
theorem wellFormed_elim (u : Update) (h : u.wellFormed = true) :
    nodupBy u.deletedAccounts = true ∧ nodupBy u.createdAccounts = true ∧
    (∀ a ∈ u.deletedAccounts, a ∉ u.createdAccounts) ∧
    nodupBy (u.balances.map Prod.fst) = true ∧
    nodupBy (u.nonces.map Prod.fst) = true ∧
    nodupBy (u.codes.map Prod.fst) = true ∧
    nodupBy (u.storage.map fun w => (w.addr, w.slot)) = true := by
  unfold Update.wellFormed at h
  simp only [Bool.and_eq_true] at h
  refine ⟨h.1.1.1.1.1.1, h.1.1.1.1.1.2, ?_, h.1.1.1.2, h.1.1.2, h.1.2, h.2⟩
  intro a ha
  have halt := h.1.1.1.1.2
  rw [List.all_eq_true] at halt
  simpa using halt a ha

/-- Effect of one delete/create insert loop on the next-reincarnation
query: one bump per listed account (the accounts are pairwise distinct, as
enforced by the status primary key). -/
theorem appendStatusRows_nextReinc (blk : Nat) (ex : Bool) :
    ∀ (accs : List Nat) (S : List StatusRow) (a : Nat),
      nodupBy accs = true →
      nextReincarnation (appendStatusRows S blk ex accs) a =
        nextReincarnation S a + (if a ∈ accs then 1 else 0) := by
  intro accs
  induction accs with
  | nil =>
    intro S a hnd
    simp [appendStatusRows]
  | cons acc rest ih =>
    intro S a hnd
    have hnd2 : nodupBy rest = true ∧ acc ∉ rest := by
      unfold nodupBy at hnd
      split at hnd
      · exact absurd hnd (by simp)
      · rename_i hmem
        exact ⟨hnd, hmem⟩
    show nextReincarnation
        (appendStatusRows (S ++ [⟨acc, blk, ex, nextReincarnation S acc⟩]) blk ex rest) a = _
    rw [ih _ a hnd2.1, nextReincarnation_append]
    by_cases hac : a = acc
    · subst hac
      rw [if_pos rfl, if_pos (List.mem_cons_self _ _), if_neg hnd2.2]
    · rw [if_neg hac]
      by_cases hmem : a ∈ rest
      · rw [if_pos hmem, if_pos (List.mem_cons_of_mem _ hmem)]
      · rw [if_neg hmem,
          if_neg (fun hm => (List.mem_cons.mp hm).elim hac hmem)]

/-- Effect of one delete/create insert loop on the bounded-max
reincarnation query. -/
theorem appendStatusRows_maxReincLE (blk : Nat) (ex : Bool) :
    ∀ (accs : List Nat) (S : List StatusRow) (a b : Nat),
      nodupBy accs = true →
      maxReincLE (appendStatusRows S blk ex accs) a b =
        if a ∈ accs ∧ blk ≤ b then
          max (maxReincLE S a b) (nextReincarnation S a)
        else maxReincLE S a b := by
  intro accs
  induction accs with
  | nil =>
    intro S a b hnd
    show maxReincLE S a b = if a ∈ ([] : List Nat) ∧ blk ≤ b then _ else maxReincLE S a b
    rw [if_neg (by rintro ⟨h, -⟩; cases h)]
  | cons acc rest ih =>
    intro S a b hnd
    have hnd2 : nodupBy rest = true ∧ acc ∉ rest := by
      unfold nodupBy at hnd
      split at hnd
      · exact absurd hnd (by simp)
      · rename_i hmem
        exact ⟨hnd, hmem⟩
    show maxReincLE
        (appendStatusRows (S ++ [⟨acc, blk, ex, nextReincarnation S acc⟩]) blk ex rest) a b = _
    rw [ih _ a b hnd2.1, maxReincLE_append, nextReincarnation_append]
    by_cases hac : a = acc
    · subst hac
      simp [hnd2.2, List.mem_cons]
    · have hac2 : ¬ acc = a := fun hm => hac hm.symm
      simp [hac, hac2, List.mem_cons]

/-- The status-table invariant of a built archive: the two reincarnation
subqueries compute the spec-side event counters. -/
def StatusInv (S : List StatusRow) (history : List (Nat × Update)) : Prop :=
  (∀ a b, maxReincLE S a b = specReinc history b a) ∧
  (∀ a, nextReincarnation S a = eventsAll history a)

/-- The status table of a purely built archive satisfies the
invariant. -/
theorem statusInv_build (history : List (Nat × Update))
    (hwf : ∀ e ∈ history, e.2.wellFormed = true)
    (hpair : List.Pairwise (· < ·) (history.map Prod.fst)) :
    StatusInv (buildArchivePure history).status history := by
  induction history using List.reverseRecOn with
  | nil =>
    constructor
    · intro a b
      rfl
    · intro a
      rfl
  | append_singleton h e ih =>
    obtain ⟨blk, u⟩ := e
    have hpair2 : List.Pairwise (· < ·) (h.map Prod.fst) ∧
        ∀ x ∈ h.map Prod.fst, x < blk := by
      rw [List.map_append] at hpair
      have := List.pairwise_append.mp hpair
      exact ⟨this.1, fun x hx => this.2.2 x hx blk (by simp)⟩
    have hwfh : ∀ e2 ∈ h, e2.2.wellFormed = true :=
      fun e2 he2 => hwf e2 (by simp [he2])
    obtain ⟨hmax, hnext⟩ := ih hwfh hpair2.1
    obtain ⟨hdel, hcre, hdis, -, -, -, -⟩ :=
      wellFormed_elim u (hwf (blk, u) (by simp))
    have hS : (buildArchivePure (h ++ [(blk, u)])).status =
        appendStatusRows
          (appendStatusRows (buildArchivePure h).status blk false u.deletedAccounts)
          blk true u.createdAccounts := by
      unfold buildArchivePure
      rw [List.foldl_append]
      rfl
    have hnext1 : ∀ a,
        nextReincarnation
          (appendStatusRows (buildArchivePure h).status blk false u.deletedAccounts) a =
          eventsAll h a + (if a ∈ u.deletedAccounts then 1 else 0) := by
      intro a
      rw [appendStatusRows_nextReinc blk false u.deletedAccounts _ a hdel, hnext]
    constructor
    · intro a b
      rw [hS, appendStatusRows_maxReincLE blk true u.createdAccounts _ a b hcre,
        appendStatusRows_maxReincLE blk false u.deletedAccounts _ a b hdel,
        hmax, hnext, hnext1]
      unfold specReinc
      rw [eventsLE_append]
      by_cases hb : blk ≤ b
      · have hall : eventsLE h b a = eventsAll h a :=
          eventsLE_eq_all h b a (fun e2 he2 =>
            le_of_lt (lt_of_lt_of_le
              (hpair2.2 e2.1 (List.mem_map.mpr ⟨e2, he2, rfl⟩)) hb))
        by_cases hdm : a ∈ u.deletedAccounts
        · have hcm : a ∉ u.createdAccounts := hdis a hdm
          simp [hb, hdm, hcm, hall, statusEventCount]
        · by_cases hcm : a ∈ u.createdAccounts
          · simp [hb, hdm, hcm, hall, statusEventCount]
          · simp [hb, hdm, hcm, hall, statusEventCount]
      · simp [hb]
    · intro a
      rw [hS, appendStatusRows_nextReinc blk true u.createdAccounts _ a hcre,
        hnext1, eventsAll_append]
      unfold statusEventCount
      omega

/-- Concatenation of per-element row lists. -/
def flatRows {α β : Type} (f : α → List β) : List α → List β
  | [] => []
  | x :: xs => f x ++ flatRows f xs

theorem flatRows_append {α β : Type} (f : α → List β) (l1 l2 : List α) :
    flatRows f (l1 ++ l2) = flatRows f l1 ++ flatRows f l2 := by
  induction l1 with
  | nil => rfl
  | cons x xs ih =>
    show f x ++ flatRows f (xs ++ l2) = (f x ++ flatRows f xs) ++ flatRows f l2
    rw [ih, List.append_assoc]

theorem flatRows_congr {α β : Type} (f g : α → List β) (l : List α)
    (h : ∀ x ∈ l, f x = g x) : flatRows f l = flatRows g l := by
  induction l with
  | nil => rfl
  | cons x xs ih =>
    show f x ++ flatRows f xs = g x ++ flatRows g xs
    rw [h x (by simp), ih (fun y hy => h y (by simp [hy]))]

/-- The storage rows one update contributes: each write is tagged with the
reincarnation in effect at its block (resolved over the whole history —
later blocks cannot affect it). -/
def storageRowsOf (history : List (Nat × Update)) (e : Nat × Update) :
    List StorageRow :=
  e.2.storage.map fun w =>
    ⟨w.addr, specReinc history e.1 w.addr, w.slot, e.1, w.value⟩

/-- All storage rows of a history. -/
def histStorageRows (history : List (Nat × Update)) : List StorageRow :=
  flatRows (storageRowsOf history) history

/-- The `storage` table of a purely built, well-formed archive is the
history's storage rows. -/
theorem buildPure_storage (history : List (Nat × Update))
    (hwf : ∀ e ∈ history, e.2.wellFormed = true)
    (hpair : List.Pairwise (· < ·) (history.map Prod.fst)) :
    (buildArchivePure history).storage = histStorageRows history := by
  induction history using List.reverseRecOn with
  | nil => rfl
  | append_singleton h e ih =>
    obtain ⟨blk, u⟩ := e
    have hpair2 : List.Pairwise (· < ·) (h.map Prod.fst) ∧
        ∀ x ∈ h.map Prod.fst, x < blk := by
      rw [List.map_append] at hpair
      have := List.pairwise_append.mp hpair
      exact ⟨this.1, fun x hx => this.2.2 x hx blk (by simp)⟩
    have hwfh : ∀ e2 ∈ h, e2.2.wellFormed = true :=
      fun e2 he2 => hwf e2 (by simp [he2])
    have hstat := statusInv_build (h ++ [(blk, u)]) hwf hpair
    have hbuild : buildArchivePure (h ++ [(blk, u)]) =
        (buildArchivePure h).addPure blk u := by
      unfold buildArchivePure
      rw [List.foldl_append]
      rfl
    have hstatus2 :
        appendStatusRows
          (appendStatusRows (buildArchivePure h).status blk false u.deletedAccounts)
          blk true u.createdAccounts =
          (buildArchivePure (h ++ [(blk, u)])).status := by
      rw [hbuild]
      rfl
    have hstor : (buildArchivePure (h ++ [(blk, u)])).storage =
        (buildArchivePure h).storage ++
          u.storage.map (fun w =>
            StorageRow.mk w.addr
              (maxReincLE (buildArchivePure (h ++ [(blk, u)])).status w.addr blk)
              w.slot blk w.value) := by
      rw [hbuild]
      show (buildArchivePure h).storage ++
          u.storage.map (fun w =>
            StorageRow.mk w.addr
              (maxReincLE
                (appendStatusRows
                  (appendStatusRows (buildArchivePure h).status blk false
                    u.deletedAccounts)
                  blk true u.createdAccounts) w.addr blk)
              w.slot blk w.value) = _
      rw [hstatus2, hbuild]
    rw [hstor, ih hwfh hpair2.1]
    unfold histStorageRows
    rw [flatRows_append]
    have hold : flatRows (storageRowsOf (h ++ [(blk, u)])) h =
        flatRows (storageRowsOf h) h := by
      apply flatRows_congr
      intro e2 he2
      unfold storageRowsOf
      apply List.map_congr_left
      intro w hw
      have hlt : e2.1 < blk := hpair2.2 e2.1 (List.mem_map.mpr ⟨e2, he2, rfl⟩)
      unfold specReinc
      rw [eventsLE_append_later h blk u e2.1 w.addr (by omega)]
    rw [hold]
    congr 1
    show _ = storageRowsOf (h ++ [(blk, u)]) (blk, u) ++ []
    rw [List.append_nil]
    unfold storageRowsOf
    apply List.map_congr_left
    intro w hw
    rw [(hstat.1 w.addr blk)]

/-- Folding over a filtered list is folding with a guard. -/
theorem foldl_filter_guard {α β : Type} (p : α → Bool) (f : β → α → β) :
    ∀ (l : List α) (init : β),
      (l.filter p).foldl f init =
        l.foldl (fun acc x => if p x then f acc x else acc) init := by
  intro l
  induction l with
  | nil => intro init; rfl
  | cons x xs ih =>
    intro init
    rw [List.filter_cons, List.foldl_cons]
    by_cases hx : p x = true
    · rw [if_pos hx, List.foldl_cons, ih (f init x), if_pos hx]
    · rw [if_neg hx, ih init, if_neg hx]

/-- One step of the storage select
(`WHERE account = ? AND reincarnation = ? AND slot = ? AND block <= ?
ORDER BY block DESC LIMIT 1`) on storage rows. -/
def selStepS (a b r k : Nat) (best : Option (Nat × Nat)) (row : StorageRow) :
    Option (Nat × Nat) :=
  if row.reincarnation = r ∧ row.slot = k then
    if row.account = a ∧ row.block ≤ b then pickLater best row.block row.value
    else best
  else best

/-- Pointwise-equal step functions fold alike. -/
theorem foldl_congr_fun {α β : Type} (f g : β → α → β) :
    ∀ (l : List α) (init : β), (∀ acc x, f acc x = g acc x) →
      l.foldl f init = l.foldl g init := by
  intro l
  induction l with
  | nil => intro init h; rfl
  | cons x xs ih =>
    intro init h
    rw [List.foldl_cons, List.foldl_cons, h, ih _ h]

/-- `getStorage` as a single fold over the storage table. -/
theorem getStorage_as_fold (db : ArchiveDB) (b a k : Nat) :
    db.getStorage b a k =
      ((db.storage.foldl (selStepS a b (maxReincLE db.status a b) k) none).map
        Prod.snd).getD 0 := by
  simp only [ArchiveDB.getStorage, selectLastLE]
  rw [List.foldl_map, foldl_filter_guard]
  congr 2
  apply foldl_congr_fun
  intro acc x
  unfold selStepS
  by_cases hc : x.reincarnation = maxReincLE db.status a b ∧ x.slot = k
  · rw [if_pos (by simpa using hc), if_pos hc]
  · rw [if_neg (by simpa using hc), if_neg hc]

/-- A slot key absent from an update's writes is not found. -/
theorem lookupSlot_eq_none (ws : List SlotWrite) (a k : Nat)
    (h : (a, k) ∉ ws.map fun w => (w.addr, w.slot)) :
    lookupSlot ws a k = none := by
  induction ws with
  | nil => rfl
  | cons w rest ih =>
    rw [List.map_cons] at h
    have h1 : ¬ (w.addr = a ∧ w.slot = k) := by
      intro hw
      exact h (by simp [hw.1, hw.2])
    have h2 : (a, k) ∉ rest.map fun w => (w.addr, w.slot) :=
      fun hm => h (List.mem_cons_of_mem _ hm)
    show ((w :: rest).find? fun w2 => w2.addr = a ∧ w2.slot = k).map
        SlotWrite.value = none
    rw [List.find?_cons_of_neg _ (by simpa using h1)]
    exact ih h2

/-- Folding the storage select step over the rows of a single update at
block `blk` (with write-time reincarnations given by `rr`): when
`blk ≤ b` and the account's write-time reincarnation matches the queried
one, the update's write to `(a, k)` (if any) wins; otherwise nothing
changes. -/
theorem foldl_selStepS_update (a b r k blk : Nat) (rr : Nat → Nat) :
    ∀ (ws : List SlotWrite) (acc : Option (Nat × Nat)),
      nodupBy (ws.map fun w => (w.addr, w.slot)) = true →
      (∀ p : Nat × Nat, acc = some p → p.1 ≤ blk) →
      (ws.map fun w => StorageRow.mk w.addr (rr w.addr) w.slot blk w.value).foldl
          (selStepS a b r k) acc =
        if blk ≤ b ∧ rr a = r then
          match lookupSlot ws a k with
          | some v => some (blk, v)
          | none => acc
        else acc := by
  intro ws
  induction ws with
  | nil =>
    intro acc hnd hacc
    show acc = if blk ≤ b ∧ rr a = r then acc else acc
    rw [ite_self]
  | cons w rest ih =>
    intro acc hnd hacc
    have hnd2 : nodupBy (rest.map fun w => (w.addr, w.slot)) = true ∧
        (w.addr, w.slot) ∉ rest.map fun w => (w.addr, w.slot) := by
      rw [List.map_cons] at hnd
      unfold nodupBy at hnd
      split at hnd
      · exact absurd hnd (by simp)
      · rename_i hmem
        exact ⟨hnd, hmem⟩
    rw [List.map_cons, List.foldl_cons]
    by_cases hm : w.addr = a ∧ w.slot = k
    · have hlk : lookupSlot (w :: rest) a k = some w.value := by
        show ((w :: rest).find? fun w2 => w2.addr = a ∧ w2.slot = k).map
          SlotWrite.value = some w.value
        rw [List.find?_cons_of_pos _ (by simpa using hm)]
        rfl
      have hlr : lookupSlot rest a k = none := by
        apply lookupSlot_eq_none
        rw [← hm.1, ← hm.2]
        exact hnd2.2
      by_cases hcond : blk ≤ b ∧ rr a = r
      · have hstep : selStepS a b r k acc
            (StorageRow.mk w.addr (rr w.addr) w.slot blk w.value) =
            some (blk, w.value) := by
          unfold selStepS
          rw [if_pos (⟨by rw [hm.1]; exact hcond.2, hm.2⟩ :
            rr w.addr = r ∧ w.slot = k)]
          rw [if_pos ⟨hm.1, hcond.1⟩]
          unfold pickLater
          cases hac : acc with
          | none => rfl
          | some q =>
            obtain ⟨b0, v0⟩ := q
            show (if b0 ≤ blk then some (blk, w.value) else some (b0, v0)) =
              some (blk, w.value)
            rw [if_pos (hacc (b0, v0) hac)]
        rw [hstep, ih (some (blk, w.value)) hnd2.1 (by intro q hq; cases hq; rfl)]
        rw [if_pos hcond, if_pos hcond, hlk, hlr]
      · have hstep : selStepS a b r k acc
            (StorageRow.mk w.addr (rr w.addr) w.slot blk w.value) = acc := by
          unfold selStepS
          by_cases h1 : rr w.addr = r ∧ w.slot = k
          · rw [if_pos h1, if_neg]
            rintro ⟨h2, h3⟩
            apply hcond
            refine ⟨h3, ?_⟩
            rw [← hm.1, h1.1]
          · rw [if_neg h1]
        rw [hstep, ih acc hnd2.1 hacc, if_neg hcond, if_neg hcond]
    · have hstep : selStepS a b r k acc
          (StorageRow.mk w.addr (rr w.addr) w.slot blk w.value) = acc := by
        unfold selStepS
        by_cases h1 : rr w.addr = r ∧ w.slot = k
        · rw [if_pos h1, if_neg]
          rintro ⟨h2, h3⟩
          exact hm ⟨h2, h1.2⟩
        · rw [if_neg h1]
      have hlk : lookupSlot (w :: rest) a k = lookupSlot rest a k := by
        show ((w :: rest).find? fun w2 => w2.addr = a ∧ w2.slot = k).map
          SlotWrite.value = _
        rw [List.find?_cons_of_neg _ (by simpa using hm)]
        rfl
      rw [hstep, ih acc hnd2.1 hacc, hlk]

/-- The spec-side storage fold from a given accumulator over a walked part
`l` of the history (reincarnations resolved over the full history `H`). -/
def specStorageFrom (H : List (Nat × Update)) (b a k : Nat)
    (l : List (Nat × Update)) (acc : Option (Nat × Nat)) :
    Option (Nat × Nat) :=
  l.foldl
    (fun acc e =>
      if e.1 ≤ b ∧ specReinc H e.1 a = specReinc H b a then
        match lookupSlot e.2.storage a k with
        | some v => some (e.1, v)
        | none => acc
      else acc)
    acc

/-- The spec-side reference for `GetStorage`: the most recent write to
slot `k` of `a` at a block at most `b` whose write-time reincarnation is
the one in effect at block `b`; `none` when there is no such write. -/
def specStorageQuery (H : List (Nat × Update)) (b a k : Nat) :
    Option (Nat × Nat) :=
  specStorageFrom H b a k H none

/-- Folding the storage select step over all rows of a strictly
block-increasing, well-formed history part computes the spec-side
fold. -/
theorem foldl_selStepS_history (H : List (Nat × Update)) (a b k : Nat) :
    ∀ (l : List (Nat × Update)) (acc : Option (Nat × Nat)),
      List.Pairwise (· < ·) (l.map Prod.fst) →
      (∀ e ∈ l, nodupBy ((e.2.storage).map fun w => (w.addr, w.slot)) = true) →
      (∀ p : Nat × Nat, acc = some p → ∀ e ∈ l, p.1 ≤ e.1) →
      (flatRows (storageRowsOf H) l).foldl
          (selStepS a b (specReinc H b a) k) acc =
        specStorageFrom H b a k l acc := by
  intro l
  induction l with
  | nil =>
    intro acc hpair hnd hacc
    rfl
  | cons e rest ih =>
    intro acc hpair hnd hacc
    rw [List.map_cons, List.pairwise_cons] at hpair
    show ((storageRowsOf H e) ++ flatRows (storageRowsOf H) rest).foldl
        (selStepS a b (specReinc H b a) k) acc = _
    rw [List.foldl_append]
    unfold storageRowsOf
    rw [foldl_selStepS_update a b (specReinc H b a) k e.1
      (fun addr => specReinc H e.1 addr) e.2.storage acc (hnd e (by simp))
      (fun p hp => hacc p hp e (by simp))]
    have hstep : specStorageFrom H b a k (e :: rest) acc =
        specStorageFrom H b a k rest
          (if e.1 ≤ b ∧ specReinc H e.1 a = specReinc H b a then
            match lookupSlot e.2.storage a k with
            | some v => some (e.1, v)
            | none => acc
          else acc) := by
      rw [specStorageFrom, specStorageFrom, List.foldl_cons]
    rw [hstep]
    apply ih _ hpair.2 (fun e2 he2 => hnd e2 (by simp [he2]))
    intro p hp e2 he2
    have heblk : e.1 < e2.1 := hpair.1 e2.1 (List.mem_map.mpr ⟨e2, he2, rfl⟩)
    split at hp
    · split at hp
      · cases hp
        exact le_of_lt heblk
      · exact hacc p hp e2 (by simp [he2])
    · exact hacc p hp e2 (by simp [he2])

theorem eventsLE_cons (blk : Nat) (u : Update) (t : List (Nat × Update))
    (b a : Nat) :
    eventsLE ((blk, u) :: t) b a =
      (if blk ≤ b then statusEventCount u a else 0) + eventsLE t b a := by
  unfold eventsLE
  rw [List.map_cons, List.sum_cons]

/-- The event count is monotone in the block bound. -/
theorem eventsLE_mono (a : Nat) :
    ∀ (h : List (Nat × Update)) (w b2 : Nat), w ≤ b2 →
      eventsLE h w a ≤ eventsLE h b2 a := by
  intro h
  induction h with
  | nil => intro w b2 hw; exact le_refl _
  | cons e t ih =>
    intro w b2 hw
    obtain ⟨blk, u⟩ := e
    rw [eventsLE_cons, eventsLE_cons]
    have hih := ih w b2 hw
    by_cases hblk : blk ≤ w
    · rw [if_pos hblk, if_pos (le_trans hblk hw)]
      omega
    · rw [if_neg hblk]
      by_cases h2 : blk ≤ b2
      · rw [if_pos h2]; omega
      · rw [if_neg h2]; omega

/-- A status event for `a` at a block in `(w, b]` makes the event count
strictly larger at `b` than at `w`. -/
theorem eventsLE_strict (a w b d : Nat) (u2 : Update) :
    ∀ h : List (Nat × Update), (d, u2) ∈ h → w < d → d ≤ b →
      1 ≤ statusEventCount u2 a →
      eventsLE h w a < eventsLE h b a := by
  intro h
  induction h with
  | nil => intro hm; cases hm
  | cons e t ih =>
    intro hm hwd hdb hev
    obtain ⟨blk, u⟩ := e
    rw [eventsLE_cons, eventsLE_cons]
    rcases List.mem_cons.mp hm with he | he
    · have hblk : blk = d := (congrArg Prod.fst he).symm
      have hu : u = u2 := (congrArg Prod.snd he).symm
      subst hblk
      subst hu
      rw [if_neg (by omega), if_pos hdb]
      have := eventsLE_mono a t w b (by omega)
      omega
    · have hih := ih he hwd hdb hev
      have hw2 : w ≤ b := by omega
      by_cases hblk : blk ≤ w
      · rw [if_pos hblk, if_pos (le_trans hblk hw2)]
        omega
      · rw [if_neg hblk]
        by_cases h2 : blk ≤ b
        · rw [if_pos h2]; omega
        · rw [if_neg h2]; omega

/-- A fold whose every step is vacuous (no matching write at a matching
reincarnation) keeps the empty accumulator. -/
theorem specStorageFrom_none (H : List (Nat × Update)) (b a k : Nat) :
    ∀ l : List (Nat × Update),
      (∀ e ∈ l, lookupSlot e.2.storage a k = none ∨
        ¬ (e.1 ≤ b ∧ specReinc H e.1 a = specReinc H b a)) →
      specStorageFrom H b a k l none = none := by
  intro l
  induction l with
  | nil => intro hl; rfl
  | cons e t ih =>
    intro hl
    have hstep : specStorageFrom H b a k (e :: t) none =
        specStorageFrom H b a k t
          (if e.1 ≤ b ∧ specReinc H e.1 a = specReinc H b a then
            match lookupSlot e.2.storage a k with
            | some v => some (e.1, v)
            | none => none
          else none) := by
      rw [specStorageFrom, specStorageFrom, List.foldl_cons]
    rw [hstep]
    rcases hl e (by simp) with hc | hc
    · rw [hc]
      have : (if e.1 ≤ b ∧ specReinc H e.1 a = specReinc H b a then
          (none : Option (Nat × Nat)) else none) = none := ite_self _
      rw [this]
      exact ih (fun e2 he2 => hl e2 (by simp [he2]))
    · rw [if_neg hc]
      exact ih (fun e2 he2 => hl e2 (by simp [he2]))

/-- On a built archive, `GetStorage` equals the spec-side query. -/
theorem getStorage_spec (history : List (Nat × Update)) (db : ArchiveDB)
    (hbuild : buildArchive history = .ok db) (b a k : Nat) :
    db.getStorage b a k =
      ((specStorageQuery history b a k).map Prod.snd).getD 0 := by
  obtain ⟨hdb, hwf, hpair⟩ := buildArchive_ok history db hbuild
  subst hdb
  rw [getStorage_as_fold, (statusInv_build history hwf hpair).1 a b,
    buildPure_storage history hwf hpair]
  unfold histStorageRows
  rw [foldl_selStepS_history history a b k history none hpair
    (fun e he => (wellFormed_elim e.2 (hwf e he)).2.2.2.2.2.2)
    (by intro p hp; cases hp)]
  rfl

/-- C2 (amended): on every built archive, `GetStorage(b, a, k)` resolves
the reincarnation counter as of block `b` and returns the most recent
value written to the slot within that reincarnation at a block at most
`b` (the refinement); and slots whose writes all precede a deletion or
(re-)creation event at block `d ≤ b` read as zero — provided each such
write already had at least one status event for the account at or before
its own block.  (Without the proviso the zero-read fails: a write made
before the account's first status event carries reincarnation 0, the same
value the first event introduces.) -/
theorem c2_getStorage_reincarnation :
    (∀ (history : List (Nat × Update)) (db : ArchiveDB) (b a k : Nat),
        buildArchive history = .ok db →
        db.getStorage b a k =
          ((specStorageQuery history b a k).map Prod.snd).getD 0) ∧
    (∀ (history : List (Nat × Update)) (db : ArchiveDB) (b a k d : Nat)
        (u2 : Update),
        buildArchive history = .ok db →
        (d, u2) ∈ history → 1 ≤ statusEventCount u2 a → d ≤ b →
        (∀ e ∈ history, lookupSlot e.2.storage a k ≠ none →
          e.1 < d ∧ 1 ≤ eventsLE history e.1 a) →
        db.getStorage b a k = 0) := by
  constructor
  · exact fun history db b a k h => getStorage_spec history db h b a k
  · intro history db b a k d u2 hbuild hmem hev hdb hwrites
    rw [getStorage_spec history db hbuild b a k]
    unfold specStorageQuery
    rw [specStorageFrom_none]
    · rfl
    · intro e he
      by_cases hl : lookupSlot e.2.storage a k = none
      · exact Or.inl hl
      · right
        obtain ⟨hlt, hone⟩ := hwrites e he hl
        rintro ⟨-, heq⟩
        have hstrict : eventsLE history e.1 a < eventsLE history b a :=
          eventsLE_strict a e.1 b d u2 history hmem hlt hdb hev
        unfold specReinc at heq
        omega

/-- C2 counterexample (the claim as stated): account 10's slot 7 is
written at block 1, before the account's first creation at block 2; the
claim says the slot reads as zero at block 2 (at or after the
re-creation event), but the query returns the old value 5, because both
the pre-creation write and the first creation resolve to reincarnation
0. -/
theorem c2_getStorage_claim_counterexample :
    (buildArchive [(1, ⟨[], [], [], [], [], [⟨10, 7, 5⟩]⟩),
        (2, ⟨[], [10], [], [], [], []⟩)]).map
      (fun db => db.getStorage 2 10 7) = .ok 5 ∧ (5 : Nat) ≠ 0 :=
  ⟨by decide, by decide⟩

/-- The concrete history of the C2 witness: create account 10 at
block 1, write slot 7 at block 2, delete the account at block 3. -/
def c2WitnessHistory : List (Nat × Update) :=
  [(1, ⟨[], [10], [], [], [], []⟩),
    (2, ⟨[], [], [], [], [], [⟨10, 7, 5⟩]⟩),
    (3, ⟨[10], [], [], [], [], []⟩)]

/-- C2 witness: on the archive creating account 10 at block 1, writing
slot 7 at block 2 and deleting the account at block 3, the refinement
holds at height 2 and the guarded zero-read gives zero at height 3. -/
theorem c2_getStorage_reincarnation_witness :
    buildArchive c2WitnessHistory = .ok (buildArchivePure c2WitnessHistory) ∧
    (buildArchivePure c2WitnessHistory).getStorage 2 10 7 =
      ((specStorageQuery c2WitnessHistory 2 10 7).map Prod.snd).getD 0 ∧
    (buildArchivePure c2WitnessHistory).getStorage 3 10 7 = 0 := by
  refine ⟨by decide, ?_, ?_⟩
  · exact c2_getStorage_reincarnation.1 c2WitnessHistory
      (buildArchivePure c2WitnessHistory) 2 10 7 (by decide)
  · exact c2_getStorage_reincarnation.2 c2WitnessHistory
      (buildArchivePure c2WitnessHistory) 3 10 7 3
      ⟨[10], [], [], [], [], []⟩ (by decide) (by decide) (by decide)
      (by decide) (by decide)

/-! ## C3: the `Verify` replay

First, facts about the embedded `ORDER BY` insertion sort. -/

theorem keyLt_asymm (p q : Nat × Nat) (h : keyLt p q = true) :
    keyLt q p = false := by
  unfold keyLt at h ⊢
  simp only [Bool.or_eq_true, Bool.and_eq_true, decide_eq_true_eq] at h
  rw [Bool.eq_false_iff]
  intro h2
  simp only [Bool.or_eq_true, Bool.and_eq_true, decide_eq_true_eq] at h2
  omega

/-- Inserting an element whose key exceeds every key of a prefix walks
past the prefix. -/
theorem insertByKey_append_lt {α : Type} (key : α → Nat × Nat) (x : α) :
    ∀ (P Q : List α), (∀ y ∈ P, keyLt (key y) (key x) = true) →
      insertByKey key (P ++ Q) x = P ++ insertByKey key Q x := by
  intro P
  induction P with
  | nil => intro Q h; rfl
  | cons y ys ih =>
    intro Q h
    show insertByKey key (y :: (ys ++ Q)) x = _
    rw [show insertByKey key (y :: (ys ++ Q)) x =
        if keyLt (key x) (key y) then x :: y :: (ys ++ Q)
        else y :: insertByKey key (ys ++ Q) x from rfl,
      keyLt_asymm (key y) (key x) (h y (by simp))]
    show y :: insertByKey key (ys ++ Q) x = (y :: ys) ++ insertByKey key Q x
    rw [ih Q (fun z hz => h z (by simp [hz])), List.cons_append]

/-- Folding insertions into a sorted prefix of strictly smaller keys
keeps the prefix in front. -/
theorem foldl_insert_front {α : Type} (key : α → Nat × Nat) :
    ∀ (B P acc : List α), (∀ y ∈ P, ∀ x ∈ B, keyLt (key y) (key x) = true) →
      B.foldl (insertByKey key) (P ++ acc) = P ++ B.foldl (insertByKey key) acc := by
  intro B
  induction B with
  | nil => intro P acc h; rfl
  | cons x xs ih =>
    intro P acc h
    rw [List.foldl_cons, List.foldl_cons,
      insertByKey_append_lt key x P acc (fun y hy => h y hy x (by simp))]
    exact ih P _ (fun y hy z hz => h y hy z (by simp [hz]))

/-- A list whose keys already ascend strictly is its own sort. -/
theorem sortByKey_sorted_id {α : Type} (key : α → Nat × Nat) :
    ∀ (l P : List α),
      (∀ y ∈ P, ∀ x ∈ l, keyLt (key y) (key x) = true) →
      List.Pairwise (fun x y => keyLt (key x) (key y) = true) l →
      l.foldl (insertByKey key) P = P ++ l := by
  intro l
  induction l with
  | nil => intro P h hp; rw [List.append_nil]; rfl
  | cons x xs ih =>
    intro P h hp
    rw [List.pairwise_cons] at hp
    rw [List.foldl_cons,
      show insertByKey key P x = insertByKey key (P ++ []) x from by
        rw [List.append_nil],
      insertByKey_append_lt key x P [] (fun y hy => h y hy x (by simp))]
    rw [show P ++ insertByKey key [] x = P ++ [x] from rfl]
    rw [ih (P ++ [x]) ?hall hp.2]
    · rw [List.append_assoc]
      rfl
    · intro y hy z hz
      rcases List.mem_append.mp hy with hy2 | hy2
      · exact h y hy2 z (by simp [hz])
      · rw [List.mem_singleton.mp hy2]
        exact hp.1 z hz

/-- The sort of an already strictly ascending list is the list itself. -/
theorem sortByKey_id {α : Type} (key : α → Nat × Nat) (l : List α)
    (hp : List.Pairwise (fun x y => keyLt (key x) (key y) = true) l) :
    sortByKey key l = l := by
  unfold sortByKey
  rw [show ([] : List α) = [] ++ [] from rfl,
    foldl_insert_front key l [] [] (by intro y hy; cases hy)]
  exact sortByKey_sorted_id key l [] (by intro y hy; cases hy) hp

/-- The sort of a concatenation splits when every key of the first part
is strictly below every key of the second. -/
theorem sortByKey_append_split {α : Type} (key : α → Nat × Nat) (A B : List α)
    (h : ∀ x ∈ A, ∀ y ∈ B, keyLt (key x) (key y) = true)
    (hmemA : ∀ x ∈ sortByKey key A, x ∈ A) :
    sortByKey key (A ++ B) = sortByKey key A ++ sortByKey key B := by
  unfold sortByKey
  rw [List.foldl_append]
  rw [show A.foldl (insertByKey key) [] = A.foldl (insertByKey key) [] ++ [] from
    (List.append_nil _).symm]
  rw [foldl_insert_front key B (A.foldl (insertByKey key) []) []
    (fun y hy x hx => h y (hmemA y hy) x hx), List.append_nil]

/-- Membership is preserved by keyed insertion. -/
theorem mem_insertByKey {α : Type} (key : α → Nat × Nat) (x y : α) :
    ∀ l, y ∈ insertByKey key l x ↔ y = x ∨ y ∈ l := by
  intro l
  induction l with
  | nil => simp [insertByKey]
  | cons z zs ih =>
    unfold insertByKey
    by_cases hlt : keyLt (key x) (key z) = true
    · rw [hlt]
      show y ∈ x :: z :: zs ↔ _
      simp [List.mem_cons]
    · rw [Bool.not_eq_true] at hlt
      rw [hlt]
      show y ∈ z :: insertByKey key zs x ↔ _
      rw [List.mem_cons, ih, List.mem_cons]
      tauto

/-- Membership is preserved by the sort. -/
theorem mem_sortByKey {α : Type} (key : α → Nat × Nat) (y : α) :
    ∀ (l acc : List α), y ∈ l.foldl (insertByKey key) acc ↔ y ∈ acc ∨ y ∈ l := by
  intro l
  induction l with
  | nil => intro acc; simp
  | cons x xs ih =>
    intro acc
    rw [List.foldl_cons, ih, mem_insertByKey, List.mem_cons]
    tauto

/-- Keyed insertion commutes with a key-respecting map. -/
theorem insertByKey_map {α β : Type} (ka : α → Nat × Nat) (kb : β → Nat × Nat)
    (g : α → β) (hk : ∀ x y, keyLt (kb (g x)) (kb (g y)) = keyLt (ka x) (ka y))
    (x : α) :
    ∀ l : List α, insertByKey kb (l.map g) (g x) = (insertByKey ka l x).map g := by
  intro l
  induction l with
  | nil => rfl
  | cons z zs ih =>
    show insertByKey kb (g z :: zs.map g) (g x) = _
    unfold insertByKey
    rw [hk x z]
    by_cases hlt : keyLt (ka x) (ka z) = true
    · rw [hlt]
      rfl
    · rw [Bool.not_eq_true] at hlt
      rw [hlt]
      show g z :: insertByKey kb (zs.map g) (g x) = _
      rw [ih]
      rfl

/-- The sort commutes with a key-respecting map. -/
theorem sortByKey_map {α β : Type} (ka : α → Nat × Nat) (kb : β → Nat × Nat)
    (g : α → β) (hk : ∀ x y, keyLt (kb (g x)) (kb (g y)) = keyLt (ka x) (ka y)) :
    ∀ (l acc : List α),
      (l.map g).foldl (insertByKey kb) (acc.map g) =
        (l.foldl (insertByKey ka) acc).map g := by
  intro l
  induction l with
  | nil => intro acc; rfl
  | cons x xs ih =>
    intro acc
    rw [List.map_cons, List.foldl_cons, List.foldl_cons,
      insertByKey_map ka kb g hk x acc, ih]

/-- Membership in the deduplicating account sort. -/
theorem mem_insertSortedDedup (x y : Nat) :
    ∀ l, y ∈ insertSortedDedup x l ↔ y = x ∨ y ∈ l := by
  intro l
  induction l with
  | nil => simp [insertSortedDedup]
  | cons z zs ih =>
    unfold insertSortedDedup
    by_cases h1 : x < z
    · rw [if_pos h1]
      simp [List.mem_cons]
    · rw [if_neg h1]
      by_cases h2 : x = z
      · rw [if_pos h2]
        subst h2
        simp [List.mem_cons]
      · rw [if_neg h2]
        rw [List.mem_cons, ih, List.mem_cons]
        tauto

theorem mem_sortedDedup (y : Nat) :
    ∀ l, y ∈ sortedDedup l ↔ y ∈ l := by
  intro l
  induction l with
  | nil => simp [sortedDedup]
  | cons x xs ih =>
    show y ∈ insertSortedDedup x (sortedDedup xs) ↔ _
    rw [mem_insertSortedDedup, ih, List.mem_cons]

/-! Spec-side hash chains per account. -/

/-- The `(block, per-account diff)` pairs of the updates touching `a`. -/
def touchedBlocks (a : Nat) (history : List (Nat × Update)) :
    List (Nat × AccountUpdate) :=
  history.filterMap fun e =>
    if a ∈ e.2.touchedAccounts then some (e.1, e.2.accountDiff a) else none

/-- The hash-chain rows induced by a diff sequence, starting from `h0`. -/
def chainFrom (h0 : HashChain) :
    List (Nat × AccountUpdate) → List (Nat × HashChain)
  | [] => []
  | (blk, d) :: rest =>
    (blk, HashChain.link h0 d) :: chainFrom (HashChain.link h0 d) rest

/-- The final chain value of a diff sequence. -/
def chainAll (h0 : HashChain) : List (Nat × AccountUpdate) → HashChain
  | [] => h0
  | (_, d) :: rest => chainAll (HashChain.link h0 d) rest

theorem chainFrom_append :
    ∀ (L : List (Nat × AccountUpdate)) (h0 : HashChain) (x : Nat × AccountUpdate),
      chainFrom h0 (L ++ [x]) =
        chainFrom h0 L ++ [(x.1, HashChain.link (chainAll h0 L) x.2)] := by
  intro L
  induction L with
  | nil => intro h0 x; rfl
  | cons y rest ih =>
    intro h0 x
    obtain ⟨blk, d⟩ := y
    show (blk, HashChain.link h0 d) :: chainFrom (HashChain.link h0 d) (rest ++ [x]) = _
    rw [ih (HashChain.link h0 d) x]
    rfl

theorem chainAll_append :
    ∀ (L : List (Nat × AccountUpdate)) (h0 : HashChain) (x : Nat × AccountUpdate),
      chainAll h0 (L ++ [x]) = HashChain.link (chainAll h0 L) x.2 := by
  intro L
  induction L with
  | nil => intro h0 x; rfl
  | cons y rest ih =>
    intro h0 x
    obtain ⟨blk, d⟩ := y
    show chainAll (HashChain.link h0 d) (rest ++ [x]) = _
    rw [ih (HashChain.link h0 d) x]
    rfl

theorem chainFrom_map_fst :
    ∀ (L : List (Nat × AccountUpdate)) (h0 : HashChain),
      (chainFrom h0 L).map Prod.fst = L.map Prod.fst := by
  intro L
  induction L with
  | nil => intro h0; rfl
  | cons y rest ih =>
    intro h0
    obtain ⟨blk, d⟩ := y
    show blk :: (chainFrom (HashChain.link h0 d) rest).map Prod.fst = _
    rw [ih]
    rfl

theorem chain_last_value :
    ∀ (L : List (Nat × AccountUpdate)) (h0 : HashChain),
      (((chainFrom h0 L).getLast?).map Prod.snd).getD h0 = chainAll h0 L := by
  intro L
  induction L with
  | nil => intro h0; rfl
  | cons y rest ih =>
    intro h0
    obtain ⟨blk, d⟩ := y
    show ((((blk, HashChain.link h0 d) :: chainFrom (HashChain.link h0 d) rest).getLast?).map
      Prod.snd).getD h0 = chainAll (HashChain.link h0 d) rest
    cases hrest : chainFrom (HashChain.link h0 d) rest with
    | nil =>
      have : rest = [] := by
        have := chainFrom_map_fst rest (HashChain.link h0 d)
        rw [hrest] at this
        cases rest with
        | nil => rfl
        | cons z zs => exact absurd this.symm (by simp)
      subst this
      rfl
    | cons z zs =>
      rw [List.getLast?_cons_cons]
      have := ih (HashChain.link h0 d)
      rw [hrest] at this
      exact this

/-- Blocks of the touched sub-history are blocks of the history. -/
theorem touchedBlocks_fst_mem (a : Nat) :
    ∀ (history : List (Nat × Update)) (x : Nat),
      x ∈ (touchedBlocks a history).map Prod.fst → x ∈ history.map Prod.fst := by
  intro history
  induction history with
  | nil => intro x hx; exact absurd hx (by simp [touchedBlocks])
  | cons e rest ih =>
    intro x hx
    unfold touchedBlocks at hx
    rw [List.filterMap_cons] at hx
    by_cases hc : a ∈ e.2.touchedAccounts
    · rw [if_pos hc] at hx
      rcases List.mem_map.mp hx with ⟨p, hp, hfst⟩
      rcases List.mem_cons.mp hp with hp2 | hp2
      · subst hp2
        exact List.mem_cons.mpr (Or.inl hfst.symm)
      · exact List.mem_cons.mpr (Or.inr (ih x (List.mem_map.mpr ⟨p, hp2, hfst⟩)))
    · rw [if_neg hc] at hx
      exact List.mem_cons.mpr (Or.inr (ih x hx))

/-- Strictly increasing blocks restrict to the touched sub-history. -/
theorem touchedBlocks_pairwise (a : Nat) :
    ∀ history : List (Nat × Update),
      List.Pairwise (· < ·) (history.map Prod.fst) →
      List.Pairwise (· < ·) ((touchedBlocks a history).map Prod.fst) := by
  intro history
  induction history with
  | nil => intro hp; simp [touchedBlocks]
  | cons e rest ih =>
    intro hp
    rw [List.map_cons, List.pairwise_cons] at hp
    unfold touchedBlocks
    rw [List.filterMap_cons]
    by_cases hc : a ∈ e.2.touchedAccounts
    · rw [if_pos hc, List.map_cons, List.pairwise_cons]
      exact ⟨fun x hx => hp.1 x (touchedBlocks_fst_mem a rest x hx), ih hp.2⟩
    · rw [if_neg hc]
      exact ih hp.2

/-- The deduplicating sort produces a strictly ascending list. -/
theorem sortedDedup_pairwise :
    ∀ l : List Nat, List.Pairwise (· < ·) (sortedDedup l) := by
  have hins : ∀ (x : Nat) (l : List Nat), List.Pairwise (· < ·) l →
      List.Pairwise (· < ·) (insertSortedDedup x l) := by
    intro x l
    induction l with
    | nil => intro hp; simp [insertSortedDedup]
    | cons z zs ih =>
      intro hp
      rw [List.pairwise_cons] at hp
      unfold insertSortedDedup
      by_cases h1 : x < z
      · rw [if_pos h1, List.pairwise_cons]
        refine ⟨?_, List.pairwise_cons.mpr hp⟩
        intro y hy
        rcases List.mem_cons.mp hy with hy2 | hy2
        · omega
        · have := hp.1 y hy2
          omega
      · rw [if_neg h1]
        by_cases h2 : x = z
        · rw [if_pos h2]
          exact List.pairwise_cons.mpr hp
        · rw [if_neg h2, List.pairwise_cons]
          refine ⟨?_, ih hp.2⟩
          intro y hy
          rw [mem_insertSortedDedup] at hy
          rcases hy with hy2 | hy2
          · omega
          · exact hp.1 y hy2
  intro l
  induction l with
  | nil => simp [sortedDedup]
  | cons x xs ih => exact hins x (sortedDedup xs) ih

/-- A strictly ascending list has no duplicates. -/
theorem pairwise_lt_nodupBy :
    ∀ l : List Nat, List.Pairwise (· < ·) l → nodupBy l = true := by
  intro l
  induction l with
  | nil => intro hp; rfl
  | cons x xs ih =>
    intro hp
    rw [List.pairwise_cons] at hp
    unfold nodupBy
    rw [if_neg (fun hm => by have := hp.1 x hm; omega)]
    exact ih hp.2

/-- A present key is found by `find?` with its value. -/
theorem find?_eq_of_mem (a : Nat) :
    ∀ l : List Nat, a ∈ l → (l.find? fun x => x = a) = some a := by
  intro l
  induction l with
  | nil => intro h; cases h
  | cons x xs ih =>
    intro h
    by_cases hx : x = a
    · subst hx
      exact List.find?_cons_of_pos _ (by simp)
    · rw [List.find?_cons_of_neg _ (by simpa using hx)]
      exact ih ((List.mem_cons.mp h).resolve_left (fun hh => hx hh.symm))

/-- Looking an account up in the grouped diffs. -/
theorem accountDiffs_find (u : Update) (a : Nat) :
    ((u.accountDiffs.find? fun p => p.1 = a).map Prod.snd) =
      if a ∈ u.touchedAccounts then some (u.accountDiff a) else none := by
  unfold Update.accountDiffs
  rw [List.find?_map]
  by_cases hc : a ∈ u.touchedAccounts
  · rw [if_pos hc]
    have : (u.touchedAccounts.find? ((fun p : Nat × AccountUpdate => p.1 = a) ∘
        fun a2 => (a2, u.accountDiff a2))) = some a := by
      have h2 : ((fun p : Nat × AccountUpdate => decide (p.1 = a)) ∘
          fun a2 => (a2, u.accountDiff a2)) = fun x => decide (x = a) := by
        funext x
        rfl
      rw [show ((fun p : Nat × AccountUpdate => decide (p.1 = a)) ∘
          fun a2 => (a2, u.accountDiff a2)) = fun x => decide (x = a) from h2]
      exact find?_eq_of_mem a u.touchedAccounts hc
    rw [this]
    rfl
  · rw [if_neg hc]
    have : (u.touchedAccounts.find? fun x => x = a) = none := by
      rw [List.find?_eq_none]
      intro x hx
      simp only [decide_eq_true_eq]
      intro hxa
      exact hc (hxa ▸ hx)
    rw [show ((fun p : Nat × AccountUpdate => decide (p.1 = a)) ∘
        fun a2 => (a2, u.accountDiff a2)) = fun x => decide (x = a) from by
      funext x; rfl]
    rw [this]
    rfl

/-- Pointwise-on-members equal step functions fold alike. -/
theorem foldl_congr_mem {α β : Type} (f g : β → α → β) :
    ∀ (l : List α) (init : β), (∀ acc, ∀ x ∈ l, f acc x = g acc x) →
      l.foldl f init = l.foldl g init := by
  intro l
  induction l with
  | nil => intro init h; rfl
  | cons x xs ih =>
    intro init h
    rw [List.foldl_cons, List.foldl_cons, h init x (by simp)]
    exact ih _ (fun acc y hy => h acc y (by simp [hy]))

/-- Folding `pickLater` over rows with ascending blocks keeps the last
row (or the accumulator when there are none). -/
theorem foldl_pickLater_ascending {α : Type} :
    ∀ (l : List (Nat × α)) (acc : Option (Nat × α)),
      List.Pairwise (fun p q : Nat × α => p.1 ≤ q.1) l →
      (∀ p : Nat × α, acc = some p → ∀ q ∈ l, p.1 ≤ q.1) →
      l.foldl (fun best q => pickLater best q.1 q.2) acc =
        (match l.getLast? with
          | some q => some q
          | none => acc) := by
  intro l
  induction l with
  | nil => intro acc hp hacc; rfl
  | cons q rest ih =>
    intro acc hp hacc
    rw [List.pairwise_cons] at hp
    rw [List.foldl_cons]
    have hstep : pickLater acc q.1 q.2 = some q := by
      unfold pickLater
      cases hq : acc with
      | none => rfl
      | some p =>
        obtain ⟨b0, v0⟩ := p
        show (if b0 ≤ q.1 then some (q.1, q.2) else some (b0, v0)) = some q
        rw [if_pos (hacc (b0, v0) hq q (by simp))]
    rw [hstep, ih (some q) hp.2 (by
      intro p hps q2 hq2
      cases hps
      exact hp.1 q2 hq2)]
    cases rest with
    | nil => rfl
    | cons z zs =>
      rw [List.getLast?_cons_cons]
      cases hlast : (zs.getLast?) with
      | none =>
        cases zs with
        | nil => rfl
        | cons w ws => exact absurd hlast (by simp)
      | some q2 =>
        cases zs with
        | nil => exact absurd hlast (by simp)
        | cons w ws => rfl

/-- The per-account hash select over the whole table equals the ascending
fold over the account's filtered rows. -/
theorem selectHash_filter_account (rows : List HashRow) (a b : Nat) :
    selectLastLE (rows.map fun r => (r.account, r.block, r.hash)) a b =
      (rows.filter fun r => r.account = a).foldl
        (fun best r => if r.block ≤ b then pickLater best r.block r.hash else best)
        none := by
  unfold selectLastLE
  rw [List.foldl_map, foldl_filter_guard]
  apply foldl_congr_fun
  intro acc x
  by_cases h1 : x.account = a
  · by_cases h2 : x.block ≤ b
    · rw [if_pos (⟨h1, h2⟩ : x.account = a ∧ x.block ≤ b),
        if_pos (by simpa using h1), if_pos h2]
    · rw [if_neg (fun hm : x.account = a ∧ x.block ≤ b => h2 hm.2),
        if_pos (by simpa using h1), if_neg h2]
  · rw [if_neg (fun hm : x.account = a ∧ x.block ≤ b => h1 hm.1),
      if_neg (by simpa using h1)]

/-- The `GetAccountHash` subquery of `Add`, on a table whose rows for the
account are the chain rows of a diff sequence at blocks below the bound:
the previous hash is the final chain value. -/
theorem prevHash_of_chain (rows : List HashRow) (a blk : Nat)
    (L : List (Nat × AccountUpdate))
    (hchar : (rows.filter fun r => r.account = a) =
      (chainFrom HashChain.zero L).map fun p => ⟨a, p.1, p.2⟩)
    (hasc : List.Pairwise (· < ·) (L.map Prod.fst))
    (hlt : ∀ x ∈ L.map Prod.fst, x < blk) :
    ((selectLastLE (rows.map fun r => (r.account, r.block, r.hash)) a blk).map
      Prod.snd).getD HashChain.zero = chainAll HashChain.zero L := by
  rw [selectHash_filter_account, hchar]
  have hmapfold :
      ((chainFrom HashChain.zero L).map fun p => HashRow.mk a p.1 p.2).foldl
        (fun best r => if r.block ≤ blk then pickLater best r.block r.hash else best)
        none =
      (chainFrom HashChain.zero L).foldl
        (fun best p => if p.1 ≤ blk then pickLater best p.1 p.2 else best)
        none := by
    rw [List.foldl_map]
  rw [hmapfold]
  have hblocks : ∀ p ∈ chainFrom HashChain.zero L, p.1 < blk := by
    intro p hp
    apply hlt
    rw [← chainFrom_map_fst L HashChain.zero]
    exact List.mem_map.mpr ⟨p, hp, rfl⟩
  have hguard :
      (chainFrom HashChain.zero L).foldl
        (fun best p => if p.1 ≤ blk then pickLater best p.1 p.2 else best) none =
      (chainFrom HashChain.zero L).foldl
        (fun best p => pickLater best p.1 p.2) none := by
    apply foldl_congr_mem
    intro acc p hp
    rw [if_pos (le_of_lt (hblocks p hp))]
  rw [hguard]
  have hpasc : List.Pairwise (fun p q : Nat × HashChain => p.1 ≤ q.1)
      (chainFrom HashChain.zero L) := by
    have : List.Pairwise (· < ·) ((chainFrom HashChain.zero L).map Prod.fst) := by
      rw [chainFrom_map_fst]
      exact hasc
    have := (List.pairwise_map).mp this
    exact this.imp (fun h => le_of_lt h)
  rw [foldl_pickLater_ascending (chainFrom HashChain.zero L) none hpasc
    (by intro p hp; cases hp)]
  rw [← chain_last_value L HashChain.zero]
  cases (chainFrom HashChain.zero L).getLast? with
  | none => rfl
  | some q => rfl

/-- Appending a row of another account does not change the per-account
select. -/
theorem selectLastLE_append_other (rows : List HashRow) (r : HashRow)
    (a b : Nat) (h : r.account ≠ a) :
    selectLastLE ((rows ++ [r]).map fun r2 => (r2.account, r2.block, r2.hash)) a b =
      selectLastLE (rows.map fun r2 => (r2.account, r2.block, r2.hash)) a b := by
  rw [List.map_append]
  unfold selectLastLE
  rw [List.foldl_append]
  show List.foldl _ (List.foldl _ none _) [(r.account, r.block, r.hash)] = _
  rw [List.foldl_cons, List.foldl_nil,
    if_neg (fun hm : r.account = a ∧ r.block ≤ b => h hm.1)]

/-- Appending a row of another account does not change the per-account
filter. -/
theorem filter_append_other (rows : List HashRow) (r : HashRow) (a : Nat)
    (h : r.account ≠ a) :
    (rows ++ [r]).filter (fun r2 => r2.account = a) =
      rows.filter fun r2 => r2.account = a := by
  rw [List.filter_append, List.filter_cons, if_neg (by simpa using h),
    List.filter_nil, List.append_nil]

/-- Effect of the diff-hash insert loop of `Add` on one account's filtered
rows: one new chained row when the account is among the diffs. -/
theorem appendHashRows_filter (blk a : Nat) :
    ∀ (diffs : List (Nat × AccountUpdate)) (rows : List HashRow),
      nodupBy (diffs.map Prod.fst) = true →
      (appendHashRows rows blk diffs).filter (fun r => r.account = a) =
        rows.filter (fun r => r.account = a) ++
          (match diffs.find? (fun p => p.1 = a) with
            | some p =>
              [⟨a, blk, HashChain.link
                (((selectLastLE (rows.map fun r => (r.account, r.block, r.hash))
                    a blk).map Prod.snd).getD HashChain.zero) p.2⟩]
            | none => []) := by
  intro diffs
  induction diffs with
  | nil =>
    intro rows hnd
    show rows.filter _ = rows.filter _ ++ _
    rw [show (List.find? (fun p => p.1 = a) ([] : List (Nat × AccountUpdate))) =
      none from rfl]
    rw [List.append_nil]
  | cons p rest ih =>
    intro rows hnd
    obtain ⟨a2, d⟩ := p
    have hnd2 : nodupBy (rest.map Prod.fst) = true ∧
        a2 ∉ rest.map Prod.fst := by
      rw [List.map_cons] at hnd
      unfold nodupBy at hnd
      split at hnd
      · exact absurd hnd (by simp)
      · rename_i hmem
        exact ⟨hnd, hmem⟩
    show (appendHashRows (rows ++
      [⟨a2, blk, HashChain.link
        (((selectLastLE (rows.map fun r => (r.account, r.block, r.hash)) a2
            blk).map Prod.snd).getD HashChain.zero) d⟩]) blk rest).filter
      (fun r => r.account = a) = _
    rw [ih _ hnd2.1]
    by_cases hac : a2 = a
    · subst hac
      have hfr : (rest.find? fun p => p.1 = a2) = none := by
        rw [List.find?_eq_none]
        intro x hx
        simp only [decide_eq_true_eq]
        intro hxa
        exact hnd2.2 (List.mem_map.mpr ⟨x, hx, hxa⟩)
      rw [hfr, List.find?_cons_of_pos _ (by simp), List.filter_append,
        List.filter_cons, if_pos (by simp), List.filter_nil]
      dsimp only
      rw [List.append_nil]
    · have hne : (⟨a2, blk, HashChain.link
          (((selectLastLE (rows.map fun r => (r.account, r.block, r.hash)) a2
              blk).map Prod.snd).getD HashChain.zero) d⟩ : HashRow).account ≠ a := hac
      rw [List.find?_cons_of_neg _ (by simpa using hac),
        filter_append_other _ _ _ hne]
      cases hfind : rest.find? fun p => p.1 = a with
      | none => rfl
      | some q =>
        rw [selectLastLE_append_other _ _ _ _ hne]

/-! ### The per-account diff stream of a history, up to a height bound -/

/-- The `(block, diff)` pairs of the updates touching `a` at blocks
`≤ b`: the sub-history `VerifyAccount` must replay. -/
def diffsLE (a b : Nat) (history : List (Nat × Update)) :
    List (Nat × AccountUpdate) :=
  (touchedBlocks a history).filter fun p => p.1 ≤ b

/-- The status entry a diff contributes (`created`/`deleted` are mutually
exclusive in a well-formed update). -/
def entryOf? (d : AccountUpdate) : Option Bool :=
  if d.created then some true else if d.deleted then some false else none

/-- The per-account rows of one option-valued field of a diff stream. -/
def optRows {α : Type} (f : AccountUpdate → Option α) :
    List (Nat × AccountUpdate) → List (Nat × α)
  | [] => []
  | p :: rest => ((f p.2).map fun x => (p.1, x)).toList ++ optRows f rest

/-- The per-account storage rows of a diff stream, block-major with the
diff-internal slot order. -/
def storOf : List (Nat × AccountUpdate) → List (Nat × Nat × Nat)
  | [] => []
  | p :: rest => (p.2.storage.map fun s => (p.1, s.1, s.2)) ++ storOf rest

/-- A diff that touches at least one field. -/
def diffNonempty (d : AccountUpdate) : Bool :=
  d.created || d.deleted || d.balance.isSome || d.nonce.isSome ||
    d.code.isSome || !d.storage.isEmpty

/-- One build step from the right. -/
theorem buildPure_snoc (h : List (Nat × Update)) (e : Nat × Update) :
    buildArchivePure (h ++ [e]) = (buildArchivePure h).addPure e.1 e.2 := by
  unfold buildArchivePure
  rw [List.foldl_append]
  rfl

/-- Every touched-block entry comes from a history event touching `a`. -/
theorem touchedBlocks_mem (a : Nat) :
    ∀ history : List (Nat × Update), ∀ p ∈ touchedBlocks a history,
      ∃ e ∈ history, p = (e.1, e.2.accountDiff a) ∧ a ∈ e.2.touchedAccounts := by
  intro history
  induction history with
  | nil => intro p hp; exact absurd hp (by simp [touchedBlocks])
  | cons e rest ih =>
    intro p hp
    unfold touchedBlocks at hp
    rw [List.filterMap_cons] at hp
    by_cases hc : a ∈ e.2.touchedAccounts
    · rw [if_pos hc] at hp
      rcases List.mem_cons.mp hp with hp2 | hp2
      · exact ⟨e, by simp, hp2, hc⟩
      · obtain ⟨e2, he2, hpe⟩ := ih p hp2
        exact ⟨e2, by simp [he2], hpe⟩
    · rw [if_neg hc] at hp
      obtain ⟨e2, he2, hpe⟩ := ih p hp
      exact ⟨e2, by simp [he2], hpe⟩

/-- Unfolding `diffsLE` over a leading event. -/
theorem diffsLE_cons (a b : Nat) (e : Nat × Update) (rest : List (Nat × Update)) :
    diffsLE a b (e :: rest) =
      (if a ∈ e.2.touchedAccounts ∧ e.1 ≤ b then [(e.1, e.2.accountDiff a)] else []) ++
        diffsLE a b rest := by
  unfold diffsLE touchedBlocks
  rw [List.filterMap_cons]
  by_cases hc : a ∈ e.2.touchedAccounts
  · rw [if_pos hc]
    rw [List.filter_cons]
    by_cases hb : e.1 ≤ b
    · rw [if_pos (by simpa using hb), if_pos ⟨hc, hb⟩, List.singleton_append]
    · rw [if_neg (by simpa using hb), if_neg (fun hm => hb hm.2), List.nil_append]
  · rw [if_neg hc, if_neg (fun hm => hc hm.1), List.nil_append]

/-- The bounded diff stream has strictly ascending blocks. -/
theorem diffsLE_pairwise (a b : Nat) (history : List (Nat × Update))
    (hpair : List.Pairwise (· < ·) (history.map Prod.fst)) :
    List.Pairwise (· < ·) ((diffsLE a b history).map Prod.fst) := by
  have h1 := (List.pairwise_map).mp (touchedBlocks_pairwise a history hpair)
  exact (List.pairwise_map).mpr
    (List.Pairwise.sublist (List.filter_sublist _) h1)

/-- Membership in the bounded diff stream. -/
theorem diffsLE_mem (a b : Nat) (history : List (Nat × Update))
    (p : Nat × AccountUpdate) (hp : p ∈ diffsLE a b history) :
    (∃ e ∈ history, p = (e.1, e.2.accountDiff a) ∧ a ∈ e.2.touchedAccounts) ∧
      p.1 ≤ b := by
  unfold diffsLE at hp
  have h2 := List.mem_filter.mp hp
  exact ⟨touchedBlocks_mem a history p h2.1, by simpa using h2.2⟩

/-- `contains` decides membership. -/
theorem contains_eq_mem (a : Nat) :
    ∀ l : List Nat, l.contains a = true ↔ a ∈ l := by
  intro l
  induction l with
  | nil => simp
  | cons x xs ih => simp [List.contains_cons, ih]

/-- A present key yields a `some` lookup. -/
theorem lookupKey_isSome_of_mem (l : List (Nat × Nat)) (a : Nat)
    (h : a ∈ l.map Prod.fst) : (lookupKey l a).isSome = true := by
  induction l with
  | nil => cases h
  | cons x xs ih =>
    by_cases hx : x.1 = a
    · unfold lookupKey
      rw [List.find?_cons_of_pos _ (by simpa using hx)]
      rfl
    · show (lookupKey (x :: xs) a).isSome = true
      unfold lookupKey
      rw [List.find?_cons_of_neg _ (by simpa using hx)]
      show (lookupKey xs a).isSome = true
      exact ih (by
        rcases List.mem_map.mp h with ⟨y, hy, hya⟩
        rcases List.mem_cons.mp hy with hy2 | hy2
        · exact absurd (hy2 ▸ hya) hx
        · exact List.mem_map.mpr ⟨y, hy2, hya⟩)

/-- The sort of a nonempty list is nonempty. -/
theorem sortByKey_ne_nil {α : Type} (key : α → Nat × Nat) (l : List α)
    (h : l ≠ []) : sortByKey key l ≠ [] := by
  cases l with
  | nil => exact absurd rfl h
  | cons x xs =>
    intro hs
    have hx : x ∈ sortByKey key (x :: xs) := by
      unfold sortByKey
      exact (mem_sortByKey key x (x :: xs) []).mpr (Or.inr (by simp))
    rw [hs] at hx
    cases hx

/-- The diff of a touched account touches at least one field. -/
theorem accountDiff_nonempty (u : Update) (a : Nat)
    (h : a ∈ u.touchedAccounts) : diffNonempty (u.accountDiff a) = true := by
  unfold Update.touchedAccounts at h
  rw [mem_sortedDedup] at h
  simp only [List.mem_append] at h
  unfold diffNonempty Update.accountDiff
  rcases h with ((((h | h) | h) | h) | h) | h
  · simp [h]
  · simp [h]
  · have hc := lookupKey_isSome_of_mem u.balances a h
    simp [hc]
  · have hc := lookupKey_isSome_of_mem u.nonces a h
    simp [hc]
  · have hc := lookupKey_isSome_of_mem u.codes a h
    simp [hc]
  · rcases List.mem_map.mp h with ⟨w, hw, hwa⟩
    have hmemf : w ∈ u.storage.filter fun w2 => w2.addr = a :=
      List.mem_filter.mpr ⟨hw, by simpa using hwa⟩
    have hne : ((u.storage.filter fun w2 => w2.addr = a).map
        fun w2 => (w2.slot, w2.value)) ≠ [] :=
      List.ne_nil_of_mem (List.mem_map.mpr ⟨w, hmemf, rfl⟩)
    have hns := sortByKey_ne_nil (fun p => (p.1, 0)) _ hne
    cases hsk : sortByKey (fun p => (p.1, 0))
        ((u.storage.filter fun w2 => w2.addr = a).map fun w2 => (w2.slot, w2.value)) with
    | nil => exact absurd hsk hns
    | cons q qs => simp [hsk]

theorem accountDiff_created_deleted (u : Update) (a : Nat)
    (hwf : u.wellFormed = true) (hc : (u.accountDiff a).created = true) :
    (u.accountDiff a).deleted = false := by
  obtain ⟨-, -, hdc, -⟩ := wellFormed_elim u hwf
  show u.deletedAccounts.contains a = false
  rw [Bool.eq_false_iff]
  intro hcon
  exact hdc a ((contains_eq_mem a _).mp hcon) ((contains_eq_mem a _).mp hc)

/-- The grouped diffs are keyed by the touched accounts. -/
theorem accountDiffs_fst (u : Update) :
    u.accountDiffs.map Prod.fst = u.touchedAccounts := by
  unfold Update.accountDiffs
  rw [List.map_map]
  have hcomp : (Prod.fst ∘ fun a => (a, u.accountDiff a)) = @id Nat := by
    funext x
    rfl
  rw [hcomp, List.map_id]

/-- Full `find?` over the grouped diffs. -/
theorem accountDiffs_find2 (u : Update) (a : Nat) :
    (u.accountDiffs.find? fun p => p.1 = a) =
      if a ∈ u.touchedAccounts then some (a, u.accountDiff a) else none := by
  unfold Update.accountDiffs
  rw [List.find?_map]
  have hcomp : ((fun p : Nat × AccountUpdate => decide (p.1 = a)) ∘
      fun a2 => (a2, u.accountDiff a2)) = fun x => decide (x = a) := by
    funext x
    rfl
  rw [hcomp]
  by_cases hc : a ∈ u.touchedAccounts
  · rw [if_pos hc, find?_eq_of_mem a u.touchedAccounts hc]
    rfl
  · rw [if_neg hc]
    have hn : (u.touchedAccounts.find? fun x => x = a) = none := by
      rw [List.find?_eq_none]
      intro x hx
      simp only [decide_eq_true_eq]
      intro hxa
      exact hc (hxa ▸ hx)
    rw [hn]
    rfl

/-- The per-account `account_hash` rows of a built archive are exactly the
chain rows of the account's touched sub-history. -/
theorem buildPure_accountHash_filter (a : Nat) :
    ∀ history : List (Nat × Update),
      List.Pairwise (· < ·) (history.map Prod.fst) →
      ((buildArchivePure history).accountHash.filter fun r => r.account = a) =
        (chainFrom HashChain.zero (touchedBlocks a history)).map
          fun p => ⟨a, p.1, p.2⟩ := by
  intro history
  induction history using List.reverseRecOn with
  | nil => intro hpair; rfl
  | append_singleton h e ih =>
    intro hpair
    obtain ⟨blk, u⟩ := e
    have hpair2 : List.Pairwise (· < ·) (h.map Prod.fst) ∧
        ∀ x ∈ h.map Prod.fst, x < blk := by
      rw [List.map_append] at hpair
      have := List.pairwise_append.mp hpair
      exact ⟨this.1, fun x hx => this.2.2 x hx blk (by simp)⟩
    have hAH : (buildArchivePure (h ++ [(blk, u)])).accountHash =
        appendHashRows (buildArchivePure h).accountHash blk u.accountDiffs := by
      rw [buildPure_snoc]
      rfl
    have hnd : nodupBy (u.accountDiffs.map Prod.fst) = true := by
      rw [accountDiffs_fst]
      exact pairwise_lt_nodupBy _ (sortedDedup_pairwise _)
    have hTB : touchedBlocks a (h ++ [(blk, u)]) =
        touchedBlocks a h ++
          (if a ∈ u.touchedAccounts then [(blk, u.accountDiff a)] else []) := by
      unfold touchedBlocks
      rw [List.filterMap_append]
      congr 1
      by_cases hc : a ∈ u.touchedAccounts
      · rw [List.filterMap_cons, if_pos hc, if_pos hc]
        rfl
      · rw [List.filterMap_cons, if_neg hc, if_neg hc]
        rfl
    rw [hAH,
      appendHashRows_filter blk a u.accountDiffs (buildArchivePure h).accountHash hnd,
      ih hpair2.1, hTB, accountDiffs_find2]
    by_cases hc : a ∈ u.touchedAccounts
    · rw [if_pos hc, if_pos hc, chainFrom_append, List.map_append]
      dsimp only
      have hprev := prevHash_of_chain (buildArchivePure h).accountHash a blk
        (touchedBlocks a h) (ih hpair2.1) (touchedBlocks_pairwise a h hpair2.1)
        (fun x hx => hpair2.2 x (touchedBlocks_fst_mem a h x hx))
      rw [hprev]
      rfl
    · rw [if_neg hc, if_neg hc]
      dsimp only
      rw [List.append_nil, List.append_nil]

/-- On an ascending diff stream, restricting the chain rows to blocks
`≤ b` is chaining the restricted stream. -/
theorem chainFrom_filter_le (b : Nat) :
    ∀ (L : List (Nat × AccountUpdate)) (h0 : HashChain),
      List.Pairwise (· < ·) (L.map Prod.fst) →
      (chainFrom h0 L).filter (fun p => p.1 ≤ b) =
        chainFrom h0 (L.filter fun p => p.1 ≤ b) := by
  intro L
  induction L with
  | nil => intro h0 hp; rfl
  | cons q rest ih =>
    intro h0 hp
    obtain ⟨blk, d⟩ := q
    rw [List.map_cons, List.pairwise_cons] at hp
    show ((blk, HashChain.link h0 d) :: chainFrom (HashChain.link h0 d) rest).filter _ =
      chainFrom h0 (((blk, d) :: rest).filter fun p => p.1 ≤ b)
    rw [List.filter_cons, List.filter_cons]
    by_cases hb : blk ≤ b
    · rw [if_pos (by simpa using hb), if_pos (by simpa using hb)]
      show (blk, HashChain.link h0 d) :: _ =
        chainFrom h0 ((blk, d) :: rest.filter fun p => p.1 ≤ b)
      rw [ih (HashChain.link h0 d) hp.2]
      rfl
    · rw [if_neg (by simpa using hb), if_neg (by simpa using hb)]
      have hrest : ∀ x ∈ rest.map Prod.fst, ¬ x ≤ b := by
        intro x hx
        have := hp.1 x hx
        omega
      have h1 : (chainFrom (HashChain.link h0 d) rest).filter
          (fun p => p.1 ≤ b) = [] := by
        rw [List.filter_eq_nil_iff]
        intro p hp2
        have hpm : p.1 ∈ rest.map Prod.fst := by
          rw [← chainFrom_map_fst rest (HashChain.link h0 d)]
          exact List.mem_map.mpr ⟨p, hp2, rfl⟩
        simpa using hrest p.1 hpm
      have h2 : rest.filter (fun p : Nat × AccountUpdate => p.1 ≤ b) = [] := by
        rw [List.filter_eq_nil_iff]
        intro p hp2
        simpa using hrest p.1 (List.mem_map.mpr ⟨p, hp2, rfl⟩)
      rw [h1, h2]
      rfl

/-- Splitting a conjunctive filter. -/
theorem filter_and_decide {α : Type} (p q : α → Prop) [DecidablePred p]
    [DecidablePred q] (l : List α) :
    (l.filter fun x => p x ∧ q x) =
      ((l.filter fun x => p x).filter fun x => q x) := by
  rw [List.filter_filter]
  apply List.filter_congr
  intro x hx
  by_cases h1 : p x
  · by_cases h2 : q x
    · simp [h1, h2]
    · simp [h1, h2]
  · simp [h1]

/-- Mapping the pair eta-expansion is the identity. -/
theorem map_pair_eta {α β : Type} : ∀ l : List (α × β),
    (l.map fun p => (p.1, p.2)) = l := by
  intro l
  induction l with
  | nil => rfl
  | cons x xs ih => rw [List.map_cons, ih]

/-- Strictly ascending first components give pairwise strictly ascending
`(fst, 0)` sort keys. -/
theorem pairwise_keyLt_fst {α : Type} (l : List (Nat × α))
    (h : List.Pairwise (· < ·) (l.map Prod.fst)) :
    List.Pairwise (fun x y : Nat × α => keyLt (x.1, 0) (y.1, 0) = true) l := by
  have h2 := (List.pairwise_map).mp h
  exact h2.imp (fun hxy => by simp [keyLt]; omega)

/-- The sorted per-account `(block, hash)` rows `VerifyAccount` reads are
the chain rows of the bounded diff stream. -/
theorem hashRows_char (a b : Nat) (history : List (Nat × Update))
    (hpair : List.Pairwise (· < ·) (history.map Prod.fst)) :
    sortByKey (fun r => (r.1, 0))
      (((buildArchivePure history).accountHash.filter
          fun r => r.account = a ∧ r.block ≤ b).map fun r => (r.block, r.hash)) =
      chainFrom HashChain.zero (diffsLE a b history) := by
  rw [filter_and_decide (fun r : HashRow => r.account = a)
      (fun r : HashRow => r.block ≤ b),
    buildPure_accountHash_filter a history hpair, List.filter_map]
  have hcomp : ((fun r : HashRow => decide (r.block ≤ b)) ∘
      fun p : Nat × HashChain => (⟨a, p.1, p.2⟩ : HashRow)) =
      fun p : Nat × HashChain => decide (p.1 ≤ b) := by
    funext x
    rfl
  rw [hcomp, chainFrom_filter_le b (touchedBlocks a history) HashChain.zero
      (touchedBlocks_pairwise a history hpair),
    List.map_map]
  have hcomp2 : ((fun r : HashRow => (r.block, r.hash)) ∘
      fun p : Nat × HashChain => (⟨a, p.1, p.2⟩ : HashRow)) =
      fun p : Nat × HashChain => (p.1, p.2) := by
    funext x
    rfl
  rw [hcomp2, map_pair_eta]
  exact sortByKey_id _ _ (pairwise_keyLt_fst _
    (by
      rw [chainFrom_map_fst]
      exact diffsLE_pairwise a b history hpair))

/-- Under duplicate-free keys, filtering an association list for one key
keeps exactly the found entry. -/
theorem filter_key_nodup (a : Nat) :
    ∀ l : List (Nat × Nat), nodupBy (l.map Prod.fst) = true →
      l.filter (fun p => p.1 = a) = (l.find? fun p => p.1 = a).toList := by
  intro l
  induction l with
  | nil => intro h; rfl
  | cons x xs ih =>
    intro h
    have h2 : nodupBy (xs.map Prod.fst) = true ∧ x.1 ∉ xs.map Prod.fst := by
      rw [List.map_cons] at h
      unfold nodupBy at h
      split at h
      · exact absurd h (by simp)
      · rename_i hmem
        exact ⟨h, hmem⟩
    rw [List.filter_cons]
    by_cases hx : x.1 = a
    · rw [if_pos (by simpa using hx), List.find?_cons_of_pos _ (by simpa using hx)]
      have hnil : xs.filter (fun p => p.1 = a) = [] := by
        rw [List.filter_eq_nil_iff]
        intro p hp
        simp only [decide_eq_true_eq]
        intro hpa
        exact h2.2 (List.mem_map.mpr ⟨p, hp, by rw [hpa, hx]⟩)
      rw [hnil]
      rfl
    · rw [if_neg (by simpa using hx), List.find?_cons_of_neg _ (by simpa using hx),
        ih h2.1]

theorem optRows_append {α : Type} (f : AccountUpdate → Option α) :
    ∀ l1 l2 : List (Nat × AccountUpdate),
      optRows f (l1 ++ l2) = optRows f l1 ++ optRows f l2 := by
  intro l1 l2
  induction l1 with
  | nil => rfl
  | cons p rest ih =>
    show ((f p.2).map fun x => (p.1, x)).toList ++ optRows f (rest ++ l2) = _
    rw [ih, ← List.append_assoc]
    rfl

theorem optRows_fst_mem {α : Type} (f : AccountUpdate → Option α) :
    ∀ (L : List (Nat × AccountUpdate)) (x : Nat × α),
      x ∈ optRows f L → x.1 ∈ L.map Prod.fst := by
  intro L
  induction L with
  | nil => intro x hx; cases hx
  | cons p rest ih =>
    intro x hx
    have hx2 : x ∈ ((f p.2).map fun y => (p.1, y)).toList ++ optRows f rest := hx
    show x.1 ∈ p.1 :: rest.map Prod.fst
    rcases List.mem_append.mp hx2 with h1 | h1
    · cases hf : f p.2 with
      | none => rw [hf] at h1; cases h1
      | some v =>
        rw [hf] at h1
        have hxv : x = (p.1, v) := by simpa using h1
        rw [hxv]
        exact List.mem_cons_self _ _
    · exact List.mem_cons_of_mem _ (ih x h1)

theorem optRows_pairwise {α : Type} (f : AccountUpdate → Option α)
    (L : List (Nat × AccountUpdate))
    (hp : List.Pairwise (· < ·) (L.map Prod.fst)) :
    List.Pairwise (· < ·) ((optRows f L).map Prod.fst) := by
  induction L with
  | nil => simp [optRows]
  | cons p rest ih =>
    rw [List.map_cons, List.pairwise_cons] at hp
    have he : optRows f (p :: rest) =
        ((f p.2).map fun y => (p.1, y)).toList ++ optRows f rest := rfl
    rw [he, List.map_append, List.pairwise_append]
    refine ⟨?_, ih hp.2, ?_⟩
    · cases hf : f p.2
      · simp
      · simp
    · intro x hx y hy
      have hxp : x = p.1 := by
        cases hf : f p.2 with
        | none => rw [hf] at hx; cases hx
        | some v =>
          rw [hf] at hx
          simpa using hx
      rcases List.mem_map.mp hy with ⟨q, hq, hqy⟩
      rw [hxp, ← hqy]
      exact hp.1 q.1 (optRows_fst_mem f rest q hq)

/-- The per-account, height-bounded rows of one value table, as built by
the history. -/
theorem histValueRows_char (proj : Update → List (Nat × Nat))
    (g : AccountUpdate → Option Nat) (a b : Nat)
    (hg : ∀ u : Update, g (u.accountDiff a) = lookupKey (proj u) a)
    (hmem : ∀ u : Update, a ∈ (proj u).map Prod.fst → a ∈ u.touchedAccounts) :
    ∀ history : List (Nat × Update),
      (∀ e ∈ history, nodupBy ((proj e.2).map Prod.fst) = true) →
      ((histValueRows proj history).filter
          (fun r => r.account = a ∧ r.block ≤ b)).map (fun r => (r.block, r.value)) =
        optRows g (diffsLE a b history) := by
  intro history
  induction history with
  | nil => intro hnd; rfl
  | cons e rest ih =>
    intro hnd
    show ((((proj e.2).map fun p => ValueRow.mk p.1 e.1 p.2) ++
        histValueRows proj rest).filter _).map _ = _
    rw [List.filter_append, List.map_append, diffsLE_cons, optRows_append]
    have hevent :
        (((proj e.2).map (fun p => ValueRow.mk p.1 e.1 p.2)).filter
            (fun r => r.account = a ∧ r.block ≤ b)).map (fun r => (r.block, r.value)) =
          optRows g
            (if a ∈ e.2.touchedAccounts ∧ e.1 ≤ b then [(e.1, e.2.accountDiff a)]
              else []) := by
      rw [List.filter_map]
      have hcomp : ((fun r : ValueRow => decide (r.account = a ∧ r.block ≤ b)) ∘
          fun p : Nat × Nat => ValueRow.mk p.1 e.1 p.2) =
          fun p : Nat × Nat => decide (p.1 = a ∧ e.1 ≤ b) := by
        funext x
        rfl
      rw [hcomp]
      by_cases hb : e.1 ≤ b
      · have hfeq : (proj e.2).filter (fun p => decide (p.1 = a ∧ e.1 ≤ b)) =
            (proj e.2).filter (fun p => p.1 = a) := by
          apply List.filter_congr
          intro x hx
          simp [hb]
        rw [hfeq, filter_key_nodup a (proj e.2) (hnd e (by simp))]
        cases hfind : (proj e.2).find? fun p => p.1 = a with
        | none =>
          have hlk : lookupKey (proj e.2) a = none := by
            unfold lookupKey
            rw [hfind]
            rfl
          by_cases hc : a ∈ e.2.touchedAccounts
          · rw [if_pos ⟨hc, hb⟩]
            show ([] : List (Nat × Nat)) =
              ((g (e.2.accountDiff a)).map fun x => (e.1, x)).toList ++ []
            rw [hg e.2, hlk]
            rfl
          · rw [if_neg (fun hm => hc hm.1)]
            rfl
        | some p0 =>
          have hp0 := List.find?_some hfind
          have hmem0 := List.mem_of_find?_eq_some hfind
          have hp0a : p0.1 = a := by simpa using hp0
          have hc : a ∈ e.2.touchedAccounts :=
            hmem e.2 (List.mem_map.mpr ⟨p0, hmem0, hp0a⟩)
          rw [if_pos ⟨hc, hb⟩]
          have hlk : lookupKey (proj e.2) a = some p0.2 := by
            unfold lookupKey
            rw [hfind]
            rfl
          show [(e.1, p0.2)] =
            ((g (e.2.accountDiff a)).map fun x => (e.1, x)).toList ++ []
          rw [hg e.2, hlk]
          rfl
      · have hfeq : (proj e.2).filter (fun p => decide (p.1 = a ∧ e.1 ≤ b)) = [] := by
          rw [List.filter_eq_nil_iff]
          intro p hp
          simp [hb]
        rw [hfeq, if_neg (fun hm => hb hm.2)]
        rfl
    rw [hevent, ih (fun e2 he2 => hnd e2 (by simp [he2]))]

/-- Effect of one delete/create insert loop on the per-account,
height-bounded `(block, exist)` projection. -/
theorem appendStatusRows_filterProj (blk : Nat) (ex : Bool) (a b : Nat) :
    ∀ (accs : List Nat) (rows : List StatusRow),
      nodupBy accs = true →
      ((appendStatusRows rows blk ex accs).filter
          (fun r => r.account = a ∧ r.block ≤ b)).map (fun r => (r.block, r.exist)) =
        ((rows.filter (fun r => r.account = a ∧ r.block ≤ b)).map
            fun r => (r.block, r.exist)) ++
          (if a ∈ accs ∧ blk ≤ b then [(blk, ex)] else []) := by
  intro accs
  induction accs with
  | nil =>
    intro rows hnd
    rw [if_neg (by rintro ⟨hm, -⟩; cases hm), List.append_nil]
    rfl
  | cons acc rest ih =>
    intro rows hnd
    have hnd2 : nodupBy rest = true ∧ acc ∉ rest := by
      unfold nodupBy at hnd
      split at hnd
      · exact absurd hnd (by simp)
      · rename_i hmem
        exact ⟨hnd, hmem⟩
    show ((appendStatusRows
        (rows ++ [⟨acc, blk, ex, nextReincarnation rows acc⟩]) blk ex rest).filter _).map _ = _
    rw [ih _ hnd2.1, List.filter_append, List.map_append]
    by_cases hacc : acc = a
    · subst hacc
      rw [if_neg (fun hm => hnd2.2 hm.1)]
      by_cases hb : blk ≤ b
      · rw [List.filter_cons, if_pos (by simp [hb]), List.filter_nil,
          if_pos ⟨List.mem_cons_self _ _, hb⟩, List.append_nil]
        rfl
      · rw [List.filter_cons, if_neg (by simp [hb]), List.filter_nil,
          if_neg (fun hm => hb hm.2)]
        simp
    · rw [List.filter_cons, if_neg (by simp; intro hm; exact absurd hm hacc), List.filter_nil]
      have hiff : (a ∈ acc :: rest ∧ blk ≤ b) ↔ (a ∈ rest ∧ blk ≤ b) := by
        constructor
        · rintro ⟨hm, hb2⟩
          exact ⟨(List.mem_cons.mp hm).resolve_left (fun hh => hacc hh.symm), hb2⟩
        · rintro ⟨hm, hb2⟩
          exact ⟨List.mem_cons_of_mem _ hm, hb2⟩
      rw [if_congr hiff rfl rfl]
      simp

/-- Unfolding `diffsLE` over a trailing event. -/
theorem diffsLE_snoc (a b : Nat) (h : List (Nat × Update)) (e : Nat × Update) :
    diffsLE a b (h ++ [e]) =
      diffsLE a b h ++
        (if a ∈ e.2.touchedAccounts ∧ e.1 ≤ b then [(e.1, e.2.accountDiff a)]
          else []) := by
  unfold diffsLE touchedBlocks
  rw [List.filterMap_append, List.filter_append]
  congr 1
  by_cases hc : a ∈ e.2.touchedAccounts
  · rw [List.filterMap_cons, if_pos hc]
    show List.filter _ [(e.1, e.2.accountDiff a)] = _
    rw [List.filter_cons]
    by_cases hb : e.1 ≤ b
    · rw [if_pos (by simpa using hb), if_pos ⟨hc, hb⟩]
      rfl
    · rw [if_neg (by simpa using hb), if_neg (fun hm => hb hm.2)]
      rfl
  · rw [List.filterMap_cons, if_neg hc, if_neg (fun hm => hc hm.1)]
    rfl

/-- The status entry of a well-formed per-account diff. -/
theorem entryOf_accountDiff (u : Update) (a : Nat) (hwf : u.wellFormed = true) :
    entryOf? (u.accountDiff a) =
      if a ∈ u.deletedAccounts then some false
      else if a ∈ u.createdAccounts then some true else none := by
  obtain ⟨-, -, hdc, -⟩ := wellFormed_elim u hwf
  unfold entryOf?
  rw [show (u.accountDiff a).created = u.createdAccounts.contains a from rfl,
    show (u.accountDiff a).deleted = u.deletedAccounts.contains a from rfl]
  by_cases hdel : a ∈ u.deletedAccounts
  · have h1 : u.deletedAccounts.contains a = true := (contains_eq_mem a _).mpr hdel
    have h2 : u.createdAccounts.contains a = false := by
      rw [Bool.eq_false_iff]
      intro hcon
      exact hdc a hdel ((contains_eq_mem a _).mp hcon)
    rw [h1, h2, if_pos hdel]
    simp
  · have h1 : u.deletedAccounts.contains a = false := by
      rw [Bool.eq_false_iff]
      intro hcon
      exact hdel ((contains_eq_mem a _).mp hcon)
    rw [h1, if_neg hdel]
    by_cases hcre : a ∈ u.createdAccounts
    · rw [(contains_eq_mem a _).mpr hcre, if_pos hcre]
      simp
    · have h2 : u.createdAccounts.contains a = false := by
        rw [Bool.eq_false_iff]
        intro hcon
        exact hcre ((contains_eq_mem a _).mp hcon)
      rw [h2, if_neg hcre]
      simp

/-- The per-account, height-bounded `(block, exist)` rows of a built
archive are the status entries of the bounded diff stream. -/
theorem statusRows_char (a b : Nat) :
    ∀ history : List (Nat × Update),
      (∀ e ∈ history, e.2.wellFormed = true) →
      (((buildArchivePure history).status.filter
          (fun r => r.account = a ∧ r.block ≤ b)).map (fun r => (r.block, r.exist))) =
        optRows entryOf? (diffsLE a b history) := by
  intro history
  induction history using List.reverseRecOn with
  | nil => intro hwf; rfl
  | append_singleton h e ih =>
    intro hwf
    obtain ⟨blk, u⟩ := e
    have hwfu : u.wellFormed = true := hwf (blk, u) (by simp)
    obtain ⟨hndd, hndc, hdc, -⟩ := wellFormed_elim u hwfu
    have hS : (buildArchivePure (h ++ [(blk, u)])).status =
        appendStatusRows
          (appendStatusRows (buildArchivePure h).status blk false u.deletedAccounts)
          blk true u.createdAccounts := by
      rw [buildPure_snoc]
      rfl
    rw [hS, appendStatusRows_filterProj blk true a b u.createdAccounts _ hndc,
      appendStatusRows_filterProj blk false a b u.deletedAccounts _ hndd,
      ih (fun e2 he2 => hwf e2 (by simp [he2])),
      diffsLE_snoc, optRows_append, List.append_assoc]
    congr 1
    by_cases hb : blk ≤ b
    · by_cases hdel : a ∈ u.deletedAccounts
      · have hcre : a ∉ u.createdAccounts := hdc a hdel
        rw [if_pos ⟨hdel, hb⟩, if_neg (fun hm => hcre hm.1),
          if_pos ⟨by
            unfold Update.touchedAccounts
            rw [mem_sortedDedup]
            simp [hdel], hb⟩]
        show _ = ((entryOf? (u.accountDiff a)).map fun x => (blk, x)).toList ++ []
        rw [entryOf_accountDiff u a hwfu, if_pos hdel]
        rfl
      · rw [if_neg (fun hm => hdel hm.1)]
        by_cases hcre : a ∈ u.createdAccounts
        · rw [if_pos ⟨hcre, hb⟩,
            if_pos ⟨by
              unfold Update.touchedAccounts
              rw [mem_sortedDedup]
              simp [hcre], hb⟩]
          show _ = ((entryOf? (u.accountDiff a)).map fun x => (blk, x)).toList ++ []
          rw [entryOf_accountDiff u a hwfu, if_neg hdel, if_pos hcre]
          rfl
        · rw [if_neg (fun hm => hcre hm.1)]
          by_cases hc : a ∈ u.touchedAccounts
          · rw [if_pos ⟨hc, hb⟩]
            show ([] : List (Nat × Bool)) =
              ((entryOf? (u.accountDiff a)).map fun x => (blk, x)).toList ++ []
            rw [entryOf_accountDiff u a hwfu, if_neg hdel, if_neg hcre]
            rfl
          · rw [if_neg (fun hm => hc hm.1)]
            rfl
    · rw [if_neg (fun hm => hb hm.2), if_neg (fun hm => hb hm.2),
        if_neg (fun hm => hb hm.2)]
      rfl

/-- The per-account, height-bounded storage rows contributed by each
event, in table order. -/
def storGroups (a b : Nat) : List (Nat × Update) → List (Nat × Nat × Nat)
  | [] => []
  | e :: rest =>
    (if e.1 ≤ b then
      ((e.2.storage.filter fun w => w.addr = a).map fun w => (e.1, w.slot, w.value))
    else []) ++ storGroups a b rest

theorem storOf_append : ∀ l1 l2 : List (Nat × AccountUpdate),
    storOf (l1 ++ l2) = storOf l1 ++ storOf l2 := by
  intro l1 l2
  induction l1 with
  | nil => rfl
  | cons p rest ih =>
    show (p.2.storage.map fun s => (p.1, s.1, s.2)) ++ storOf (rest ++ l2) = _
    rw [ih, ← List.append_assoc]
    rfl

theorem storOf_fst_mem : ∀ (L : List (Nat × AccountUpdate)) (x : Nat × Nat × Nat),
    x ∈ storOf L → x.1 ∈ L.map Prod.fst := by
  intro L
  induction L with
  | nil => intro x hx; cases hx
  | cons p rest ih =>
    intro x hx
    have hx2 : x ∈ (p.2.storage.map fun s => (p.1, s.1, s.2)) ++ storOf rest := hx
    show x.1 ∈ p.1 :: rest.map Prod.fst
    rcases List.mem_append.mp hx2 with h1 | h1
    · rcases List.mem_map.mp h1 with ⟨s, hs, hsx⟩
      rw [← hsx]
      exact List.mem_cons_self _ _
    · exact List.mem_cons_of_mem _ (ih x h1)

theorem storGroups_fst_mem (a b : Nat) :
    ∀ (events : List (Nat × Update)) (x : Nat × Nat × Nat),
      x ∈ storGroups a b events → x.1 ∈ events.map Prod.fst := by
  intro events
  induction events with
  | nil => intro x hx; cases hx
  | cons e rest ih =>
    intro x hx
    have hx2 : x ∈ (if e.1 ≤ b then
        ((e.2.storage.filter fun w => w.addr = a).map fun w => (e.1, w.slot, w.value))
      else []) ++ storGroups a b rest := hx
    show x.1 ∈ e.1 :: rest.map Prod.fst
    rcases List.mem_append.mp hx2 with h1 | h1
    · by_cases hb : e.1 ≤ b
      · rw [if_pos hb] at h1
        rcases List.mem_map.mp h1 with ⟨w, hw, hwx⟩
        rw [← hwx]
        exact List.mem_cons_self _ _
      · rw [if_neg hb] at h1
        cases h1
    · exact List.mem_cons_of_mem _ (ih x h1)

/-- The filtered, projected storage rows of a built history, grouped by
event. -/
theorem histStorage_filter (a b : Nat) (H : List (Nat × Update)) :
    ∀ events : List (Nat × Update),
      ((flatRows (storageRowsOf H) events).filter
          (fun r => r.account = a ∧ r.block ≤ b)).map
        (fun r => (r.block, r.slot, r.value)) = storGroups a b events := by
  intro events
  induction events with
  | nil => rfl
  | cons e rest ih =>
    show (((storageRowsOf H e) ++ flatRows (storageRowsOf H) rest).filter _).map _ = _
    rw [List.filter_append, List.map_append, ih]
    congr 1
    unfold storageRowsOf
    rw [List.filter_map]
    have hcomp : ((fun r : StorageRow => decide (r.account = a ∧ r.block ≤ b)) ∘
        fun w : SlotWrite =>
          StorageRow.mk w.addr (specReinc H e.1 w.addr) w.slot e.1 w.value) =
        fun w : SlotWrite => decide (w.addr = a ∧ e.1 ≤ b) := by
      funext x
      rfl
    rw [hcomp]
    by_cases hb : e.1 ≤ b
    · rw [if_pos hb]
      have hfeq : (e.2.storage.filter fun w => decide (w.addr = a ∧ e.1 ≤ b)) =
          (e.2.storage.filter fun w => w.addr = a) := by
        apply List.filter_congr
        intro x hx
        simp [hb]
      rw [hfeq, List.map_map]
      rfl
    · rw [if_neg hb]
      have hfeq : (e.2.storage.filter fun w => decide (w.addr = a ∧ e.1 ≤ b)) = [] := by
        rw [List.filter_eq_nil_iff]
        intro w hw
        simp [hb]
      rw [hfeq]
      rfl

/-- Sorted elements come from the source list. -/
theorem mem_sortByKey_src {α : Type} (key : α → Nat × Nat) (y : α) (l : List α)
    (h : y ∈ sortByKey key l) : y ∈ l := by
  unfold sortByKey at h
  exact ((mem_sortByKey key y l []).mp h).resolve_left (fun hc => by cases hc)

/-- Sorting the grouped storage rows by `(block, slot)` yields the
slot-sorted per-diff storage of the bounded diff stream. -/
theorem storGroups_sorted (a b : Nat) :
    ∀ history : List (Nat × Update),
      List.Pairwise (· < ·) (history.map Prod.fst) →
      sortByKey (fun r : Nat × Nat × Nat => (r.1, r.2.1)) (storGroups a b history) =
        storOf (diffsLE a b history) := by
  intro history
  induction history with
  | nil => intro hp; rfl
  | cons e rest ih =>
    intro hp
    rw [List.map_cons, List.pairwise_cons] at hp
    show sortByKey _ ((if e.1 ≤ b then
        ((e.2.storage.filter fun w => w.addr = a).map fun w => (e.1, w.slot, w.value))
      else []) ++ storGroups a b rest) = _
    rw [diffsLE_cons, storOf_append]
    by_cases hb : e.1 ≤ b
    · rw [if_pos hb]
      have hsplit := sortByKey_append_split (fun r : Nat × Nat × Nat => (r.1, r.2.1))
        ((e.2.storage.filter fun w => w.addr = a).map fun w => (e.1, w.slot, w.value))
        (storGroups a b rest)
        (by
          intro x hx y hy
          rcases List.mem_map.mp hx with ⟨w, hw, hwx⟩
          have hy1 : y.1 ∈ rest.map Prod.fst := storGroups_fst_mem a b rest y hy
          have hlt : e.1 < y.1 := hp.1 y.1 hy1
          have hx1 : x.1 = e.1 := by rw [← hwx]
          simp [keyLt, hx1, hlt])
        (fun x hx => mem_sortByKey_src _ x _ hx)
      rw [hsplit, ih hp.2]
      congr 1
      by_cases hc : a ∈ e.2.touchedAccounts
      · rw [if_pos ⟨hc, hb⟩]
        have hG : ((e.2.storage.filter fun w => w.addr = a).map
            fun w => ((e.1 : Nat), w.slot, w.value)) =
            (((e.2.storage.filter fun w => w.addr = a).map
              fun w => (w.slot, w.value)).map fun p => (e.1, p.1, p.2)) := by
          rw [List.map_map]
          rfl
        have hk : ∀ x y : Nat × Nat,
            keyLt (((fun p : Nat × Nat => ((e.1 : Nat), p.1, p.2)) x).1,
              ((fun p : Nat × Nat => ((e.1 : Nat), p.1, p.2)) x).2.1)
              (((fun p : Nat × Nat => ((e.1 : Nat), p.1, p.2)) y).1,
              ((fun p : Nat × Nat => ((e.1 : Nat), p.1, p.2)) y).2.1) =
            keyLt (x.1, 0) (y.1, 0) := by
          intro x y
          simp [keyLt]
        have hgrp := sortByKey_map (fun p : Nat × Nat => (p.1, 0))
          (fun r : Nat × Nat × Nat => (r.1, r.2.1))
          (fun p : Nat × Nat => ((e.1 : Nat), p.1, p.2)) hk
          ((e.2.storage.filter fun w => w.addr = a).map fun w => (w.slot, w.value)) []
        rw [List.map_nil] at hgrp
        rw [hG]
        rw [show sortByKey (fun r : Nat × Nat × Nat => (r.1, r.2.1))
            ((((e.2.storage.filter fun w => w.addr = a).map
              fun w => (w.slot, w.value)).map fun p => (e.1, p.1, p.2))) =
            (((e.2.storage.filter fun w => w.addr = a).map
              fun w => (w.slot, w.value)).map fun p => (e.1, p.1, p.2)).foldl
              (insertByKey (fun r : Nat × Nat × Nat => (r.1, r.2.1))) [] from rfl,
          hgrp]
        show _ = (e.2.accountDiff a).storage.map (fun s => (e.1, s.1, s.2)) ++ []
        rw [List.append_nil]
        rfl
      · have hnil : (e.2.storage.filter fun w => w.addr = a) = [] := by
          rw [List.filter_eq_nil_iff]
          intro w hw
          simp only [decide_eq_true_eq]
          intro hwa
          exact hc (by
            unfold Update.touchedAccounts
            rw [mem_sortedDedup]
            simp only [List.mem_append]
            exact Or.inr (List.mem_map.mpr ⟨w, hw, hwa⟩))
        rw [if_neg (fun hm => hc hm.1), hnil]
        rfl
    · rw [if_neg hb, if_neg (fun hm => hb hm.2), List.nil_append]
      have hsn : storOf ([] : List (Nat × AccountUpdate)) ++ storOf (diffsLE a b rest) =
          storOf (diffsLE a b rest) := rfl
      rw [hsn]
      exact ih hp.2

/-- The sorted per-account `(block, slot, value)` storage rows
`VerifyAccount` reads are the block-major, slot-sorted writes of the
bounded diff stream. -/
theorem storRows_char (a b : Nat) (history : List (Nat × Update))
    (hwf : ∀ e ∈ history, e.2.wellFormed = true)
    (hpair : List.Pairwise (· < ·) (history.map Prod.fst)) :
    sortByKey (fun r : Nat × Nat × Nat => (r.1, r.2.1))
      (((buildArchivePure history).storage.filter
          (fun r => r.account = a ∧ r.block ≤ b)).map
        fun r => (r.block, r.slot, r.value)) =
      storOf (diffsLE a b history) := by
  rw [buildPure_storage history hwf hpair]
  show sortByKey _ (((flatRows (storageRowsOf history) history).filter _).map _) = _
  rw [histStorage_filter a b history history]
  exact storGroups_sorted a b history hpair

/-- A bound on all blocks bounds the head block. -/
theorem head_block_ge {α : Type} (blk : Nat) (l : List (Nat × α))
    (hl : ∀ p ∈ l, blk ≤ p.1) (x : Nat)
    (hx : x ∈ (l.head?.map Prod.fst).toList) : blk ≤ x := by
  cases l with
  | nil => cases hx
  | cons p ps =>
    have hxp : x = p.1 := by simpa using hx
    rw [hxp]
    exact hl p (by simp)

/-- The head-minimum fold of `minHead?` returns a lower bound that is
attained. -/
theorem foldMin_eq (b : Nat) :
    ∀ (l : List Nat) (acc : Option Nat),
      (∀ x ∈ l, b ≤ x) →
      (match acc with
        | none => b ∈ l
        | some y => b ≤ y ∧ (b ∈ l ∨ y = b)) →
      l.foldl (fun m x =>
        match m with
        | none => some x
        | some y => some (min y x)) acc = some b := by
  intro l
  induction l with
  | nil =>
    intro acc hle hmem
    cases acc with
    | none => cases hmem
    | some y =>
      obtain ⟨h1, h2⟩ := hmem
      rcases h2 with h2 | h2
      · cases h2
      · rw [List.foldl_nil, h2]
  | cons x xs ih =>
    intro acc hle hmem
    rw [List.foldl_cons]
    cases acc with
    | none =>
      apply ih (some x) (fun z hz => hle z (by simp [hz]))
      refine ⟨hle x (by simp), ?_⟩
      rcases List.mem_cons.mp hmem with h2 | h2
      · exact Or.inr h2.symm
      · exact Or.inl h2
    | some y =>
      obtain ⟨h1, h2⟩ := hmem
      show List.foldl _ (some (min y x)) xs = some b
      apply ih (some (min y x)) (fun z hz => hle z (by simp [hz]))
      constructor
      · have := hle x (by simp)
        omega
      · rcases h2 with h2 | h2
        · rcases List.mem_cons.mp h2 with h3 | h3
          · right
            have := hle x (by simp)
            omega
          · left
            exact h3
        · right
          have hx := hle x (by simp)
          omega

/-- The field cases behind a nonempty diff. -/
theorem diffNonempty_cases (d : AccountUpdate) (h : diffNonempty d = true) :
    (entryOf? d).isSome = true ∨ d.balance.isSome = true ∨
      d.nonce.isSome = true ∨ d.code.isSome = true ∨ d.storage ≠ [] := by
  by_cases h1 : d.created = true
  · left
    unfold entryOf?
    rw [if_pos h1]
    rfl
  · by_cases h2 : d.deleted = true
    · left
      unfold entryOf?
      rw [if_neg h1, if_pos h2]
      rfl
    · by_cases h3 : d.balance.isSome = true
      · right; left; exact h3
      · by_cases h4 : d.nonce.isSome = true
        · right; right; left; exact h4
        · by_cases h5 : d.code.isSome = true
          · right; right; right; left; exact h5
          · right; right; right; right
            intro hnil
            unfold diffNonempty at h
            rw [hnil] at h
            simp [h1, h2, h3, h4, h5] at h

/-- `minHead?` over the per-field rows of a nonempty diff stream is the
first block. -/
theorem minHead?_diffs (blk : Nat) (d : AccountUpdate)
    (rest : List (Nat × AccountUpdate))
    (hasc : ∀ x ∈ rest.map Prod.fst, blk < x)
    (hne : diffNonempty d = true) :
    minHead? (optRows entryOf? ((blk, d) :: rest))
      (optRows (fun u => u.balance) ((blk, d) :: rest))
      (optRows (fun u => u.nonce) ((blk, d) :: rest))
      (optRows (fun u => u.code) ((blk, d) :: rest))
      (storOf ((blk, d) :: rest)) = some blk := by
  have hb5 : ∀ x : Nat, x ∈ ((blk, d) :: rest).map Prod.fst → blk ≤ x := by
    intro x hx
    rcases List.mem_cons.mp hx with h1 | h1
    · omega
    · exact le_of_lt (hasc x h1)
  show ((((optRows entryOf? ((blk, d) :: rest)).head?.map Prod.fst).toList ++
      ((optRows (fun u => u.balance) ((blk, d) :: rest)).head?.map Prod.fst).toList ++
      ((optRows (fun u => u.nonce) ((blk, d) :: rest)).head?.map Prod.fst).toList ++
      ((optRows (fun u => u.code) ((blk, d) :: rest)).head?.map Prod.fst).toList ++
      ((storOf ((blk, d) :: rest)).head?.map Prod.fst).toList).foldl
      (fun m x =>
        match m with
        | none => some x
        | some y => some (min y x)) none) = some blk
  apply foldMin_eq blk _ none
  · intro x hx
    rcases List.mem_append.mp hx with hx | h1
    · rcases List.mem_append.mp hx with hx | h1
      · rcases List.mem_append.mp hx with hx | h1
        · rcases List.mem_append.mp hx with h1 | h1
          · exact head_block_ge blk _
              (fun p hp => hb5 p.1 (optRows_fst_mem _ _ p hp)) x h1
          · exact head_block_ge blk _
              (fun p hp => hb5 p.1 (optRows_fst_mem _ _ p hp)) x h1
        · exact head_block_ge blk _
            (fun p hp => hb5 p.1 (optRows_fst_mem _ _ p hp)) x h1
      · exact head_block_ge blk _
          (fun p hp => hb5 p.1 (optRows_fst_mem _ _ p hp)) x h1
    · exact head_block_ge blk _
        (fun p hp => hb5 p.1 (storOf_fst_mem _ p hp)) x h1
  · rcases diffNonempty_cases d hne with h | h | h | h | h
    · obtain ⟨v, hv⟩ := Option.isSome_iff_exists.mp h
      have hhead : (optRows entryOf? ((blk, d) :: rest)).head? = some (blk, v) := by
        show (((entryOf? d).map fun x => (blk, x)).toList ++
          optRows entryOf? rest).head? = _
        rw [hv]
        rfl
      exact List.mem_append.mpr (Or.inl (List.mem_append.mpr (Or.inl
        (List.mem_append.mpr (Or.inl (List.mem_append.mpr (Or.inl
        (by rw [hhead]; simp))))))))
    · obtain ⟨v, hv⟩ := Option.isSome_iff_exists.mp h
      have hhead : (optRows (fun u => u.balance) ((blk, d) :: rest)).head? =
          some (blk, v) := by
        show ((d.balance.map fun x => (blk, x)).toList ++
          optRows (fun u => u.balance) rest).head? = _
        rw [hv]
        rfl
      exact List.mem_append.mpr (Or.inl (List.mem_append.mpr (Or.inl
        (List.mem_append.mpr (Or.inl (List.mem_append.mpr (Or.inr
        (by rw [hhead]; simp))))))))
    · obtain ⟨v, hv⟩ := Option.isSome_iff_exists.mp h
      have hhead : (optRows (fun u => u.nonce) ((blk, d) :: rest)).head? =
          some (blk, v) := by
        show ((d.nonce.map fun x => (blk, x)).toList ++
          optRows (fun u => u.nonce) rest).head? = _
        rw [hv]
        rfl
      exact List.mem_append.mpr (Or.inl (List.mem_append.mpr (Or.inl
        (List.mem_append.mpr (Or.inr (by rw [hhead]; simp))))))
    · obtain ⟨v, hv⟩ := Option.isSome_iff_exists.mp h
      have hhead : (optRows (fun u => u.code) ((blk, d) :: rest)).head? =
          some (blk, v) := by
        show ((d.code.map fun x => (blk, x)).toList ++
          optRows (fun u => u.code) rest).head? = _
        rw [hv]
        rfl
      exact List.mem_append.mpr (Or.inl (List.mem_append.mpr (Or.inr
        (by rw [hhead]; simp))))
    · cases hst : d.storage with
      | nil => exact absurd hst h
      | cons s stail =>
        have hhead : (storOf ((blk, d) :: rest)).head? = some (blk, s.1, s.2) := by
          show ((d.storage.map fun q => (blk, q.1, q.2)) ++ storOf rest).head? = _
          rw [hst]
          rfl
        exact List.mem_append.mpr (Or.inr (by rw [hhead]; simp))

/-- `consumeHead` leaves a list whose blocks all exceed the current block
untouched. -/
theorem consumeHead_none {α : Type} (current : Nat) (l : List (Nat × α))
    (h : ∀ p ∈ l, current < p.1) : consumeHead current l = (none, l) := by
  cases l with
  | nil => rfl
  | cons p ps =>
    obtain ⟨b0, v0⟩ := p
    show (if b0 = current then _ else _) = _
    rw [if_neg (by have := h (b0, v0) (by simp); omega)]

/-- `consumeHead` takes exactly the optional entry of the current block
off a per-field row list. -/
theorem consumeHead_opt {α : Type} (blk : Nat) (o : Option α)
    (rest : List (Nat × α)) (hrest : ∀ p ∈ rest, blk < p.1) :
    consumeHead blk ((o.map fun x => (blk, x)).toList ++ rest) = (o, rest) := by
  cases o with
  | none => exact consumeHead_none blk rest hrest
  | some v =>
    show (if blk = blk then _ else _) = _
    rw [if_pos rfl]
    rfl

theorem takeWhile_append_all {α : Type} (p : α → Bool) :
    ∀ (A B : List α), (∀ x ∈ A, p x = true) →
      (A ++ B).takeWhile p = A ++ B.takeWhile p := by
  intro A
  induction A with
  | nil => intro B h; rfl
  | cons x xs ih =>
    intro B h
    show (x :: (xs ++ B)).takeWhile p = _
    rw [List.takeWhile_cons, if_pos (h x (by simp)),
      ih B (fun y hy => h y (by simp [hy]))]
    rfl

theorem takeWhile_nil_of_false {α : Type} (p : α → Bool) (l : List α)
    (h : ∀ x ∈ l, p x = false) : l.takeWhile p = [] := by
  cases l with
  | nil => rfl
  | cons x xs =>
    rw [List.takeWhile_cons, if_neg (by simp [h x (by simp)])]

theorem dropWhile_append_all {α : Type} (p : α → Bool) :
    ∀ (A B : List α), (∀ x ∈ A, p x = true) →
      (A ++ B).dropWhile p = B.dropWhile p := by
  intro A
  induction A with
  | nil => intro B h; rfl
  | cons x xs ih =>
    intro B h
    show (x :: (xs ++ B)).dropWhile p = _
    rw [List.dropWhile_cons, if_pos (h x (by simp)),
      ih B (fun y hy => h y (by simp [hy]))]

theorem dropWhile_self_of_false {α : Type} (p : α → Bool) (l : List α)
    (h : ∀ x ∈ l, p x = false) : l.dropWhile p = l := by
  cases l with
  | nil => rfl
  | cons x xs =>
    rw [List.dropWhile_cons, if_neg (by simp [h x (by simp)])]

/-- A stream of nonempty diffs contributes at least one content row
each. -/
theorem diffs_length_le :
    ∀ L : List (Nat × AccountUpdate),
      (∀ p ∈ L, diffNonempty p.2 = true) →
      L.length ≤ (optRows entryOf? L).length +
        (optRows (fun u => u.balance) L).length +
        (optRows (fun u => u.nonce) L).length +
        (optRows (fun u => u.code) L).length + (storOf L).length := by
  intro L
  induction L with
  | nil => intro h; simp [optRows, storOf]
  | cons p rest ih =>
    intro h
    have hrec := ih (fun q hq => h q (by simp [hq]))
    have hlen : ∀ {α : Type} (f : AccountUpdate → Option α),
        (optRows f (p :: rest)).length =
          ((f p.2).map fun x => (p.1, x)).toList.length + (optRows f rest).length := by
      intro α f
      show (((f p.2).map fun x => (p.1, x)).toList ++ optRows f rest).length = _
      rw [List.length_append]
    have hlenS : (storOf (p :: rest)).length =
        p.2.storage.length + (storOf rest).length := by
      show ((p.2.storage.map fun s => (p.1, s.1, s.2)) ++ storOf rest).length = _
      rw [List.length_append, List.length_map]
    rw [List.length_cons, hlen entryOf?, hlen (fun u => u.balance),
      hlen (fun u => u.nonce), hlen (fun u => u.code), hlenS]
    rcases diffNonempty_cases p.2 (h p (by simp)) with hc | hc | hc | hc | hc
    · obtain ⟨v, hv⟩ := Option.isSome_iff_exists.mp hc
      have h1 : ((entryOf? p.2).map fun x => (p.1, x)).toList.length = 1 := by
        rw [hv]
        rfl
      rw [h1]
      omega
    · obtain ⟨v, hv⟩ := Option.isSome_iff_exists.mp hc
      have h1 : (p.2.balance.map fun x => (p.1, x)).toList.length = 1 := by
        rw [hv]
        rfl
      rw [h1]
      omega
    · obtain ⟨v, hv⟩ := Option.isSome_iff_exists.mp hc
      have h1 : (p.2.nonce.map fun x => (p.1, x)).toList.length = 1 := by
        rw [hv]
        rfl
      rw [h1]
      omega
    · obtain ⟨v, hv⟩ := Option.isSome_iff_exists.mp hc
      have h1 : (p.2.code.map fun x => (p.1, x)).toList.length = 1 := by
        rw [hv]
        rfl
      rw [h1]
      omega
    · have h1 : 0 < p.2.storage.length := List.length_pos.mpr hc
      omega

/-- One unfolding of the replay loop. -/
theorem verifyAccountLoop_succ (fuel : Nat) (state : List (Nat × Bool))
    (bal non cod : List (Nat × Nat)) (stor : List (Nat × Nat × Nat))
    (hashRows : List (Nat × HashChain)) (last : Int) (h : HashChain) :
    verifyAccountLoop (Nat.succ fuel) state bal non cod stor hashRows last h =
      (match minHead? state bal non cod stor with
        | none =>
          match hashRows with
          | [] => .ok ()
          | _ :: _ => .error (.internal "DB contains hash for update but no data.")
        | some current =>
          if (current : Int) ≤ last then
            .error (.internal
              "Multiple updates for same information in same block found.")
          else
            match hashRows with
            | [] =>
              .error (.internal
                "Archive contains update for block but no hash for it.")
            | (hb, stored) :: hashRest =>
              if hb ≠ current then
                .error (.internal
                  "Archive contains update for block but no hash for it.")
              else
                if HashChain.link h
                    { created := match (consumeHead current state).1 with
                        | some ex => ex
                        | none => false
                      deleted := match (consumeHead current state).1 with
                        | some ex => !ex
                        | none => false
                      balance := (consumeHead current bal).1
                      nonce := (consumeHead current non).1
                      code := (consumeHead current cod).1
                      storage := (stor.takeWhile fun r => r.1 = current).map
                        fun r => (r.2.1, r.2.2) } = stored then
                  verifyAccountLoop fuel (consumeHead current state).2
                    (consumeHead current bal).2 (consumeHead current non).2
                    (consumeHead current cod).2
                    (stor.dropWhile fun r => r.1 = current) hashRest last
                    (HashChain.link h
                      { created := match (consumeHead current state).1 with
                          | some ex => ex
                          | none => false
                        deleted := match (consumeHead current state).1 with
                          | some ex => !ex
                          | none => false
                        balance := (consumeHead current bal).1
                        nonce := (consumeHead current non).1
                        code := (consumeHead current cod).1
                        storage := (stor.takeWhile fun r => r.1 = current).map
                          fun r => (r.2.1, r.2.2) })
                else .error (.internal "Hash for block does not match.")) := rfl

/-- The replay loop accepts the per-field rows of any ascending stream of
well-formed, nonempty diffs against its own chain rows. -/
theorem verifyAccountLoop_ok :
    ∀ (L : List (Nat × AccountUpdate)) (fuel : Nat) (last : Int) (h : HashChain),
      List.Pairwise (· < ·) (L.map Prod.fst) →
      (∀ p ∈ L, last < (p.1 : Int)) →
      (∀ p ∈ L, diffNonempty p.2 = true) →
      (∀ p ∈ L, p.2.created = true → p.2.deleted = false) →
      L.length < fuel →
      verifyAccountLoop fuel (optRows entryOf? L)
        (optRows (fun u => u.balance) L) (optRows (fun u => u.nonce) L)
        (optRows (fun u => u.code) L) (storOf L) (chainFrom h L) last h =
        .ok () := by
  intro L
  induction L with
  | nil =>
    intro fuel last h hpair hlast hne hcd hfuel
    cases fuel with
    | zero => exact absurd hfuel (by simp)
    | succ f =>
      rw [verifyAccountLoop_succ]
      rfl
  | cons p rest ih =>
    intro fuel last h hpair hlast hne hcd hfuel
    obtain ⟨blk, d⟩ := p
    rw [List.map_cons, List.pairwise_cons] at hpair
    have hasc : ∀ x ∈ rest.map Prod.fst, blk < x := hpair.1
    cases fuel with
    | zero => exact absurd hfuel (by simp)
    | succ f =>
      rw [verifyAccountLoop_succ,
        minHead?_diffs blk d rest hasc (hne (blk, d) (by simp))]
      dsimp only
      rw [if_neg (not_le.mpr (hlast (blk, d) (by simp))),
        show chainFrom h ((blk, d) :: rest) =
          (blk, HashChain.link h d) :: chainFrom (HashChain.link h d) rest from rfl]
      dsimp only
      rw [if_neg (not_not_intro rfl)]
      have hcS : consumeHead blk (optRows entryOf? ((blk, d) :: rest)) =
          (entryOf? d, optRows entryOf? rest) := by
        show consumeHead blk (((entryOf? d).map fun x => (blk, x)).toList ++
          optRows entryOf? rest) = _
        exact consumeHead_opt blk _ _
          (fun p2 hp2 => hasc p2.1 (optRows_fst_mem _ _ p2 hp2))
      have hcB : consumeHead blk (optRows (fun u => u.balance) ((blk, d) :: rest)) =
          (d.balance, optRows (fun u => u.balance) rest) := by
        show consumeHead blk ((d.balance.map fun x => (blk, x)).toList ++
          optRows (fun u => u.balance) rest) = _
        exact consumeHead_opt blk _ _
          (fun p2 hp2 => hasc p2.1 (optRows_fst_mem _ _ p2 hp2))
      have hcN : consumeHead blk (optRows (fun u => u.nonce) ((blk, d) :: rest)) =
          (d.nonce, optRows (fun u => u.nonce) rest) := by
        show consumeHead blk ((d.nonce.map fun x => (blk, x)).toList ++
          optRows (fun u => u.nonce) rest) = _
        exact consumeHead_opt blk _ _
          (fun p2 hp2 => hasc p2.1 (optRows_fst_mem _ _ p2 hp2))
      have hcC : consumeHead blk (optRows (fun u => u.code) ((blk, d) :: rest)) =
          (d.code, optRows (fun u => u.code) rest) := by
        show consumeHead blk ((d.code.map fun x => (blk, x)).toList ++
          optRows (fun u => u.code) rest) = _
        exact consumeHead_opt blk _ _
          (fun p2 hp2 => hasc p2.1 (optRows_fst_mem _ _ p2 hp2))
      have hstorHi : ∀ x ∈ storOf rest, (fun r : Nat × Nat × Nat =>
          decide (r.1 = blk)) x = false := by
        intro x hx
        have hlt := hasc x.1 (storOf_fst_mem rest x hx)
        simp only [decide_eq_false_iff_not]
        omega
      have hstorLo : ∀ x ∈ d.storage.map fun s => ((blk : Nat), s.1, s.2),
          (fun r : Nat × Nat × Nat => decide (r.1 = blk)) x = true := by
        intro x hx
        rcases List.mem_map.mp hx with ⟨s, hs, hsx⟩
        rw [← hsx]
        simp
      have hTake : ((storOf ((blk, d) :: rest)).takeWhile fun r => r.1 = blk) =
          d.storage.map fun s => ((blk : Nat), s.1, s.2) := by
        show ((d.storage.map fun s => ((blk : Nat), s.1, s.2)) ++
          storOf rest).takeWhile _ = _
        rw [takeWhile_append_all _ _ _ hstorLo,
          takeWhile_nil_of_false _ _ hstorHi, List.append_nil]
      have hDrop : ((storOf ((blk, d) :: rest)).dropWhile fun r => r.1 = blk) =
          storOf rest := by
        show ((d.storage.map fun s => ((blk : Nat), s.1, s.2)) ++
          storOf rest).dropWhile _ = _
        rw [dropWhile_append_all _ _ _ hstorLo,
          dropWhile_self_of_false _ _ hstorHi]
      rw [hcS, hcB, hcN, hcC, hTake, hDrop]
      dsimp only
      have hupd : ({ created := match entryOf? d with
                      | some ex => ex
                      | none => false
                     deleted := match entryOf? d with
                      | some ex => !ex
                      | none => false
                     balance := d.balance
                     nonce := d.nonce
                     code := d.code
                     storage := ((d.storage.map fun s => ((blk : Nat), s.1, s.2)).map
                       fun r => (r.2.1, r.2.2)) } : AccountUpdate) = d := by
        have hcd2 : d.created = true → d.deleted = false := hcd (blk, d) (by simp)
        obtain ⟨cr, dl, ba2, no2, co2, st2⟩ := d
        have hst : ((st2.map fun s => ((blk : Nat), s.1, s.2)).map
            fun r => (r.2.1, r.2.2)) = st2 := by
          rw [List.map_map]
          exact map_pair_eta st2
        cases cr with
        | false =>
          cases dl with
          | false =>
            rw [show entryOf? (AccountUpdate.mk false false ba2 no2 co2 st2) =
              none from rfl]
            dsimp only
            rw [hst]
          | true =>
            rw [show entryOf? (AccountUpdate.mk false true ba2 no2 co2 st2) =
              some false from rfl]
            dsimp only
            rw [hst]
            rfl
        | true =>
          have hdl : dl = false := hcd2 rfl
          subst hdl
          rw [show entryOf? (AccountUpdate.mk true false ba2 no2 co2 st2) =
            some true from rfl]
          dsimp only
          rw [hst]
          rfl
      rw [hupd, if_pos rfl]
      have hf2 : rest.length < f := by
        have := hfuel
        simp only [List.length_cons] at this
        omega
      exact ih f last (HashChain.link h d) hpair.2
        (fun q hq => hlast q (List.mem_cons_of_mem _ hq))
        (fun q hq => hne q (List.mem_cons_of_mem _ hq))
        (fun q hq => hcd q (List.mem_cons_of_mem _ hq))
        hf2

/-- Sorted status rows of a built archive. -/
theorem stateRows_sorted_char (a b : Nat) (history : List (Nat × Update))
    (hwf : ∀ e ∈ history, e.2.wellFormed = true)
    (hpair : List.Pairwise (· < ·) (history.map Prod.fst)) :
    sortByKey (fun r : Nat × Bool => (r.1, 0))
      (((buildArchivePure history).status.filter
          fun r => r.account = a ∧ r.block ≤ b).map fun r => (r.block, r.exist)) =
      optRows entryOf? (diffsLE a b history) := by
  rw [statusRows_char a b history hwf]
  exact sortByKey_id _ _ (pairwise_keyLt_fst _
    (optRows_pairwise _ _ (diffsLE_pairwise a b history hpair)))

/-- Sorted per-account rows of one value table of a built archive. -/
theorem valRows_sorted_char (proj : Update → List (Nat × Nat))
    (g : AccountUpdate → Option Nat) (a b : Nat)
    (hg : ∀ u : Update, g (u.accountDiff a) = lookupKey (proj u) a)
    (hmem2 : ∀ u : Update, a ∈ (proj u).map Prod.fst → a ∈ u.touchedAccounts)
    (history : List (Nat × Update))
    (hnd : ∀ e ∈ history, nodupBy ((proj e.2).map Prod.fst) = true)
    (hpair : List.Pairwise (· < ·) (history.map Prod.fst)) :
    sortByKey (fun r : Nat × Nat => (r.1, 0))
      (((histValueRows proj history).filter
          fun r => r.account = a ∧ r.block ≤ b).map fun r => (r.block, r.value)) =
      optRows g (diffsLE a b history) := by
  rw [histValueRows_char proj g a b hg hmem2 history hnd]
  exact sortByKey_id _ _ (pairwise_keyLt_fst _
    (optRows_pairwise _ _ (diffsLE_pairwise a b history hpair)))

/-- `Archive::VerifyAccount` succeeds for every account of a well-built
archive. -/
theorem verifyAccount_ok (history : List (Nat × Update)) (b a : Nat)
    (hwf : ∀ e ∈ history, e.2.wellFormed = true)
    (hpair : List.Pairwise (· < ·) (history.map Prod.fst)) :
    (buildArchivePure history).verifyAccount b a = .ok () := by
  have hbal : (buildArchivePure history).balance =
      histValueRows (fun u => u.balances) history :=
    buildPure_balance history ArchiveDB.empty
  have hnon : (buildArchivePure history).nonce =
      histValueRows (fun u => u.nonces) history :=
    buildPure_nonce history ArchiveDB.empty
  have hcod : (buildArchivePure history).code =
      histValueRows (fun u => u.codes) history :=
    buildPure_code history ArchiveDB.empty
  simp only [ArchiveDB.verifyAccount]
  rw [stateRows_sorted_char a b history hwf hpair, hbal, hnon, hcod,
    valRows_sorted_char (fun u => u.balances) (fun d => d.balance) a b
      (fun u => rfl)
      (fun u hm => by
        unfold Update.touchedAccounts
        rw [mem_sortedDedup]
        simp [hm])
      history (fun e he => (wellFormed_elim e.2 (hwf e he)).2.2.2.1) hpair,
    valRows_sorted_char (fun u => u.nonces) (fun d => d.nonce) a b
      (fun u => rfl)
      (fun u hm => by
        unfold Update.touchedAccounts
        rw [mem_sortedDedup]
        simp [hm])
      history (fun e he => (wellFormed_elim e.2 (hwf e he)).2.2.2.2.1) hpair,
    valRows_sorted_char (fun u => u.codes) (fun d => d.code) a b
      (fun u => rfl)
      (fun u hm => by
        unfold Update.touchedAccounts
        rw [mem_sortedDedup]
        simp [hm])
      history (fun e he => (wellFormed_elim e.2 (hwf e he)).2.2.2.2.2.1) hpair,
    storRows_char a b history hwf hpair, hashRows_char a b history hpair]
  have hLpair := diffsLE_pairwise a b history hpair
  have hLne : ∀ p ∈ diffsLE a b history, diffNonempty p.2 = true := by
    intro p hp
    obtain ⟨⟨e, he, hpe, hta⟩, -⟩ := diffsLE_mem a b history p hp
    rw [hpe]
    exact accountDiff_nonempty e.2 a hta
  have hLcd : ∀ p ∈ diffsLE a b history,
      p.2.created = true → p.2.deleted = false := by
    intro p hp hc
    obtain ⟨⟨e, he, hpe, hta⟩, -⟩ := diffsLE_mem a b history p hp
    rw [hpe] at hc ⊢
    exact accountDiff_created_deleted e.2 a (hwf e he) hc
  cases hLc : diffsLE a b history with
  | nil =>
    exact verifyAccountLoop_ok [] _ _ HashChain.zero (by simp)
      (by intro p hp; cases hp) (by intro p hp; cases hp)
      (by intro p hp; cases hp) (by simp)
  | cons q L2 =>
    obtain ⟨blk0, d0⟩ := q
    rw [hLc] at hLpair hLne hLcd
    rw [List.map_cons, List.pairwise_cons] at hLpair
    have hasc0 : ∀ x ∈ L2.map Prod.fst, blk0 < x := fun x hx => hLpair.1 x hx
    have hne0 : diffNonempty d0 = true := hLne (blk0, d0) (by simp)
    rw [minHead?_diffs blk0 d0 L2 hasc0 hne0]
    dsimp only
    have hlast : ∀ p ∈ (blk0, d0) :: L2, ((blk0 : Int) - 1) < (p.1 : Int) := by
      intro p hp2
      rcases List.mem_cons.mp hp2 with h1 | h1
      · subst h1
        dsimp only
        omega
      · have := hasc0 p.1 (List.mem_map.mpr ⟨p, h1, rfl⟩)
        omega
    have hlen := diffs_length_le ((blk0, d0) :: L2) hLne
    exact verifyAccountLoop_ok ((blk0, d0) :: L2) _ ((blk0 : Int) - 1)
      HashChain.zero
      (by
        rw [List.map_cons, List.pairwise_cons]
        exact hLpair)
      hlast hLne hLcd (by omega)

theorem findSome?_none {α β : Type} (f : α → Option β) :
    ∀ l : List α, (∀ x ∈ l, f x = none) → l.findSome? f = none := by
  intro l
  induction l with
  | nil => intro h; rfl
  | cons x xs ih =>
    intro h
    rw [List.findSome?_cons, h x (by simp)]
    exact ih (fun y hy => h y (by simp [hy]))

/-- A touching event contributes its touched-block entry. -/
theorem touchedBlocks_mem_of (a : Nat) :
    ∀ history : List (Nat × Update), ∀ e ∈ history, a ∈ e.2.touchedAccounts →
      (e.1, e.2.accountDiff a) ∈ touchedBlocks a history := by
  intro history
  induction history with
  | nil => intro e he; cases he
  | cons e2 rest ih =>
    intro e he hta
    unfold touchedBlocks
    rw [List.filterMap_cons]
    rcases List.mem_cons.mp he with he2 | he2
    · subst he2
      rw [if_pos hta]
      exact List.mem_cons_self _ _
    · by_cases hc : a ∈ e2.2.touchedAccounts
      · rw [if_pos hc]
        exact List.mem_cons_of_mem _ (ih e he2 hta)
      · rw [if_neg hc]
        exact ih e he2 hta

/-- A touching event yields an `account_hash` row at its block. -/
theorem accountHash_mem (history : List (Nat × Update))
    (hpair : List.Pairwise (· < ·) (history.map Prod.fst))
    (acc : Nat) (e : Nat × Update) (he : e ∈ history)
    (hta : acc ∈ e.2.touchedAccounts) :
    ∃ r ∈ (buildArchivePure history).accountHash,
      r.account = acc ∧ r.block = e.1 := by
  have htb := touchedBlocks_mem_of acc history e he hta
  have hblk : e.1 ∈ (chainFrom HashChain.zero (touchedBlocks acc history)).map
      Prod.fst := by
    rw [chainFrom_map_fst]
    exact List.mem_map.mpr ⟨(e.1, e.2.accountDiff acc), htb, rfl⟩
  rcases List.mem_map.mp hblk with ⟨p, hp, hfst⟩
  refine ⟨⟨acc, p.1, p.2⟩, ?_, rfl, hfst⟩
  apply List.mem_of_mem_filter (p := fun r : HashRow => decide (r.account = acc))
  rw [buildPure_accountHash_filter acc history hpair]
  exact List.mem_map.mpr ⟨p, hp, rfl⟩

/-- Every status row of a built archive belongs to a touching event. -/
theorem appendStatusRows_mem (blk : Nat) (ex : Bool) :
    ∀ (accs : List Nat) (rows : List StatusRow) (r : StatusRow),
      r ∈ appendStatusRows rows blk ex accs →
      r ∈ rows ∨ (r.block = blk ∧ r.account ∈ accs) := by
  intro accs
  induction accs with
  | nil => intro rows r hr; exact Or.inl hr
  | cons acc rest ih =>
    intro rows r hr
    have := ih (rows ++ [⟨acc, blk, ex, nextReincarnation rows acc⟩]) r hr
    rcases this with h1 | h1
    · rcases List.mem_append.mp h1 with h2 | h2
      · exact Or.inl h2
      · have hr2 : r = ⟨acc, blk, ex, nextReincarnation rows acc⟩ := by simpa using h2
        subst hr2
        exact Or.inr ⟨rfl, by simp⟩
    · exact Or.inr ⟨h1.1, List.mem_cons_of_mem _ h1.2⟩

theorem buildPure_status_mem :
    ∀ history : List (Nat × Update), ∀ r ∈ (buildArchivePure history).status,
      ∃ e ∈ history, r.block = e.1 ∧ r.account ∈ e.2.touchedAccounts := by
  intro history
  induction history using List.reverseRecOn with
  | nil => intro r hr; cases hr
  | append_singleton h e ih =>
    intro r hr
    obtain ⟨blk, u⟩ := e
    have hS : (buildArchivePure (h ++ [(blk, u)])).status =
        appendStatusRows
          (appendStatusRows (buildArchivePure h).status blk false u.deletedAccounts)
          blk true u.createdAccounts := by
      rw [buildPure_snoc]
      rfl
    rw [hS] at hr
    rcases appendStatusRows_mem blk true u.createdAccounts _ r hr with h1 | h1
    · rcases appendStatusRows_mem blk false u.deletedAccounts _ r h1 with h2 | h2
      · obtain ⟨e2, he2, hb2, ht2⟩ := ih r h2
        exact ⟨e2, by simp [he2], hb2, ht2⟩
      · refine ⟨(blk, u), by simp, h2.1, ?_⟩
        unfold Update.touchedAccounts
        rw [mem_sortedDedup]
        simp [h2.2]
    · refine ⟨(blk, u), by simp, h1.1, ?_⟩
      unfold Update.touchedAccounts
      rw [mem_sortedDedup]
      simp [h1.2]

theorem histValueRows_mem (proj : Update → List (Nat × Nat)) :
    ∀ history : List (Nat × Update), ∀ r ∈ histValueRows proj history,
      ∃ e ∈ history, r.block = e.1 ∧ r.account ∈ (proj e.2).map Prod.fst := by
  intro history
  induction history with
  | nil => intro r hr; cases hr
  | cons e rest ih =>
    intro r hr
    have hr2 : r ∈ ((proj e.2).map fun p => ValueRow.mk p.1 e.1 p.2) ++
        histValueRows proj rest := hr
    rcases List.mem_append.mp hr2 with h1 | h1
    · rcases List.mem_map.mp h1 with ⟨p, hp, hpr⟩
      refine ⟨e, by simp, ?_, ?_⟩
      · rw [← hpr]
      · rw [← hpr]
        exact List.mem_map.mpr ⟨p, hp, rfl⟩
    · obtain ⟨e2, he2, hb2, ht2⟩ := ih r h1
      exact ⟨e2, by simp [he2], hb2, ht2⟩

theorem histStorageRows_mem (H : List (Nat × Update)) :
    ∀ events : List (Nat × Update), ∀ r ∈ flatRows (storageRowsOf H) events,
      ∃ e ∈ events, r.block = e.1 ∧ r.account ∈ e.2.storage.map SlotWrite.addr := by
  intro events
  induction events with
  | nil => intro r hr; cases hr
  | cons e rest ih =>
    intro r hr
    have hr2 : r ∈ storageRowsOf H e ++ flatRows (storageRowsOf H) rest := hr
    rcases List.mem_append.mp hr2 with h1 | h1
    · unfold storageRowsOf at h1
      rcases List.mem_map.mp h1 with ⟨w, hw, hwr⟩
      refine ⟨e, by simp, ?_, ?_⟩
      · rw [← hwr]
      · rw [← hwr]
        exact List.mem_map.mpr ⟨w, hw, rfl⟩
    · obtain ⟨e2, he2, hb2, ht2⟩ := ih r h1
      exact ⟨e2, by simp [he2], hb2, ht2⟩

/-- The account of any touching event at height `≤ b` appears among the
bounded `account_hash` accounts. -/
theorem mem_hashAccounts (history : List (Nat × Update))
    (hpair : List.Pairwise (· < ·) (history.map Prod.fst)) (b acc : Nat)
    (e : Nat × Update) (he : e ∈ history) (hb : e.1 ≤ b)
    (hta : acc ∈ e.2.touchedAccounts) :
    acc ∈ ((buildArchivePure history).accountHash.filter
      fun r => r.block ≤ b).map fun r => r.account := by
  obtain ⟨r, hr, hra, hrb⟩ := accountHash_mem history hpair acc e he hta
  exact List.mem_map.mpr ⟨r, List.mem_filter.mpr ⟨hr, by simp [hrb, hb]⟩, hra⟩

/-- `Archive::Verify(b, GetHash(b))` succeeds on a well-built archive. -/
theorem verify_ok (history : List (Nat × Update)) (b : Nat)
    (hwf : ∀ e ∈ history, e.2.wellFormed = true)
    (hpair : List.Pairwise (· < ·) (history.map Prod.fst)) :
    (buildArchivePure history).verify b
      ((buildArchivePure history).getHash b) = .ok () := by
  simp only [ArchiveDB.verify]
  rw [if_neg (not_not_intro rfl),
    findSome?_none _ _ (fun a2 ha2 => by
      rw [verifyAccount_ok history b a2 hwf hpair])]
  have htouch : ∀ u : Update, ∀ acc : Nat,
      (acc ∈ u.deletedAccounts ∨ acc ∈ u.createdAccounts ∨
        acc ∈ (u.balances.map Prod.fst) ∨ acc ∈ (u.nonces.map Prod.fst) ∨
        acc ∈ (u.codes.map Prod.fst) ∨ acc ∈ u.storage.map SlotWrite.addr) →
      acc ∈ u.touchedAccounts := by
    intro u acc hm
    unfold Update.touchedAccounts
    rw [mem_sortedDedup]
    rcases hm with h | h | h | h | h | h
    all_goals simp [h]
  have hcleanS : ∀ x ∈ ((buildArchivePure history).status.filter
      fun r => r.block ≤ b).map (fun r => r.account),
      (((buildArchivePure history).accountHash.filter
        fun r => r.block ≤ b).map fun r => r.account).contains x = true := by
    intro x hx
    rcases List.mem_map.mp hx with ⟨r, hrf, hrx⟩
    have hrm := List.mem_filter.mp hrf
    obtain ⟨e, he, hbl, hta⟩ := buildPure_status_mem history r hrm.1
    apply (contains_eq_mem x _).mpr
    refine mem_hashAccounts history hpair b x e he ?_ (hrx ▸ hta)
    have hrb : r.block ≤ b := by simpa using hrm.2
    omega
  have hcleanV : ∀ (proj : Update → List (Nat × Nat)),
      (∀ u : Update, ∀ acc : Nat, acc ∈ (proj u).map Prod.fst →
        acc ∈ u.touchedAccounts) →
      ∀ x ∈ ((histValueRows proj history).filter
        fun r => r.block ≤ b).map (fun r => r.account),
      (((buildArchivePure history).accountHash.filter
        fun r => r.block ≤ b).map fun r => r.account).contains x = true := by
    intro proj hproj x hx
    rcases List.mem_map.mp hx with ⟨r, hrf, hrx⟩
    have hrm := List.mem_filter.mp hrf
    obtain ⟨e, he, hbl, hta⟩ := histValueRows_mem proj history r hrm.1
    apply (contains_eq_mem x _).mpr
    refine mem_hashAccounts history hpair b x e he ?_
      (hrx ▸ hproj e.2 r.account hta)
    have hrb : r.block ≤ b := by simpa using hrm.2
    omega
  have hcleanSt : ∀ x ∈ ((buildArchivePure history).storage.filter
      fun r => r.block ≤ b).map (fun r => r.account),
      (((buildArchivePure history).accountHash.filter
        fun r => r.block ≤ b).map fun r => r.account).contains x = true := by
    intro x hx
    rcases List.mem_map.mp hx with ⟨r, hrf, hrx⟩
    have hrm := List.mem_filter.mp hrf
    have hrm2 : r ∈ flatRows (storageRowsOf history) history := by
      have := hrm.1
      rw [buildPure_storage history hwf hpair] at this
      exact this
    obtain ⟨e, he, hbl, hta⟩ := histStorageRows_mem history history r hrm2
    apply (contains_eq_mem x _).mpr
    refine mem_hashAccounts history hpair b x e he ?_
      (hrx ▸ htouch e.2 r.account (by simp [hta]))
    have hrb : r.block ≤ b := by simpa using hrm.2
    omega
  have hbal : (buildArchivePure history).balance =
      histValueRows (fun u => u.balances) history :=
    buildPure_balance history ArchiveDB.empty
  have hnon : (buildArchivePure history).nonce =
      histValueRows (fun u => u.nonces) history :=
    buildPure_nonce history ArchiveDB.empty
  have hcod : (buildArchivePure history).code =
      histValueRows (fun u => u.codes) history :=
    buildPure_code history ArchiveDB.empty
  rw [if_neg (not_not_intro (List.all_eq_true.mpr hcleanS)), hbal, hnon, hcod,
    if_neg (not_not_intro (List.all_eq_true.mpr
      (hcleanV (fun u => u.balances) (fun u acc hm => htouch u acc (by simp [hm]))))),
    if_neg (not_not_intro (List.all_eq_true.mpr
      (hcleanV (fun u => u.nonces) (fun u acc hm => htouch u acc (by simp [hm]))))),
    if_neg (not_not_intro (List.all_eq_true.mpr
      (hcleanV (fun u => u.codes) (fun u acc hm => htouch u acc (by simp [hm]))))),
    if_neg (not_not_intro (List.all_eq_true.mpr hcleanSt))]

/-- C3: for every archive produced by a sequence of successful `Add`
calls (whose block numbers are then necessarily strictly increasing), and
for every height `b` up to the last inserted block, `Verify(b, GetHash(b))`
succeeds: each per-account hash chain replayed from the stored diffs
matches the stored `account_hash` rows, and no content table holds rows
without a matching `account_hash` row. -/
theorem c3_verify_getHash_succeeds (history : List (Nat × Update))
    (db : ArchiveDB) (b : Nat) (hbuild : buildArchive history = .ok db)
    (hb : (b : Int) ≤ db.getLastBlockHeight) :
    db.verify b (db.getHash b) = .ok () := by
  obtain ⟨hdb, hwf, hpair⟩ := buildArchive_ok history db hbuild
  subst hdb
  exact verify_ok history b hwf hpair

/-- A two-block history exercising creation, deletion, balances, nonces,
codes and storage. -/
def c3History : List (Nat × Update) :=
  [(1, { deletedAccounts := []
         createdAccounts := [7]
         balances := [(7, 100)]
         nonces := [(7, 1)]
         codes := []
         storage := [⟨7, 3, 42⟩] }),
   (2, { deletedAccounts := [7]
         createdAccounts := [9]
         balances := [(9, 5)]
         nonces := []
         codes := [(9, 8)]
         storage := [⟨9, 1, 2⟩] })]

theorem c3_verify_getHash_succeeds_witness :
    buildArchive c3History = .ok (buildArchivePure c3History) ∧
    ((2 : Nat) : Int) ≤ (buildArchivePure c3History).getLastBlockHeight ∧
    (buildArchivePure c3History).verify 2
      ((buildArchivePure c3History).getHash 2) = .ok () :=
  ⟨by decide, by decide,
    c3_verify_getHash_succeeds c3History (buildArchivePure c3History) 2
      (by decide) (by decide)⟩

/-! ## C5, C6, C10: `MptState` operations -/

/-- `find?` commutes with an address-preserving per-account map. -/
theorem find?_map_addr (l : List TrieAccount) (g : TrieAccount → TrieAccount)
    (hg : ∀ acc, (g acc).addr = acc.addr) (p : Nat) :
    (l.map g).find? (fun acc => acc.addr = p) =
      (l.find? fun acc => acc.addr = p).map g := by
  induction l with
  | nil => rfl
  | cons x xs ih =>
    by_cases hx : x.addr = p
    · have hgx : (g x).addr = p := by rw [hg, hx]
      simp [List.find?, hgx, hx]
    · have hgx : ¬ (g x).addr = p := by rw [hg]; exact hx
      simp only [List.map_cons, List.find?, decide_eq_true_eq]
      simp [hx, hgx, ih]

/-- `find?` skips a prefix in which it finds nothing. -/
theorem find?_append_of_none {α : Type} (l1 l2 : List α) (p : α → Bool)
    (h : l1.find? p = none) : (l1 ++ l2).find? p = l2.find? p := by
  induction l1 with
  | nil => rfl
  | cons x xs ih =>
    rcases List.find?_eq_none.mp h x (by simp) with hx
    have hxs : xs.find? p = none := by
      rw [List.find?_eq_none] at h ⊢
      intro y hy
      exact h y (by simp [hy])
    simp [List.find?, hx, ih hxs]

/-- An account is absent exactly when the trie lookup finds nothing. -/
theorem getAccountInfo_snd_false_iff (t : LiveTrie) (a : Nat) :
    (t.getAccountInfo a).2 = false ↔
      (t.accounts.find? fun acc => acc.addr = a) = none := by
  unfold LiveTrie.getAccountInfo
  cases h : t.accounts.find? fun acc => acc.addr = a <;> simp [h]

/-- C5: `MptState.CreateAccount(addr)` clears only the storage of an
existing account — its balance, nonce and code hash are preserved, every
storage slot reads as zero afterwards, and all other accounts (info and
storage) are untouched — while for a missing address it inserts a fresh
account whose code hash is the Keccak-256 hash of the empty byte
sequence. -/
theorem c5_createAccount (s : MptState) (a : Nat) :
    ((s.trie.getAccountInfo a).2 = true →
      (s.createAccount a).trie.getAccountInfo a = s.trie.getAccountInfo a ∧
      (∀ k, (s.createAccount a).getStorage a k = 0) ∧
      (∀ a2, a2 ≠ a →
        (s.createAccount a).trie.getAccountInfo a2 = s.trie.getAccountInfo a2 ∧
        ∀ k, (s.createAccount a).getStorage a2 k = s.getStorage a2 k)) ∧
    ((s.trie.getAccountInfo a).2 = false →
      (s.createAccount a).trie.getAccountInfo a = (⟨0, 0, emptyCodeHash⟩, true)) := by
  set g : TrieAccount → TrieAccount :=
    fun acc => if acc.addr = a then ⟨acc.addr, acc.info, []⟩ else acc with hgdef
  have hg : ∀ acc, (g acc).addr = acc.addr := by
    intro acc
    by_cases hacc : acc.addr = a <;> simp [hgdef, hacc]
  constructor
  · intro hex
    have hcr : s.createAccount a = ⟨s.trie.clearStorage a⟩ := by
      simp [MptState.createAccount, hex]
    obtain ⟨acc, hacc⟩ : ∃ acc, (s.trie.accounts.find? fun x => x.addr = a) = some acc := by
      cases h : s.trie.accounts.find? fun x => x.addr = a with
      | some acc => exact ⟨acc, rfl⟩
      | none =>
        rw [(getAccountInfo_snd_false_iff s.trie a).mpr h] at hex
        cases hex
    have haddr : acc.addr = a := by
      have := List.find?_some hacc
      simpa using this
    have hclear :
        ((s.trie.clearStorage a).accounts.find? fun x => x.addr = a) =
          some ⟨acc.addr, acc.info, []⟩ := by
      show ((s.trie.accounts.map g).find? fun x => x.addr = a) = _
      rw [find?_map_addr _ g hg, hacc]
      simp [hgdef, haddr]
    refine ⟨?_, ?_, ?_⟩
    · rw [hcr]
      show (LiveTrie.mk (s.trie.accounts.map g)).getAccountInfo a = _
      unfold LiveTrie.getAccountInfo
      rw [show (LiveTrie.mk (s.trie.accounts.map g)).accounts = s.trie.accounts.map g from rfl]
      rw [find?_map_addr _ g hg, hacc]
      simp [hgdef, haddr]
    · intro k
      rw [hcr]
      show (LiveTrie.mk (s.trie.accounts.map g)).getValue a k = 0
      unfold LiveTrie.getValue
      rw [show (LiveTrie.mk (s.trie.accounts.map g)).accounts = s.trie.accounts.map g from rfl]
      rw [find?_map_addr _ g hg, hacc]
      simp [hgdef, haddr]
    · intro a2 ha2
      have hsame :
          ((s.trie.accounts.map g).find? fun x => x.addr = a2) =
            (s.trie.accounts.find? fun x => x.addr = a2) := by
        rw [find?_map_addr _ g hg]
        cases h2 : s.trie.accounts.find? fun x => x.addr = a2 with
        | none => rfl
        | some acc2 =>
          have haddr2 : acc2.addr = a2 := by
            have := List.find?_some h2
            simpa using this
          have : acc2.addr ≠ a := by rw [haddr2]; exact ha2
          simp [hgdef, this]
      constructor
      · rw [hcr]
        show (LiveTrie.mk (s.trie.accounts.map g)).getAccountInfo a2 = _
        unfold LiveTrie.getAccountInfo
        rw [show (LiveTrie.mk (s.trie.accounts.map g)).accounts = s.trie.accounts.map g from rfl]
        rw [hsame]
      · intro k
        rw [hcr]
        show (LiveTrie.mk (s.trie.accounts.map g)).getValue a2 k = s.trie.getValue a2 k
        unfold LiveTrie.getValue
        rw [show (LiveTrie.mk (s.trie.accounts.map g)).accounts = s.trie.accounts.map g from rfl]
        rw [hsame]
  · intro hmiss
    have hnone := (getAccountInfo_snd_false_iff s.trie a).mp hmiss
    have hcr :
        s.createAccount a = ⟨s.trie.setAccountInfo a ⟨0, 0, emptyCodeHash⟩⟩ := by
      simp [MptState.createAccount, hmiss]
    rw [hcr]
    have hinfo : (⟨0, 0, emptyCodeHash⟩ : AccountInfo) ≠ AccountInfo.emptyInfo := by
      decide
    have hset :
        s.trie.setAccountInfo a ⟨0, 0, emptyCodeHash⟩ =
          ⟨s.trie.accounts ++ [⟨a, ⟨0, 0, emptyCodeHash⟩, []⟩]⟩ := by
      unfold LiveTrie.setAccountInfo
      simp [hinfo, hmiss]
    rw [hset]
    unfold LiveTrie.getAccountInfo
    rw [show (LiveTrie.mk (s.trie.accounts ++ [⟨a, ⟨0, 0, emptyCodeHash⟩, []⟩])).accounts
          = s.trie.accounts ++ [⟨a, ⟨0, 0, emptyCodeHash⟩, []⟩] from rfl]
    rw [find?_append_of_none _ _ _ hnone]
    simp [List.find?]

/-- C5 witness: on a state holding account 1 (balance 5, nonce 6, code
hash 7, slot 2 ↦ 3) and no account 4, `CreateAccount` clears only account
1's storage and inserts account 4 with the empty-code hash. -/
theorem c5_createAccount_witness :
    ((MptState.mk ⟨[⟨1, ⟨5, 6, 7⟩, [(2, 3)]⟩]⟩).trie.getAccountInfo 1).2 = true ∧
    ((MptState.mk ⟨[⟨1, ⟨5, 6, 7⟩, [(2, 3)]⟩]⟩).createAccount 1).trie.getAccountInfo 1 =
      (MptState.mk ⟨[⟨1, ⟨5, 6, 7⟩, [(2, 3)]⟩]⟩).trie.getAccountInfo 1 ∧
    ((MptState.mk ⟨[⟨1, ⟨5, 6, 7⟩, [(2, 3)]⟩]⟩).trie.getAccountInfo 4).2 = false ∧
    ((MptState.mk ⟨[⟨1, ⟨5, 6, 7⟩, [(2, 3)]⟩]⟩).createAccount 4).trie.getAccountInfo 4 =
      (⟨0, 0, emptyCodeHash⟩, true) :=
  ⟨by decide,
    ((c5_createAccount (MptState.mk ⟨[⟨1, ⟨5, 6, 7⟩, [(2, 3)]⟩]⟩) 1).1 (by decide)).1,
    by decide,
    (c5_createAccount (MptState.mk ⟨[⟨1, ⟨5, 6, 7⟩, [(2, 3)]⟩]⟩) 4).2 (by decide)⟩

/-- C6: when the current balance of an address (zero for a missing
account, matching `GetBalance`) already equals the argument,
`MptState.SetBalance` performs no trie write and returns the state
unchanged; likewise `MptState.SetNonce` for an already-equal nonce. -/
theorem c6_set_equal_value_is_noop :
    (∀ (s : MptState) (a bal : Nat),
        (s.trie.getAccountInfo a).1.balance = bal → s.setBalance a bal = (s, false)) ∧
    (∀ (s : MptState) (a non : Nat),
        (s.trie.getAccountInfo a).1.nonce = non → s.setNonce a non = (s, false)) := by
  constructor
  · intro s a bal hb
    unfold MptState.setBalance
    simp [hb]
  · intro s a non hn
    unfold MptState.setNonce
    simp [hn]

/-- C6 witness: setting balance 5 and nonce 6 again on an account that
already has them is the identity with no trie write, also for the zero
balance of a missing account. -/
theorem c6_set_equal_value_is_noop_witness :
    ((MptState.mk ⟨[⟨1, ⟨5, 6, 7⟩, []⟩]⟩).trie.getAccountInfo 1).1.balance = 5 ∧
    (MptState.mk ⟨[⟨1, ⟨5, 6, 7⟩, []⟩]⟩).setBalance 1 5 =
      (MptState.mk ⟨[⟨1, ⟨5, 6, 7⟩, []⟩]⟩, false) ∧
    ((MptState.mk ⟨[⟨1, ⟨5, 6, 7⟩, []⟩]⟩).trie.getAccountInfo 1).1.nonce = 6 ∧
    (MptState.mk ⟨[⟨1, ⟨5, 6, 7⟩, []⟩]⟩).setNonce 1 6 =
      (MptState.mk ⟨[⟨1, ⟨5, 6, 7⟩, []⟩]⟩, false) ∧
    (MptState.mk ⟨[]⟩).setBalance 9 0 = (MptState.mk ⟨[]⟩, false) :=
  ⟨by decide,
    c6_set_equal_value_is_noop.1 (MptState.mk ⟨[⟨1, ⟨5, 6, 7⟩, []⟩]⟩) 1 5 (by decide),
    by decide,
    c6_set_equal_value_is_noop.2 (MptState.mk ⟨[⟨1, ⟨5, 6, 7⟩, []⟩]⟩) 1 6 (by decide),
    c6_set_equal_value_is_noop.1 (MptState.mk ⟨[]⟩) 9 0 (by decide)⟩

/-- C10: for a missing account, `MptState.GetCodeHash` returns the
Keccak-256 hash of the empty byte sequence (there is no error path: the
trie lookup is total), and that hash differs from the zero hash. -/
theorem c10_getCodeHash_missing_account (s : MptState) (a : Nat)
    (h : (s.trie.getAccountInfo a).2 = false) :
    s.getCodeHash a = emptyCodeHash ∧ emptyCodeHash ≠ 0 := by
  refine ⟨?_, by decide⟩
  unfold MptState.getCodeHash
  simp [h]

/-- C10 witness: on the empty state, account 3 is missing and its code
hash reads as the empty-code hash, which is non-zero. -/
theorem c10_getCodeHash_missing_account_witness :
    ((MptState.mk ⟨[]⟩).trie.getAccountInfo 3).2 = false ∧
    (MptState.mk ⟨[]⟩).getCodeHash 3 = emptyCodeHash ∧ emptyCodeHash ≠ 0 :=
  ⟨by decide, c10_getCodeHash_missing_account (MptState.mk ⟨[]⟩) 3 (by decide)⟩

/-! ## C7: repeated `Get` on a missing key -/

/-- C7 (evaluation at the failing input): on a cache-wrapped index whose
underlying index never saw key 5, the first `Get(5)` returns
`index.ErrNotFound`, but the second `Get(5)` — served from the cache entry
stored by the first call — returns the zero id with no error, contrary to
the claim and to the method's own documentation. -/
theorem c7_repeated_get_loses_not_found :
    (CacheIndex.get ⟨[], ⟨10, []⟩⟩ 5).1 = (0, some IndexError.notFound) ∧
    ((CacheIndex.get ⟨[], ⟨10, []⟩⟩ 5).2).get 5 =
      ((0, none), ⟨[], ⟨10, [(5, 0)]⟩⟩) := by
  decide

/-! ## C8: exactness of the code file format -/

/-- Big-endian 4-byte encoding of a record length
(`binary.BigEndian.PutUint32`). -/
def beBytes4 (n : Nat) : List Nat :=
  [n / 2 ^ 24 % 256, n / 2 ^ 16 % 256, n / 2 ^ 8 % 256, n % 256]

/-- One `[hash(32)][length(4, BE)][code]` record of the code file
format. -/
def encodeRecord (h code : List Nat) : List Nat :=
  h ++ beBytes4 code.length ++ code

/-- One unfolding of the `readCodes` record loop. -/
theorem readCodesLoop_succ (f : Nat) (r : BufReader) (res : List (List Nat × List Nat)) :
    readCodesLoop (f + 1) r res =
      if (r.read 32).2.1 then .ok res
      else if (r.read 32).1.length ≠ 32 then .error .corrupted
      else if ((r.read 32).2.2.read 4).2.1 then .error .eofErr
      else if ((r.read 32).2.2.read 4).1.length ≠ 4 then .error .corrupted
      else if (((r.read 32).2.2.read 4).2.2.read
          (beUint32 ((r.read 32).2.2.read 4).1)).2.1 then .error .eofErr
      else if (((r.read 32).2.2.read 4).2.2.read
          (beUint32 ((r.read 32).2.2.read 4).1)).1.length ≠
          beUint32 ((r.read 32).2.2.read 4).1 then .error .corrupted
      else readCodesLoop f
        (((r.read 32).2.2.read 4).2.2.read (beUint32 ((r.read 32).2.2.read 4).1)).2.2
        (insertCode res (r.read 32).1
          (((r.read 32).2.2.read 4).2.2.read (beUint32 ((r.read 32).2.2.read 4).1)).1) :=
  rfl

/-- A read on an empty buffer (below the buffer size) refills from the
file and serves from the refilled buffer. -/
theorem read_fill (file : List Nat) (n : Nat) (hn : n ≠ 0) (hfile : file ≠ [])
    (hsize : n < bufSize) :
    (BufReader.mk [] file).read n =
      ((file.take bufSize).take n, false,
        ⟨(file.take bufSize).drop n, file.drop bufSize⟩) := by
  unfold BufReader.read
  simp [hn, hfile, Nat.not_le.mpr hsize]

/-- A read on a non-empty buffer serves only buffered bytes. -/
theorem read_buffered (buf file : List Nat) (n : Nat) (hn : n ≠ 0) (hbuf : buf ≠ []) :
    (BufReader.mk buf file).read n = (buf.take n, false, ⟨buf.drop n, file⟩) := by
  unfold BufReader.read
  simp [hn, hbuf]

theorem c8_take4096 :
    ((List.replicate 32 1 ++ [0, 0, 15, 221] ++ List.replicate 4061 0).take bufSize) =
      List.replicate 32 1 ++ [0, 0, 15, 221] ++ List.replicate 4060 0 := by
  rw [show bufSize = 4096 from rfl, List.take_append_eq_append_take,
    List.take_append_eq_append_take, List.take_replicate]
  norm_num

theorem c8_drop4096 :
    ((List.replicate 32 1 ++ [0, 0, 15, 221] ++ List.replicate 4061 0).drop bufSize) =
      List.replicate 1 0 := by
  rw [show bufSize = 4096 from rfl, List.drop_append_eq_append_drop,
    List.drop_append_eq_append_drop, List.drop_replicate]
  norm_num

theorem c8_take32 :
    ((List.replicate 32 1 ++ [0, 0, 15, 221] ++ List.replicate 4060 0).take 32) =
      List.replicate 32 1 := by
  rw [List.take_append_eq_append_take, List.take_append_eq_append_take,
    List.take_replicate]
  norm_num

theorem c8_drop32 :
    ((List.replicate 32 1 ++ [0, 0, 15, 221] ++ List.replicate 4060 0).drop 32) =
      [0, 0, 15, 221] ++ List.replicate 4060 0 := by
  rw [List.drop_append_eq_append_drop, List.drop_append_eq_append_drop,
    List.drop_replicate]
  norm_num

theorem c8_ne1 :
    (List.replicate 32 1 ++ [0, 0, 15, 221] ++ List.replicate 4061 (0 : Nat)) ≠ [] := by
  apply List.ne_nil_of_length_pos
  rw [List.length_append, List.length_append, List.length_replicate,
    List.length_replicate]
  norm_num

theorem c8_ne2 : ([0, 0, 15, 221] ++ List.replicate 4060 (0 : Nat)) ≠ [] := by
  apply List.ne_nil_of_length_pos
  rw [List.length_append, List.length_replicate]
  norm_num

theorem c8_ne3 : (List.replicate 4060 (0 : Nat)) ≠ [] := by
  apply List.ne_nil_of_length_pos
  rw [List.length_replicate]
  norm_num

/-- First read of the straddling file: the buffer refills with 4096 of the
4097 bytes and the 32-byte hash read succeeds. -/
theorem c8_step1 :
    (BufReader.mk []
        (List.replicate 32 1 ++ [0, 0, 15, 221] ++ List.replicate 4061 0)).read 32 =
      (List.replicate 32 1, false,
        ⟨[0, 0, 15, 221] ++ List.replicate 4060 0, List.replicate 1 0⟩) := by
  rw [read_fill _ 32 (by norm_num) c8_ne1 (by norm_num [bufSize])]
  rw [c8_take4096, c8_drop4096, c8_take32, c8_drop32]

/-- Second read of the straddling file: the 4-byte length read succeeds
from the buffer. -/
theorem c8_step2 :
    (BufReader.mk ([0, 0, 15, 221] ++ List.replicate 4060 0)
        (List.replicate 1 0)).read 4 =
      ([0, 0, 15, 221], false, ⟨List.replicate 4060 0, List.replicate 1 0⟩) := by
  rw [read_buffered _ _ 4 (by norm_num) c8_ne2]
  rw [List.take_append_eq_append_take, List.drop_append_eq_append_drop,
    List.take_replicate, List.drop_replicate]
  norm_num

/-- Third read of the straddling file: 4061 code bytes are requested but
the non-empty buffer serves only its remaining 4060 bytes. -/
theorem c8_step3 :
    (BufReader.mk (List.replicate 4060 0) (List.replicate 1 0)).read 4061 =
      (List.replicate 4060 0, false, ⟨[], List.replicate 1 0⟩) := by
  rw [read_buffered _ _ 4061 (by norm_num) c8_ne3, List.take_replicate,
    List.drop_replicate]
  norm_num

/-- C8 (evaluation at the failing input): a 4097-byte code file that is
one exact record (32-byte hash, length 4061, 4061 code bytes) is rejected
by `readCodes` with the corrupted-code-file error, because the code read
straddles the 4096-byte `bufio` buffer boundary and is served only 4060
bytes; a small exact file parses completely; and a file truncated right
after a 32-byte hash surfaces the raw end-of-file error instead of the
corrupted-code-file error. -/
theorem c8_exact_code_file_rejected :
    readCodes (encodeRecord (List.replicate 32 1) (List.replicate 4061 0)) =
      .error CodeReadError.corrupted ∧
    readCodes (encodeRecord (List.replicate 32 1) [9, 9]) =
      .ok [(List.replicate 32 1, [9, 9])] ∧
    readCodes (List.replicate 32 1) = .error CodeReadError.eofErr := by
  refine ⟨?_, by decide, by decide⟩
  have hfile : encodeRecord (List.replicate 32 1) (List.replicate 4061 0) =
      List.replicate 32 1 ++ [0, 0, 15, 221] ++ List.replicate 4061 0 := by
    rw [encodeRecord]
    norm_num [beBytes4]
  have hlen :
      (encodeRecord (List.replicate 32 1) (List.replicate 4061 0)).length = 4097 := by
    rw [hfile, List.length_append, List.length_append, List.length_replicate,
      List.length_replicate]
    norm_num
  rw [readCodes, hlen, hfile, readCodesLoop_succ, c8_step1]
  dsimp only
  rw [c8_step2]
  dsimp only
  rw [show beUint32 [0, 0, 15, 221] = 4061 from rfl]
  rw [c8_step3]
  dsimp only
  simp only [List.length_replicate]
  norm_num

end Carmen
